import Mathlib

/-!
# A verification development for reqtraq's requirement graph (req.go)

This file gives a shallow embedding of the requirement-graph core of the
repository (the file `req.go`): the data model (`Req`, `reqGraph`), ingestion
(`AddReq`, `AddCodeRefs`, the `ParseLyx` record loop), linking and status
propagation (`reqGraph.Resolve`, `Req.resolveDown`, `Req.resolveUp`), the
attribute validator (`Req.CheckAttributes`, `reqGraph.CheckAttributes`) and the
dangling-node accessor (`DanglingReqsByPosition`).

Modelling conventions:
* Go pointers `*Req` are modelled as graph keys (`String`): every node lives in
  the graph map exactly once, so pointer identity coincides with key identity.
  The `Parents`/`Children` pointer slices become lists of keys.
* The Go map `reqGraph` is an association list with unique keys; Go's
  nondeterministic map iteration becomes iteration in list order (a
  deterministic refinement; all theorems proved are insensitive to the order,
  and counterexamples use orders realizable by a Go map).
* In-place mutation becomes explicit graph threading: a Go method that mutates
  nodes returns the updated graph.
* The unbounded Go recursion of `resolveUp`/`resolveDown` (which has no cycle
  guard in the source) is given a fuel parameter; `none` models a run that
  does not finish within the given recursion depth, and `log.Fatal` /
  panics (e.g. `req.Parents[0]` on an empty slice) are also modelled as `none`.
* Go `string` operations are modelled on the underlying character lists
  (`String.data`), faithful to `strings.Split`/`TrimSpace`/`HasPrefix`/
  `ToUpper`/`TrimPrefix` for the inputs at hand.
* `sort.Sort(byPosition ...)` sorts by `Position` with an unstable algorithm;
  it is modelled by `List.insertionSort` with `fun a b => pos a ≤ pos b`,
  which produces a sorted permutation exactly as the source does (for
  two-element and distinct-position inputs, the very same one Go produces).
* The regular-expression engine used by `CheckAttributes` is Go's `regexp`
  standard library, external to the repository; it is passed in as an abstract
  compile function `String → Option (String → Bool)` (`none` models a pattern
  on which `regexp.Compile` fails, which the source turns into `log.Fatal`).
-/

/-- The four levels of the requirement graph (req.go `RequirementLevel`). -/
inductive RequirementLevel where
  | SYSTEM
  | HIGH
  | LOW
  | CODE
deriving DecidableEq, Repr

/-- Numeric value of a level, as in the Go `iota` enumeration. -/
def levelNat : RequirementLevel → Nat
  | .SYSTEM => 0
  | .HIGH => 1
  | .LOW => 2
  | .CODE => 3

/-- Completion status of a requirement (req.go `RequirementStatus`). -/
inductive RequirementStatus where
  | NOT_STARTED
  | STARTED
  | COMPLETED
deriving DecidableEq, Repr

/-- A requirement node (req.go `Req`).  `Parents` and `Children` hold graph
keys standing for the `*Req` pointers of the source.  Field defaults are the
Go zero values. -/
structure Req where
  ID : String := ""
  Level : RequirementLevel := .SYSTEM
  Path : String := ""
  FileHash : String := ""
  ParentIds : List String := []
  Parents : List String := []
  Children : List String := []
  Body : String := ""
  Attributes : List (String × String) := []
  Position : Int := 0
  Seen : Bool := false
  Status : RequirementStatus := .NOT_STARTED
deriving DecidableEq, Repr

/-- A reqGraph maps IDs and paths to requirement nodes (req.go `reqGraph`),
modelled as an association list with unique keys. -/
abbrev reqGraph := List (String × Req)

/-- Map lookup `rg[k]` (first matching key). -/
def getReq : reqGraph → String → Option Req
  | [], _ => none
  | (k', r) :: rest, k => if k' = k then some r else getReq rest k

/-- Mutation of the node stored under a key (a write through the Go pointer). -/
def setReq : reqGraph → String → (Req → Req) → reqGraph
  | [], _, _ => []
  | (k', r) :: rest, k, f =>
      (k', if k' = k then f r else r) :: setReq rest k f

/-- The key set of the graph, in iteration order. -/
def keys (g : reqGraph) : List String := g.map (·.1)

/-! ## String helpers, modelling the Go `strings` operations on `String.data` -/

/-- Go `strings.Split(s, sep)[0]`: the characters before the first separator
(the whole string when the separator does not occur). -/
def firstLine (cs : List Char) : List Char := cs.takeWhile (· ≠ '\n')

/-- Go `strings.TrimSpace` (white space per `Char.isWhitespace`; agrees with
Go's `unicode.IsSpace` on ASCII). -/
def trimChars (cs : List Char) : List Char :=
  ((cs.dropWhile Char.isWhitespace).reverse.dropWhile Char.isWhitespace).reverse

/-- Go `strings.SplitN(s, "\n", 2)` reduced to its observable content: the
text around the first newline, or `none` when the string has a single field
(no newline at all). -/
def splitFirstNL : List Char → Option (List Char × List Char)
  | [] => none
  | c :: rest =>
      if c = '\n' then some ([], rest)
      else (splitFirstNL rest).map (fun p => (c :: p.1, p.2))

/-- Go `strings.ToUpper`. -/
def upperStr (s : String) : String := ⟨s.data.map Char.toUpper⟩

/-- Go `strings.TrimPrefix`. -/
def trimPrefixStr (s pre : String) : String :=
  if pre.data.isPrefixOf s.data then ⟨s.data.drop pre.data.length⟩ else s

/-- Association-list lookup for the Go `map[string]string` attribute maps. -/
def attrGet : List (String × String) → String → Option String
  | [], _ => none
  | (k', v) :: rest, k => if k' = k then some v else attrGet rest k

/-- Go `delete(m, k)` on an attribute map. -/
def attrErase (m : List (String × String)) (k : String) : List (String × String) :=
  m.filter (fun p => p.1 ≠ k)

/-! ## The Req methods of req.go -/

/-- `Req.Title`: the trimmed first line of the body (req.go:115). -/
def Req.Title (r : Req) : String := ⟨trimChars (firstLine r.Body.data)⟩

/-- `Req.BodyWithoutTitle` (req.go:124): everything after the first newline of
the body; when the body has no newline the source calls `log.Fatal` and never
returns, modelled by `none`. -/
def Req.BodyWithoutTitle (r : Req) : Option String :=
  match splitFirstNL r.Body.data with
  | none => none
  | some p => some ⟨p.2⟩

/-- `Req.IsDeleted` (req.go:133): the title starts with `DELETED`. -/
def Req.IsDeleted (r : Req) : Bool := "DELETED".data.isPrefixOf r.Title.data

/-- Current status of the node stored under a key (`r.Status` read through the
pointer); `NOT_STARTED` is the Go zero value. -/
def statusOf (g : reqGraph) (k : String) : RequirementStatus :=
  match getReq g k with
  | some r => r.Status
  | none => .NOT_STARTED

/-- Current position of the node stored under a key (`r.Position` read through
the pointer). -/
def posOf (g : reqGraph) (k : String) : Int :=
  match getReq g k with
  | some r => r.Position
  | none => 0

/-- The `for _, p := range r.Parents { p.resolveUp() }` loop of
`Req.resolveUp`, with the recursive call abstracted. -/
def resolveUpGo (f : reqGraph → String → Option reqGraph) :
    reqGraph → List String → Option reqGraph
  | g, [] => some g
  | g, p :: ps =>
      match f g p with
      | none => none
      | some g1 => resolveUpGo f g1 ps

/-- `Req.resolveUp` (req.go:92): mark the node reached, then recurse into the
parents.  `fuel` bounds the recursion depth (the source has no cycle guard);
`none` models a run that does not finish within it. -/
def Req.resolveUp : Nat → reqGraph → String → Option reqGraph
  | 0, _, _ => none
  | fuel + 1, g, k =>
      match getReq g k with
      | none => none
      | some r =>
          resolveUpGo (Req.resolveUp fuel)
            (setReq g k (fun q => { q with Seen := true })) r.Parents

/-- The `for _, c := range r.Children` loop of `Req.resolveDown`: resolve each
child and set the current node's status to `STARTED` whenever a child does not
come back `COMPLETED`. -/
def resolveDownGo (f : reqGraph → String → Option (reqGraph × RequirementStatus))
    (k : String) : reqGraph → List String → Option reqGraph
  | g, [] => some g
  | g, c :: cs =>
      match f g c with
      | none => none
      | some (g2, st) =>
          resolveDownGo f k
            (if st ≠ .COMPLETED then
              setReq g2 k (fun q => { q with Status := .STARTED })
            else g2) cs

/-- `Req.resolveDown` (req.go:99): mark the node reached and `COMPLETED`; a
non-CODE node with no children becomes `NOT_STARTED`; otherwise every child is
resolved and any incomplete child demotes the node to `STARTED`.  Returns the
node's status (read back from the graph, as the source returns `r.Status`). -/
def Req.resolveDown : Nat → reqGraph → String → Option (reqGraph × RequirementStatus)
  | 0, _, _ => none
  | fuel + 1, g, k =>
      match getReq g k with
      | none => none
      | some r =>
          let g1 := setReq g k (fun q => { q with Seen := true, Status := .COMPLETED })
          if r.Level ≠ .CODE ∧ r.Children = [] then
            some (setReq g1 k (fun q => { q with Status := .NOT_STARTED }), .NOT_STARTED)
          else
            match resolveDownGo (Req.resolveDown fuel) k g1 r.Children with
            | none => none
            | some g2 => some (g2, statusOf g2 k)

/-! ## Linking (reqGraph.Resolve, req.go:384) -/

/-- Error text for a missing declared-parent list (req.go:390). -/
def noParentsMsg (req : Req) : String :=
  "Requirement " ++ req.ID ++ " in file " ++ req.Path ++ " has no parents.\n"

/-- Error text for a parent id absent from the graph, in the CODE /
specification variants of req.go:406-408. -/
def parentMissingMsg (req : Req) (parentId : String) : String :=
  if req.Level ≠ .CODE then
    "Invalid parent of requirement " ++ req.ID ++ ": " ++ parentId ++ " does not exist.\n"
  else
    "Invalid reference in file " ++ req.Path ++ ": " ++ parentId ++ " does not exist.\n"

/-- Error text for a parent that is deleted (superseded), in the CODE /
specification variants of req.go:397-399. -/
def parentDeletedMsg (req : Req) (parentId : String) : String :=
  if req.Level ≠ .CODE then
    "Invalid parent of requirement " ++ req.ID ++ ": " ++ parentId ++ " is deleted.\n"
  else
    "Invalid reference in file " ++ req.Path ++ ": " ++ parentId ++ " is deleted.\n"

/-- One iteration of the declared-parent loop of `Resolve` (req.go:392-411)
for the node stored under `k`: look the parent id up; when present, record a
deletion error if appropriate and append the bidirectional edge (the source
appends it in the deleted case as well); when absent, record the
does-not-exist error.  The fields of `req` read here (`ID`, `Path`, `Level`,
`Body`) are never mutated by linking, so capturing the node at loop entry
matches the source reading them through the pointer. -/
def linkParent (g : reqGraph) (k : String) (req : Req) (parentId : String) :
    reqGraph × List String :=
  match getReq g parentId with
  | some parent =>
      let errs := if parent.IsDeleted ∧ ¬ req.IsDeleted then
          [parentDeletedMsg req parentId] else []
      let g1 := setReq g parentId (fun p => { p with Children := p.Children ++ [k] })
      let g2 := setReq g1 k (fun q => { q with Parents := q.Parents ++ [parentId] })
      (g2, errs)
  | none => (g, [parentMissingMsg req parentId])

/-- The `for _, parentId := range req.ParentIds` loop of `Resolve`. -/
def linkParents (k : String) (req : Req) : reqGraph → List String → reqGraph × List String
  | g, [] => (g, [])
  | g, pid :: pids =>
      let p1 := linkParent g k req pid
      let p2 := linkParents k req p1.1 pids
      (p2.1, p1.2 ++ p2.2)

/-- The body of the outer `for _, req := range rg` loop of `Resolve`
(req.go:388-412): the has-no-parents check followed by the parent loop. -/
def linkNode (g : reqGraph) (k : String) : reqGraph × List String :=
  match getReq g k with
  | none => (g, [])
  | some req =>
      let e0 := if req.ParentIds = [] ∧ req.Level ≠ .SYSTEM then [noParentsMsg req] else []
      let p := linkParents k req g req.ParentIds
      (p.1, e0 ++ p.2)

/-- The linking phase of `Resolve`: process every node, accumulating the
error messages (the source accumulates them in `errorResult`; the list keeps
the appended fragments, whose concatenation is `errorResult`). -/
def linkAll : reqGraph → List String → reqGraph × List String
  | g, [] => (g, [])
  | g, k :: ks =>
      let p1 := linkNode g k
      let p2 := linkAll p1.1 ks
      (p2.1, p1.2 ++ p2.2)

/-- Sorting a list of node keys by the referenced nodes' positions: the model
of `sort.Sort(byPosition(...))` (req.go:596-600).  The source's unstable sort
and this insertion sort both return a permutation that is nondecreasing in
position. -/
def sortReqs (g : reqGraph) (ks : List String) : List String :=
  List.insertionSort (fun a b => posOf g a ≤ posOf g b) ks

/-- The `req.resolveDown()` pass over SYSTEM-level nodes (req.go:419-423). -/
def downPhase (fuel : Nat) : reqGraph → List String → Option reqGraph
  | g, [] => some g
  | g, k :: ks =>
      match getReq g k with
      | none => downPhase fuel g ks
      | some r =>
          if r.Level = .SYSTEM then
            match Req.resolveDown fuel g k with
            | none => none
            | some (g1, _) => downPhase fuel g1 ks
          else downPhase fuel g ks

/-- The sorting pass of `Resolve` (req.go:425-428): sort every node's parent
and child collections by position. -/
def sortPhase : reqGraph → List String → reqGraph
  | g, [] => g
  | g, k :: ks =>
      sortPhase
        (setReq g k (fun r =>
          { r with Parents := sortReqs g r.Parents, Children := sortReqs g r.Children })) ks

/-- The `req.resolveUp()` pass over CODE-level nodes together with the
position inheritance `req.Position = req.Parents[0].Position`
(req.go:430-435).  Indexing `Parents[0]` on an empty slice panics in Go,
modelled by `none`. -/
def upPhase (fuel : Nat) : reqGraph → List String → Option reqGraph
  | g, [] => some g
  | g, k :: ks =>
      match getReq g k with
      | none => upPhase fuel g ks
      | some r =>
          if r.Level = .CODE then
            match Req.resolveUp fuel g k with
            | none => none
            | some g1 =>
                match getReq g1 k with
                | none => none
                | some r1 =>
                    match r1.Parents with
                    | [] => none
                    | p :: _ =>
                        upPhase fuel
                          (setReq g1 k (fun q => { q with Position := posOf g1 p })) ks
          else upPhase fuel g ks

/-- `reqGraph.Resolve` (req.go:384): link every node; when any error text was
accumulated, return it (with the trailing newline of req.go:415) without
running status propagation; otherwise run the downward pass from SYSTEM
nodes, sort all link collections by position, and run the upward pass (with
position inheritance) from CODE nodes.  The result pairs the final graph with
`some errorText` or `none` for a clean run; an overall `none` models a run
that does not terminate (or panics) in the propagation phase. -/
def reqGraph.Resolve (fuel : Nat) (g : reqGraph) : Option (reqGraph × Option String) :=
  let p := linkAll g (keys g)
  if String.join p.2 ≠ "" then some (p.1, some (String.join p.2 ++ "\n"))
  else
    match downPhase fuel p.1 (keys p.1) with
    | none => none
    | some g2 =>
        let g3 := sortPhase g2 (keys g2)
        match upPhase fuel g3 (keys g3) with
        | none => none
        | some g4 => some (g4, none)

/-- `reqGraph.DanglingReqsByPosition` (req.go:579): the keys of all nodes not
marked `Seen`, sorted by position. -/
def DanglingReqsByPosition (g : reqGraph) : List String :=
  sortReqs g ((g.filter (fun p => !p.2.Seen)).map (·.1))

/-! ## Ingestion (AddReq, AddCodeRefs, the ParseLyx record loop) -/

/-- A raw requirement record as delivered by the lyx document parser
(`lyx.Req`, outside this repository's core): identifier, requirement-type tag
(in the source computed from the ID by `lyx.Req.ReqType()`), declared parent
ids, attribute map and position index. -/
structure LyxReq where
  ID : String := ""
  ReqType : String := ""
  Parents : List String := []
  Attributes : List (String × String) := []
  Position : Int := 0
deriving DecidableEq, Repr

/-- The requirement-type → level table of req.go:46. -/
def ReqTypeToReqLevel : String → Option RequirementLevel
  | "SYS" => some .SYSTEM
  | "SWH" => some .HIGH
  | "HWH" => some .HIGH
  | "SWL" => some .LOW
  | "HWL" => some .LOW
  | _ => none

/-- `reqGraph.AddReq` (req.go:303): reject a record whose identifier is
already a key of the graph, with an error naming the current and the prior
defining path; otherwise map the type tag to a level (`log.Fatal`, modelled
`none`, on an unknown tag), trim the repository prefix from the path, store
the node with the record's `TEXT` attribute as body, and delete `TEXT` from
the (aliased) attribute map. -/
def reqGraph.AddReq (rg : reqGraph) (req : LyxReq) (path : String) (repoPath : String) :
    Option (Except String reqGraph) :=
  match getReq rg req.ID with
  | some v =>
      some (.error ("Requirement " ++ req.ID ++ " in " ++ path ++
        " already defined in " ++ v.Path))
  | none =>
      match ReqTypeToReqLevel req.ReqType with
      | none => none
      | some level =>
          let path1 := trimPrefixStr path repoPath
          some (.ok (rg ++ [(req.ID,
            { ID := req.ID, Level := level, ParentIds := req.Parents, Path := path1,
              Body := (attrGet req.Attributes "TEXT").getD "",
              Attributes := attrErase req.Attributes "TEXT",
              Position := req.Position })]))

/-- `reqGraph.AddCodeRefs` (req.go:379): code nodes are keyed by file name,
carry the extracted references as declared parents, and are exempt from the
duplicate check. -/
def reqGraph.AddCodeRefs (rg : reqGraph) (id fileName fileHash : String)
    (reqIds : List String) : reqGraph :=
  rg ++ [(fileName,
    { ID := id, Path := fileName, FileHash := fileHash, ParentIds := reqIds,
      Level := .CODE })]

/-- The record loop of `ParseLyx` (req.go:646-660) for records that parse and
lint cleanly (the lyx parser and `lintLyxReq` live outside the modelled
source): assign `Position := loop index` and call `AddReq`.  As in the source
(req.go:659), the value returned by `AddReq` is DISCARDED: a duplicate
identifier leaves the graph unchanged and adds nothing to the returned error
list.  `none` models the `log.Fatal` inside `AddReq`. -/
def ParseLyxLoop (repoPath fileName : String) :
    reqGraph → Nat → List LyxReq → Option (reqGraph × List String)
  | g, _, [] => some (g, [])
  | g, i, r :: rs =>
      match reqGraph.AddReq g { r with Position := (i : Int) } fileName repoPath with
      | none => none
      | some (.error _) => ParseLyxLoop repoPath fileName g (i + 1) rs
      | some (.ok g1) => ParseLyxLoop repoPath fileName g1 (i + 1) rs

/-! ## Attribute validation (CheckAttributes, req.go:137 and req.go:319) -/

/-- Error text for a missing required attribute (req.go:145). -/
def missingAttrMsg (r : Req) (v : String) : String :=
  "Requirement \x27" ++ r.ID ++ "\x27 is missing attribute \x27" ++ v ++ "\x27.\n"

/-- Error text for an attribute value that fails the schema pattern,
echoing the expected pattern (req.go:157). -/
def invalidAttrMsg (r : Req) (aName val pat : String) : String :=
  "Requirement \x27" ++ r.ID ++ "\x27 has invalid value \x27" ++ val ++
    "\x27 in attribute \x27" ++ aName ++ "\x27. Expected " ++ pat ++ ".\n"

/-- The `for k, v := range a` loop of `Req.CheckAttributes` over the entries
of one schema rule map `a` (req.go:140-161), with the regexp engine
abstracted as `compile` (`none` = `regexp.Compile` error = `log.Fatal`,
modelled as `none` overall).  The `value` case looks `name` up in the whole
rule map `a`, as `a["name"]` does (missing key yields the empty string). -/
def checkAttrEntries (compile : String → Option (String → Bool)) (r : Req)
    (a : List (String × String)) : List (String × String) → Option (List String)
  | [] => some []
  | (k, v) :: rest =>
      match checkAttrEntries compile r a rest with
      | none => none
      | some tailErrs =>
          if k = "name" then
            if (attrGet r.Attributes (upperStr v)).isNone ∧
                ¬ (r.Level = .SYSTEM ∧ upperStr v = "PARENTS") then
              some (missingAttrMsg r v :: tailErrs)
            else some tailErrs
          else if k = "value" then
            match attrGet r.Attributes (upperStr ((attrGet a "name").getD "")) with
            | none => some tailErrs
            | some val =>
                match compile v with
                | none => none
                | some m =>
                    if ¬ m val then
                      some (invalidAttrMsg r (upperStr ((attrGet a "name").getD "")) val v
                        :: tailErrs)
                    else some tailErrs
          else some tailErrs

/-- `Req.CheckAttributes` (req.go:137): validate the node against every rule
of the schema, accumulating the error messages. -/
def Req.CheckAttributes (compile : String → Option (String → Bool)) (r : Req) :
    List (List (String × String)) → Option (List String)
  | [] => some []
  | a :: as =>
      match checkAttrEntries compile r a a with
      | none => none
      | some es =>
          match Req.CheckAttributes compile r as with
          | none => none
          | some tl => some (es ++ tl)

/-- `reqGraph.CheckAttributes` (req.go:319): validate every non-CODE node. -/
def reqGraph.CheckAttributes (compile : String → Option (String → Bool))
    (as : List (List (String × String))) : reqGraph → Option (List String)
  | [] => some []
  | (_, req) :: rest =>
      match (if req.Level ≠ .CODE then Req.CheckAttributes compile req as else some []) with
      | none => none
      | some es =>
          match reqGraph.CheckAttributes compile as rest with
          | none => none
          | some tl => some (es ++ tl)

/-! ## Pure structure-level functions used to state properties

These read only the link structure (`Level`, `Children`, `Parents`) of the
graph, never the mutable `Seen`/`Status` fields, and are used to
characterise what the traversals of req.go compute. -/

/-- All-children-`COMPLETED` test, with the child evaluation abstracted
(mirrors the shape of the `resolveDown` child loop). -/
def statusAllGo (f : String → Option RequirementStatus) :
    List String → Option Bool
  | [] => some true
  | c :: cs =>
      match f c with
      | none => none
      | some st =>
          match statusAllGo f cs with
          | none => none
          | some b => some (if st = .COMPLETED then b else false)

/-- The status that `resolveDown` computes for a node, as a pure function of
the link structure: `NOT_STARTED` for a childless non-CODE node, otherwise
`COMPLETED` exactly when every child's status is `COMPLETED`, else
`STARTED`.  Fuel mirrors the recursion depth of `resolveDown`. -/
def statusSpec : Nat → reqGraph → String → Option RequirementStatus
  | 0, _, _ => none
  | fuel + 1, g, k =>
      match getReq g k with
      | none => none
      | some r =>
          if r.Level ≠ .CODE ∧ r.Children = [] then some .NOT_STARTED
          else
            match statusAllGo (statusSpec fuel g) r.Children with
            | none => none
            | some b => some (if b then .COMPLETED else .STARTED)

/-- Downward reachability along `Children` within a recursion depth
(reflexive). -/
def downReach : Nat → reqGraph → String → String → Bool
  | 0, _, _, _ => false
  | fuel + 1, g, k, j =>
      decide (k = j) ||
        (match getReq g k with
         | none => false
         | some r => r.Children.any (fun c => downReach fuel g c j))

/-- Upward reachability along `Parents` within a recursion depth
(reflexive). -/
def upReach : Nat → reqGraph → String → String → Bool
  | 0, _, _, _ => false
  | fuel + 1, g, k, j =>
      decide (k = j) ||
        (match getReq g k with
         | none => false
         | some r => r.Parents.any (fun p => upReach fuel g p j))

/-- One resolved child link is well formed: the child key is present and its
level is strictly higher (closer to CODE) than the given level. -/
def childOkB (g : reqGraph) (lv : RequirementLevel) (c : String) : Bool :=
  match getReq g c with
  | some rc => decide (levelNat lv < levelNat rc.Level)
  | none => false

/-- One resolved parent link is well formed: the parent key is present and
its level is strictly lower (closer to SYSTEM) than the given level. -/
def parentOkB (g : reqGraph) (lv : RequirementLevel) (p : String) : Bool :=
  match getReq g p with
  | some rp => decide (levelNat rp.Level < levelNat lv)
  | none => false

/-- Every resolved child link of every node points to a present node of
strictly higher level — the documented precondition of the status
propagation (SYSTEM→HIGH→LOW→CODE only). -/
def ChildrenOkB (g : reqGraph) : Bool :=
  g.all (fun p => p.2.Children.all (childOkB g p.2.Level))

/-- Every resolved parent link of every node points to a present node of
strictly lower level. -/
def ParentsOkB (g : reqGraph) : Bool :=
  g.all (fun p => p.2.Parents.all (parentOkB g p.2.Level))

/-- `ChildrenOkB` as a statement about lookups (what the proofs consume). -/
def ChildrenOkP (g : reqGraph) : Prop :=
  ∀ k r, getReq g k = some r → ∀ c ∈ r.Children,
    ∃ rc, getReq g c = some rc ∧ levelNat r.Level < levelNat rc.Level

/-- `ParentsOkB` as a statement about lookups. -/
def ParentsOkP (g : reqGraph) : Prop :=
  ∀ k r, getReq g k = some r → ∀ p ∈ r.Parents,
    ∃ rp, getReq g p = some rp ∧ levelNat rp.Level < levelNat r.Level

/-- The link structure a traversal reads: level, children, parents. -/
def structOf (r : Req) : RequirementLevel × List String × List String :=
  (r.Level, r.Children, r.Parents)

/-- Everything except the mutable `Seen`/`Status` pair. -/
def coreOf (r : Req) :
    String × RequirementLevel × String × String × List String × List String ×
      List String × String × List (String × String) × Int :=
  (r.ID, r.Level, r.Path, r.FileHash, r.ParentIds, r.Parents, r.Children,
    r.Body, r.Attributes, r.Position)

/-- The mutable pair written by status propagation. -/
def ssOf (r : Req) : Bool × RequirementStatus := (r.Seen, r.Status)

/-- Two graphs with the same link structure at every key. -/
def sameStruct (g h : reqGraph) : Prop :=
  ∀ j, (getReq g j).map structOf = (getReq h j).map structOf

/-- `h'` differs from `h` at most in the `Seen`/`Status` fields. -/
def ssOnly (h h' : reqGraph) : Prop :=
  ∀ j, (getReq h' j).map coreOf = (getReq h j).map coreOf

/-- A SYSTEM-level root of the downward pass. -/
def sysRootB (g : reqGraph) (k : String) : Bool :=
  match getReq g k with
  | some r => decide (r.Level = .SYSTEM)
  | none => false

/-- A CODE-level root of the upward pass. -/
def codeRootB (g : reqGraph) (k : String) : Bool :=
  match getReq g k with
  | some r => decide (r.Level = .CODE)
  | none => false

/-- Reached by the downward pass: reachable along children from some
SYSTEM-level node of the graph. -/
def downVisitedB (fuel : Nat) (g : reqGraph) (j : String) : Bool :=
  (keys g).any (fun k => sysRootB g k && downReach fuel g k j)

/-- Reached by the upward pass: reachable along parents from some CODE-level
node of the graph. -/
def upVisitedB (fuel : Nat) (g : reqGraph) (j : String) : Bool :=
  (keys g).any (fun k => codeRootB g k && upReach fuel g k j)

/-- Everything except the resolved `Parents`/`Children` collections — the
fields the linking phase never writes. -/
def nonLinkOf (r : Req) :
    String × RequirementLevel × String × String × List String × String ×
      List (String × String) × Int × Bool × RequirementStatus :=
  (r.ID, r.Level, r.Path, r.FileHash, r.ParentIds, r.Body, r.Attributes,
    r.Position, r.Seen, r.Status)

/-- The status-propagation phase of `Resolve` taken on its own: the
`resolveDown` pass over SYSTEM-level nodes followed by the `resolveUp` (and
position inheritance) pass over CODE-level nodes, as run by req.go:419-435
once linking succeeded (re-running it does not re-sort). -/
def propagate (fuel : Nat) (g : reqGraph) : Option reqGraph :=
  match downPhase fuel g (keys g) with
  | none => none
  | some g1 => upPhase fuel g1 (keys g1)

/-- Pointwise equal presence and level, with parent/child collections equal
up to permutation: what the sorting pass preserves of the link structure. -/
def permStruct (g h : reqGraph) : Prop :=
  ∀ j, (getReq g j = none ∧ getReq h j = none) ∨
    ∃ rg rh, getReq g j = some rg ∧ getReq h j = some rh ∧
      rg.Level = rh.Level ∧ rg.Children.Perm rh.Children ∧ rg.Parents.Perm rh.Parents

/-- A key list is sorted by the referenced nodes' position indices. -/
def sortedByPos (g : reqGraph) (ks : List String) : Prop :=
  List.Pairwise (fun a b => posOf g a ≤ posOf g b) ks

/-- The resolved-parent collection of the node stored under a key. -/
def parentsOf (g : reqGraph) (j : String) : List String :=
  match getReq g j with
  | some r => r.Parents
  | none => []

/-- The resolved-child collection of the node stored under a key. -/
def childrenOf (g : reqGraph) (j : String) : List String :=
  match getReq g j with
  | some r => r.Children
  | none => []

/-- The error fragments the linking loop of `Resolve` produces for one node,
as a function of the pre-linking graph: the has-no-parents error followed by
one resolution error per declared parent that is absent or superseded. -/
def nodeErrsSpec (g : reqGraph) (k : String) : List String :=
  match getReq g k with
  | none => []
  | some req =>
      (if req.ParentIds = [] ∧ req.Level ≠ .SYSTEM then [noParentsMsg req] else []) ++
        req.ParentIds.filterMap (fun pid =>
          match getReq g pid with
          | none => some (parentMissingMsg req pid)
          | some p =>
              if p.IsDeleted ∧ ¬ req.IsDeleted then some (parentDeletedMsg req pid)
              else none)

/-! ### Concrete example graphs used by counterexamples and witnesses -/

/-- A superseded SYSTEM node: its title starts with `DELETED`. -/
def exP4 : Req := { ID := "P", Level := .SYSTEM, Body := "DELETED Old requirement\nGone." }

/-- A live HIGH node declaring the superseded node as its parent. -/
def exR4 : Req :=
  { ID := "R", Level := .HIGH, Path := "r.lyx", ParentIds := ["P"],
    Body := "Current requirement\nText." }

/-- The two-node graph with a superseded-parent reference. -/
def exG4 : reqGraph := [("P", exP4), ("R", exR4)]

/-- A parentless HIGH node (a has-no-parents defect). -/
def exA5 : Req := { ID := "A", Level := .HIGH, Path := "a.lyx", Body := "A\nx" }

/-- A HIGH node declaring a parent that does not exist. -/
def exB5 : Req :=
  { ID := "B", Level := .HIGH, Path := "b.lyx", ParentIds := ["X"], Body := "B\nx" }

/-- A HIGH node declaring the superseded node `P` as parent. -/
def exC5 : Req :=
  { ID := "C", Level := .HIGH, Path := "c.lyx", ParentIds := ["P"], Body := "C\nx" }

/-- A graph exhibiting all three linking defects at once. -/
def exG5 : reqGraph := [("P", exP4), ("A", exA5), ("B", exB5), ("C", exC5)]

/-- A LOW node declaring the other LOW node as its parent (C3). -/
def exA3 : Req :=
  { ID := "SWL-A", Level := .LOW, Path := "a.lyx", ParentIds := ["SWL-B"],
    Body := "A\nx" }

/-- The second LOW node of the two-node parent cycle (C3). -/
def exB3 : Req :=
  { ID := "SWL-B", Level := .LOW, Path := "b.lyx", ParentIds := ["SWL-A"],
    Body := "B\nx" }

/-- Two LOW nodes declaring each other as parents: a parent cycle. -/
def exG3 : reqGraph := [("SWL-A", exA3), ("SWL-B", exB3)]

/-- A SYSTEM node with one resolved child link, for the level-precondition
witness (C3). -/
def exS3 : Req := { ID := "S3", Level := .SYSTEM, Children := ["H3"], Body := "S\nx" }

/-- The HIGH child of `exS3`, with its resolved parent link. -/
def exH3 : Req := { ID := "H3", Level := .HIGH, Parents := ["S3"], Body := "H\nx" }

/-- A well-levelled two-node resolved graph (C3 witness). -/
def exG3w : reqGraph := [("S3", exS3), ("H3", exH3)]

/-- The SYSTEM root of a fully linked three-level chain (C1 witness). -/
def exS1 : Req := { ID := "S1", Level := .SYSTEM, Children := ["H1"], Body := "S\nx" }

/-- The HIGH middle node of the chain. -/
def exH1 : Req :=
  { ID := "H1", Level := .HIGH, Parents := ["S1"], Children := ["C1"], Body := "H\nx" }

/-- The CODE leaf of the chain. -/
def exC1 : Req := { ID := "C1", Level := .CODE, Parents := ["H1"], Body := "C\nx" }

/-- A fully linked SYSTEM→HIGH→CODE chain. -/
def exG1 : reqGraph := [("S1", exS1), ("H1", exH1), ("C1", exC1)]

/-- The chain after `resolveDown` from its SYSTEM root: every node reached
and `COMPLETED`. -/
def exG1r : reqGraph :=
  [("S1", { exS1 with Seen := true, Status := .COMPLETED }),
    ("H1", { exH1 with Seen := true, Status := .COMPLETED }),
    ("C1", { exC1 with Seen := true, Status := .COMPLETED })]

/-- A SYSTEM node with no declared parents (C2). -/
def exS2 : Req := { ID := "S2", Level := .SYSTEM, Path := "s.lyx", Body := "S\nx" }

/-- A childless HIGH node declaring the SYSTEM node as parent: a
specification node with no path to any CODE node (C2). -/
def exH2 : Req :=
  { ID := "H2", Level := .HIGH, Path := "h.lyx", ParentIds := ["S2"], Body := "H\nx" }

/-- The two-node CODE-free graph of the C2 counterexample. -/
def exG2 : reqGraph := [("S2", exS2), ("H2", exH2)]

/-- `exS2` as `Resolve` leaves it: linked to its child, reached, STARTED. -/
def exS2f : Req := { exS2 with Children := ["H2"], Seen := true, Status := .STARTED }

/-- `exH2` as `Resolve` leaves it: linked, reached, NOT_STARTED. -/
def exH2f : Req := { exH2 with Parents := ["S2"], Seen := true, Status := .NOT_STARTED }

/-- The graph `Resolve` returns on `exG2`. -/
def exG2f : reqGraph := [("S2", exS2f), ("H2", exH2f)]

/-- The SYSTEM root of the C7 counterexample (position 0). -/
def exS7 : Req := { ID := "S7", Level := .SYSTEM, Path := "s.lyx", Position := 0, Body := "S\nx" }

/-- A HIGH node under the root (position 1). -/
def exP7 : Req :=
  { ID := "P7", Level := .HIGH, Path := "p.lyx", ParentIds := ["S7"], Position := 1,
    Body := "P\nx" }

/-- A childless LOW node (position 5). -/
def exM7 : Req :=
  { ID := "M7", Level := .LOW, Path := "m.lyx", ParentIds := ["P7"], Position := 5,
    Body := "M\nx" }

/-- A LOW node (position 2) that will also parent the CODE node. -/
def exL7 : Req :=
  { ID := "L7", Level := .LOW, Path := "l.lyx", ParentIds := ["P7"], Position := 2,
    Body := "L\nx" }

/-- A CODE node (position 10) with two parents; position inheritance moves it
to position 1 after the lists were sorted. -/
def exF7 : Req :=
  { ID := "F7", Level := .CODE, Path := "f.go", ParentIds := ["L7", "P7"], Position := 10,
    Body := "F\nx" }

/-- The C7 counterexample graph: level-correct, linkable without errors. -/
def exG7 : reqGraph :=
  [("S7", exS7), ("P7", exP7), ("M7", exM7), ("L7", exL7), ("F7", exF7)]

/-- The graph `Resolve` returns on `exG7`: the CODE node moved to position 1,
leaving `P7` with a child list whose positions read 2, 5, 1. -/
def exG7f : reqGraph :=
  [("S7", { exS7 with Children := ["P7"], Seen := true, Status := .STARTED }),
    ("P7", { exP7 with Parents := ["S7"], Children := ["L7", "M7", "F7"], Seen := true, Status := .STARTED }),
    ("M7", { exM7 with Parents := ["P7"], Seen := true, Status := .NOT_STARTED }),
    ("L7", { exL7 with Parents := ["P7"], Children := ["F7"], Seen := true, Status := .COMPLETED }),
    ("F7", { exF7 with Parents := ["P7", "L7"], Seen := true, Status := .COMPLETED, Position := 1 })]

/-- The SYSTEM root of the C7 witness chain. -/
def exS7w : Req := { ID := "Sw", Level := .SYSTEM, Path := "s.lyx", Position := 0, Body := "S\nx" }

/-- The HIGH middle node of the witness chain (position 1). -/
def exH7w : Req :=
  { ID := "Hw", Level := .HIGH, Path := "h.lyx", ParentIds := ["Sw"], Position := 1,
    Body := "H\nx" }

/-- The CODE leaf of the witness chain (declared at position 2). -/
def exC7w : Req :=
  { ID := "Cw", Level := .CODE, Path := "c.go", ParentIds := ["Hw"], Position := 2,
    Body := "C\nx" }

/-- The level-correct witness chain for the amended C7 statement. -/
def exG7w : reqGraph := [("Sw", exS7w), ("Hw", exH7w), ("Cw", exC7w)]

/-- The CODE leaf as `Resolve` leaves it: linked, reached, position inherited. -/
def exC7wf : Req :=
  { exC7w with Parents := ["Hw"], Seen := true, Status := .COMPLETED, Position := 1 }

/-- The graph `Resolve` returns on `exG7w`. -/
def exG7wf : reqGraph :=
  [("Sw", { exS7w with Children := ["Hw"], Seen := true, Status := .COMPLETED }),
    ("Hw", { exH7w with Parents := ["Sw"], Children := ["Cw"], Seen := true, Status := .COMPLETED }),
    ("Cw", exC7wf)]

/-! ## Basic lemmas about the graph map -/

theorem getReq_setReq (g : reqGraph) (k j : String) (f : Req → Req) :
    getReq (setReq g k f) j = if j = k then (getReq g j).map f else getReq g j := by
  induction g with
  | nil => by_cases h : j = k <;> simp [getReq, setReq, h]
  | cons p rest ih =>
      obtain ⟨k', r⟩ := p
      by_cases hj : k' = j
      · subst hj
        by_cases hk : k' = k
        · subst hk; simp [getReq, setReq, ih]
        · simp [getReq, setReq, hk, Ne.symm hk]
      · by_cases hk : k' = k
        · subst hk
          have hj' : j ≠ k' := fun h => hj h.symm
          simp [getReq, setReq, hj, hj', ih]
        · simp [getReq, setReq, hk, hj, ih]

theorem getReq_mem {g : reqGraph} {k : String} {r : Req}
    (h : getReq g k = some r) : (k, r) ∈ g := by
  induction g with
  | nil => simp [getReq] at h
  | cons p rest ih =>
      obtain ⟨k', r'⟩ := p
      by_cases hk : k' = k
      · subst hk
        simp [getReq] at h
        subst h; exact List.mem_cons_self _ _
      · simp [getReq, hk] at h
        exact List.mem_cons_of_mem _ (ih h)

theorem keys_setReq (g : reqGraph) (k : String) (f : Req → Req) :
    keys (setReq g k f) = keys g := by
  induction g with
  | nil => rfl
  | cons p rest ih =>
      obtain ⟨k', r⟩ := p
      by_cases hk : k' = k <;> simp [keys, setReq, hk] at ih ⊢ <;> exact ih

/-! ## Claim C10: BodyWithoutTitle -/

theorem splitFirstNL_eq_none {cs : List Char} :
    splitFirstNL cs = none ↔ '\n' ∉ cs := by
  induction cs with
  | nil => simp [splitFirstNL]
  | cons c rest ih =>
      simp only [splitFirstNL, List.mem_cons]
      by_cases hc : c = '\n'
      · subst hc; simp
      · rw [if_neg hc]
        constructor
        · intro h hmem
          cases hs : splitFirstNL rest with
          | none =>
              rcases hmem with h1 | h2
              · exact hc h1.symm
              · exact (ih.mp hs) h2
          | some p => rw [hs] at h; simp at h
        · intro h
          have hr : '\n' ∉ rest := fun hm => h (Or.inr hm)
          rw [ih.mpr hr]
          rfl

theorem splitFirstNL_eq_some {cs : List Char} {a b : List Char}
    (h : splitFirstNL cs = some (a, b)) : cs = a ++ '\n' :: b ∧ '\n' ∉ a := by
  induction cs generalizing a b with
  | nil => simp [splitFirstNL] at h
  | cons c rest ih =>
      by_cases hc : c = '\n'
      · subst hc
        simp [splitFirstNL] at h
        obtain ⟨ha, hb⟩ := h
        subst ha; subst hb; simp
      · simp only [splitFirstNL, if_neg hc] at h
        cases hs : splitFirstNL rest with
        | none => rw [hs] at h; simp at h
        | some p =>
            rw [hs] at h
            obtain ⟨p1, p2⟩ := p
            simp at h
            obtain ⟨ha, hb⟩ := h
            obtain ⟨h1, h2⟩ := ih hs
            subst hb
            constructor
            · rw [← ha]; simp [h1]
            · rw [← ha]; simp [List.mem_cons, hc, h2]; tauto

/-- C10.  `Req.BodyWithoutTitle` does not return a value (the source calls
`log.Fatal`) exactly when the body contains no newline character; when the
body does contain one (it has at least two lines), it returns the text after
the first newline. -/
theorem c10_bodyWithoutTitle (r : Req) :
    (('\n' ∉ r.Body.data) → r.BodyWithoutTitle = none) ∧
    (('\n' ∈ r.Body.data) → ∃ pre post : List Char,
      r.Body.data = pre ++ '\n' :: post ∧ '\n' ∉ pre ∧
        r.BodyWithoutTitle = some ⟨post⟩) := by
  constructor
  · intro h
    unfold Req.BodyWithoutTitle
    rw [splitFirstNL_eq_none.mpr h]
  · intro h
    unfold Req.BodyWithoutTitle
    cases hs : splitFirstNL r.Body.data with
    | none => exact absurd (splitFirstNL_eq_none.mp hs) (by simp [h])
    | some p =>
        obtain ⟨a, b⟩ := p
        obtain ⟨h1, h2⟩ := splitFirstNL_eq_some hs
        exact ⟨a, b, h1, h2, rfl⟩

/-- Witness for C10 at concrete inputs: a one-line body aborts (`none`), a
two-line body returns the remainder. -/
theorem c10_bodyWithoutTitle_w :
    ({ Body := "only title" : Req}).BodyWithoutTitle = none ∧
    ∃ pre post : List Char,
      ({ Body := "title\nrest" : Req}).Body.data = pre ++ '\n' :: post ∧
        '\n' ∉ pre ∧
        ({ Body := "title\nrest" : Req}).BodyWithoutTitle = some ⟨post⟩ :=
  ⟨(c10_bodyWithoutTitle _).1 (by decide),
    (c10_bodyWithoutTitle { Body := "title\nrest" }).2 (by decide)⟩

/-! ## Claim C6: duplicate identifiers during ingestion -/

/-- C6.  `AddReq` does reject a record whose identifier already exists — it
returns a DuplicateIdentifier error naming the current and the prior defining
path, leaving the graph unchanged — but the `ParseLyx` record loop
(req.go:659) DISCARDS `AddReq`'s return value, so ingesting the same
identifier from a second file yields no error at all at the ingestion
interface: the loop returns the unchanged graph and an empty error list.
Concretely, with `REQ-1-TEST-SYS-1` declared in `/repo/doc/a.lyx` and again
in `/repo/doc/b.lyx`: -/
theorem c6_duplicate_error_discarded :
    ParseLyxLoop "/repo" "/repo/doc/a.lyx" [] 0
        [{ ID := "REQ-1-TEST-SYS-1", ReqType := "SYS",
           Attributes := [("TEXT", "Title one\nBody one")] }] =
      some ([("REQ-1-TEST-SYS-1",
        { ID := "REQ-1-TEST-SYS-1", Level := .SYSTEM, Path := "/doc/a.lyx",
          Body := "Title one\nBody one", Attributes := [], Position := 0 })], []) ∧
    ParseLyxLoop "/repo" "/repo/doc/b.lyx"
        [("REQ-1-TEST-SYS-1",
          { ID := "REQ-1-TEST-SYS-1", Level := .SYSTEM, Path := "/doc/a.lyx",
            Body := "Title one\nBody one", Attributes := [], Position := 0 })] 0
        [{ ID := "REQ-1-TEST-SYS-1", ReqType := "SYS",
           Attributes := [("TEXT", "Title two\nBody two")] }] =
      some ([("REQ-1-TEST-SYS-1",
        { ID := "REQ-1-TEST-SYS-1", Level := .SYSTEM, Path := "/doc/a.lyx",
          Body := "Title one\nBody one", Attributes := [], Position := 0 })], []) ∧
    reqGraph.AddReq
        [("REQ-1-TEST-SYS-1",
          { ID := "REQ-1-TEST-SYS-1", Level := .SYSTEM, Path := "/doc/a.lyx",
            Body := "Title one\nBody one", Attributes := [], Position := 0 })]
        { ID := "REQ-1-TEST-SYS-1", ReqType := "SYS",
          Attributes := [("TEXT", "Title two\nBody two")] }
        "/repo/doc/b.lyx" "/repo" =
      some (.error
        ("Requirement REQ-1-TEST-SYS-1 in /repo/doc/b.lyx already defined in /doc/a.lyx")) := by
  refine ⟨?_, ?_, ?_⟩ <;> rfl

/-! ## Claim C9: attribute schema validation -/

theorem checkAttrEntries_missing {compile : String → Option (String → Bool)}
    {r : Req} {a : List (String × String)} {entries : List (String × String)}
    {es : List String} {v : String}
    (hrun : checkAttrEntries compile r a entries = some es)
    (hmem : ("name", v) ∈ entries)
    (habs : (attrGet r.Attributes (upperStr v)).isNone)
    (hexc : ¬ (r.Level = .SYSTEM ∧ upperStr v = "PARENTS")) :
    missingAttrMsg r v ∈ es := by
  induction entries generalizing es with
  | nil => simp at hmem
  | cons e rest ih =>
      obtain ⟨k, v'⟩ := e
      rw [checkAttrEntries] at hrun
      split at hrun
      · simp at hrun
      · next tailErrs htl =>
          rcases List.mem_cons.mp hmem with hhd | hrest
          · have hk : k = "name" := by injection hhd with h1 _; exact h1.symm
            have hv : v' = v := by injection hhd with _ h2; exact h2.symm
            subst hk; subst hv
            rw [if_pos rfl, if_pos ⟨habs, hexc⟩] at hrun
            injection hrun with h
            subst h
            exact List.mem_cons_self _ _
          · have htail := ih htl hrest
            split at hrun
            · split at hrun
              · injection hrun with h; subst h
                exact List.mem_cons_of_mem _ htail
              · injection hrun with h; subst h; exact htail
            · split at hrun
              · split at hrun
                · injection hrun with h; subst h; exact htail
                · split at hrun
                  · simp at hrun
                  · split at hrun
                    · injection hrun with h; subst h
                      exact List.mem_cons_of_mem _ htail
                    · injection hrun with h; subst h; exact htail
              · injection hrun with h; subst h; exact htail
theorem checkAttrEntries_invalid {compile : String → Option (String → Bool)}
    {r : Req} {a : List (String × String)} {entries : List (String × String)}
    {es : List String} {pat val : String} {m : String → Bool}
    (hrun : checkAttrEntries compile r a entries = some es)
    (hmem : ("value", pat) ∈ entries)
    (hval : attrGet r.Attributes (upperStr ((attrGet a "name").getD "")) = some val)
    (hc : compile pat = some m)
    (hm : m val = false) :
    invalidAttrMsg r (upperStr ((attrGet a "name").getD "")) val pat ∈ es := by
  induction entries generalizing es with
  | nil => simp at hmem
  | cons e rest ih =>
      obtain ⟨k, v'⟩ := e
      rw [checkAttrEntries] at hrun
      split at hrun
      · simp at hrun
      · next tailErrs htl =>
          rcases List.mem_cons.mp hmem with hhd | hrest
          · have hk : k = "value" := by injection hhd with h1 _; exact h1.symm
            have hv : v' = pat := by injection hhd with _ h2; exact h2.symm
            subst hk; subst hv
            rw [if_neg (by decide), if_pos rfl] at hrun
            split at hrun
            · next heq => rw [hval] at heq; simp at heq
            · next val2 heq =>
                rw [hval] at heq
                injection heq with hval2
                subst hval2
                split at hrun
                · next heq2 => rw [hc] at heq2; simp at heq2
                · next m2 heq2 =>
                    rw [hc] at heq2
                    injection heq2 with hm2
                    subst hm2
                    rw [if_pos (by simp [hm])] at hrun
                    injection hrun with h
                    subst h
                    exact List.mem_cons_self _ _
          · have htail := ih htl hrest
            split at hrun
            · split at hrun
              · injection hrun with h; subst h
                exact List.mem_cons_of_mem _ htail
              · injection hrun with h; subst h; exact htail
            · split at hrun
              · split at hrun
                · injection hrun with h; subst h; exact htail
                · split at hrun
                  · simp at hrun
                  · split at hrun
                    · injection hrun with h; subst h
                      exact List.mem_cons_of_mem _ htail
                    · injection hrun with h; subst h; exact htail
              · injection hrun with h; subst h; exact htail
theorem reqCheckAttributes_rule {compile : String → Option (String → Bool)}
    {r : Req} {as : List (List (String × String))} {errs : List String}
    (hrun : Req.CheckAttributes compile r as = some errs)
    {a : List (String × String)} (ha : a ∈ as) :
    ∃ es, checkAttrEntries compile r a a = some es ∧ ∀ e ∈ es, e ∈ errs := by
  induction as generalizing errs with
  | nil => simp at ha
  | cons a0 rest ih =>
      rw [Req.CheckAttributes] at hrun
      split at hrun
      · simp at hrun
      · next es0 h0 =>
          split at hrun
          · simp at hrun
          · next tl htl =>
              injection hrun with h
              subst h
              rcases List.mem_cons.mp ha with hhd | hrest
              · subst hhd
                exact ⟨es0, h0, fun e he => List.mem_append_left _ he⟩
              · obtain ⟨es, hes, hsub⟩ := ih htl hrest
                exact ⟨es, hes, fun e he => List.mem_append_right _ (hsub e he)⟩

theorem graphCheckAttributes_node {compile : String → Option (String → Bool)}
    {as : List (List (String × String))} {g : reqGraph} {errsG : List String}
    (hrun : reqGraph.CheckAttributes compile as g = some errsG)
    {k : String} {r : Req} (hmem : (k, r) ∈ g) (hlv : r.Level ≠ .CODE) :
    ∃ errs, Req.CheckAttributes compile r as = some errs ∧ ∀ e ∈ errs, e ∈ errsG := by
  induction g generalizing errsG with
  | nil => simp at hmem
  | cons p rest ih =>
      obtain ⟨k0, r0⟩ := p
      rw [reqGraph.CheckAttributes] at hrun
      split at hrun
      · simp at hrun
      · next es0 h0 =>
          split at hrun
          · simp at hrun
          · next tl htl =>
              injection hrun with h
              subst h
              rcases List.mem_cons.mp hmem with hhd | hrest
              · have hr : r0 = r := by injection hhd with _ h2; exact h2.symm
                subst hr
                rw [if_pos hlv] at h0
                exact ⟨es0, h0, fun e he => List.mem_append_left _ he⟩
              · obtain ⟨errs, hes, hsub⟩ := ih htl hrest
                exact ⟨errs, hes, fun e he => List.mem_append_right _ (hsub e he)⟩

/-- C9.  For every non-CODE node checked against the attribute schema: each
rule naming a required attribute that is absent from the node's attribute map
produces a missing-attribute error, except when the node is SYSTEM-level and
the attribute is the parent-list attribute; and each rule whose value pattern
rejects a present attribute's value produces an error echoing the expected
pattern.  (`compile` abstracts Go's `regexp`; a successful overall run is
hypothesised, as `log.Fatal` on a non-compiling pattern aborts the process.) -/
theorem c9_checkAttributes {compile : String → Option (String → Bool)}
    {as : List (List (String × String))} {g : reqGraph} {errsG : List String}
    {k : String} {r : Req}
    (hrun : reqGraph.CheckAttributes compile as g = some errsG)
    (hmem : (k, r) ∈ g) (hlv : r.Level ≠ .CODE) :
    (∀ a ∈ as, ∀ v, ("name", v) ∈ a →
        (attrGet r.Attributes (upperStr v)).isNone →
        ¬ (r.Level = .SYSTEM ∧ upperStr v = "PARENTS") →
        missingAttrMsg r v ∈ errsG) ∧
    (∀ a ∈ as, ∀ pat val m, ("value", pat) ∈ a →
        attrGet r.Attributes (upperStr ((attrGet a "name").getD "")) = some val →
        compile pat = some m → m val = false →
        invalidAttrMsg r (upperStr ((attrGet a "name").getD "")) val pat ∈ errsG) := by
  obtain ⟨errs, hR, hsub⟩ := graphCheckAttributes_node hrun hmem hlv
  constructor
  · intro a ha v hv habs hexc
    obtain ⟨es, hes, hsub2⟩ := reqCheckAttributes_rule hR ha
    exact hsub _ (hsub2 _ (checkAttrEntries_missing hes hv habs hexc))
  · intro a ha pat val m hv hval hc hm
    obtain ⟨es, hes, hsub2⟩ := reqCheckAttributes_rule hR ha
    exact hsub _ (hsub2 _ (checkAttrEntries_invalid hes hv hval hc hm))

/-- Witness for C9: a HIGH node with a `RATIONALE` attribute rejected by the
pattern and a missing `VERIFICATION` attribute receives both errors. -/
theorem c9_checkAttributes_w :
    missingAttrMsg { ID := "REQ-R", Level := .HIGH, Attributes := [("RATIONALE", "bad")] }
        "Verification" ∈
      [invalidAttrMsg { ID := "REQ-R", Level := .HIGH, Attributes := [("RATIONALE", "bad")] }
          "RATIONALE" "bad" "p",
        missingAttrMsg { ID := "REQ-R", Level := .HIGH, Attributes := [("RATIONALE", "bad")] }
          "Verification"] ∧
    invalidAttrMsg { ID := "REQ-R", Level := .HIGH, Attributes := [("RATIONALE", "bad")] }
        "RATIONALE" "bad" "p" ∈
      [invalidAttrMsg { ID := "REQ-R", Level := .HIGH, Attributes := [("RATIONALE", "bad")] }
          "RATIONALE" "bad" "p",
        missingAttrMsg { ID := "REQ-R", Level := .HIGH, Attributes := [("RATIONALE", "bad")] }
          "Verification"] := by
  have h := @c9_checkAttributes
    (fun _ => some (fun _ => false))
    [[("name", "Rationale"), ("value", "p")], [("name", "Verification")]]
    [("REQ-R", { ID := "REQ-R", Level := .HIGH, Attributes := [("RATIONALE", "bad")] })]
    [invalidAttrMsg { ID := "REQ-R", Level := .HIGH, Attributes := [("RATIONALE", "bad")] }
        "RATIONALE" "bad" "p",
      missingAttrMsg { ID := "REQ-R", Level := .HIGH, Attributes := [("RATIONALE", "bad")] }
        "Verification"]
    "REQ-R"
    { ID := "REQ-R", Level := .HIGH, Attributes := [("RATIONALE", "bad")] }
    rfl (by decide) (by decide)
  refine ⟨?_, ?_⟩
  · exact h.1 [("name", "Verification")] (by decide) "Verification" (by decide) (by decide)
      (by decide)
  · exact h.2 [("name", "Rationale"), ("value", "p")] (by decide) "p" "bad"
      (fun _ => false) (by decide) (by decide) rfl rfl
/-! ## Lemmas about the linking phase -/

theorem setReq_proj {α : Type _} (P : Req → α) (f : Req → Req)
    (hf : ∀ r, P (f r) = P r) (g : reqGraph) (k j : String) :
    (getReq (setReq g k f) j).map P = (getReq g j).map P := by
  rw [getReq_setReq]
  split
  · cases getReq g j <;> simp [hf]
  · rfl

theorem setReq_isSome (g : reqGraph) (k j : String) (f : Req → Req) :
    (getReq (setReq g k f) j).isSome = (getReq g j).isSome := by
  rw [getReq_setReq]
  split
  · cases getReq g j <;> simp
  · rfl

theorem nonLink_fields {r r' : Req} (h : nonLinkOf r = nonLinkOf r') :
    r.ID = r'.ID ∧ r.Level = r'.Level ∧ r.Path = r'.Path ∧
      r.ParentIds = r'.ParentIds ∧ r.Body = r'.Body ∧
      r.Position = r'.Position ∧ r.Seen = r'.Seen ∧ r.Status = r'.Status := by
  simp only [nonLinkOf, Prod.mk.injEq] at h
  tauto

theorem isDeleted_congr {r r' : Req} (h : r.Body = r'.Body) :
    r.IsDeleted = r'.IsDeleted := by
  simp [Req.IsDeleted, Req.Title, h]

theorem noParentsMsg_congr {r r' : Req} (h : nonLinkOf r = nonLinkOf r') :
    noParentsMsg r = noParentsMsg r' := by
  obtain ⟨h1, _, h3, _⟩ := nonLink_fields h
  simp [noParentsMsg, h1, h3]

theorem parentMissingMsg_congr {r r' : Req} (h : nonLinkOf r = nonLinkOf r')
    (pid : String) : parentMissingMsg r pid = parentMissingMsg r' pid := by
  obtain ⟨h1, h2, h3, _⟩ := nonLink_fields h
  simp [parentMissingMsg, h1, h2, h3]

theorem parentDeletedMsg_congr {r r' : Req} (h : nonLinkOf r = nonLinkOf r')
    (pid : String) : parentDeletedMsg r pid = parentDeletedMsg r' pid := by
  obtain ⟨h1, h2, h3, _⟩ := nonLink_fields h
  simp [parentDeletedMsg, h1, h2, h3]

theorem linkParent_eq_none {g : reqGraph} {k : String} {req : Req} {pid : String}
    (h : getReq g pid = none) :
    linkParent g k req pid = (g, [parentMissingMsg req pid]) := by
  unfold linkParent
  rw [h]

theorem linkParent_eq_some {g : reqGraph} {k : String} {req : Req} {pid : String}
    {p : Req} (h : getReq g pid = some p) :
    linkParent g k req pid =
      (setReq (setReq g pid (fun q => { q with Children := q.Children ++ [k] })) k
        (fun q => { q with Parents := q.Parents ++ [pid] }),
       if p.IsDeleted ∧ ¬ req.IsDeleted then [parentDeletedMsg req pid] else []) := by
  unfold linkParent
  rw [h]

theorem linkParent_nonLink (g : reqGraph) (k : String) (req : Req) (pid : String)
    (j : String) :
    (getReq (linkParent g k req pid).1 j).map nonLinkOf = (getReq g j).map nonLinkOf := by
  cases h : getReq g pid with
  | none => rw [linkParent_eq_none h]
  | some p =>
      rw [linkParent_eq_some h]
      exact ((setReq_proj nonLinkOf (fun q => { q with Parents := q.Parents ++ [pid] })
          (fun r => rfl) _ k j).trans
        (setReq_proj nonLinkOf (fun q => { q with Children := q.Children ++ [k] })
          (fun r => rfl) g pid j))

theorem linkParent_isSome (g : reqGraph) (k : String) (req : Req) (pid : String)
    (j : String) :
    (getReq (linkParent g k req pid).1 j).isSome = (getReq g j).isSome := by
  cases h : getReq g pid with
  | none => rw [linkParent_eq_none h]
  | some p =>
      rw [linkParent_eq_some h]
      exact (setReq_isSome _ k j _).trans (setReq_isSome g pid j _)

theorem linkParent_parents (g : reqGraph) (k : String) (req : Req) (pid : String)
    (j : String) :
    parentsOf (linkParent g k req pid).1 j =
      if j = k ∧ (getReq g pid).isSome ∧ (getReq g j).isSome then parentsOf g j ++ [pid]
      else parentsOf g j := by
  cases h : getReq g pid with
  | none => rw [linkParent_eq_none h]; simp
  | some p =>
      rw [linkParent_eq_some h]
      dsimp only
      unfold parentsOf
      simp only [getReq_setReq]
      by_cases hjk : j = k <;> by_cases hjp : j = pid <;>
        cases hq : getReq g j <;> simp_all

theorem linkParent_children (g : reqGraph) (k : String) (req : Req) (pid : String)
    (j : String) :
    childrenOf (linkParent g k req pid).1 j =
      if j = pid ∧ (getReq g pid).isSome then childrenOf g j ++ [k]
      else childrenOf g j := by
  cases h : getReq g pid with
  | none => rw [linkParent_eq_none h]; simp
  | some p =>
      rw [linkParent_eq_some h]
      dsimp only
      unfold childrenOf
      simp only [getReq_setReq]
      by_cases hjk : j = k <;> by_cases hjp : j = pid <;>
        cases hq : getReq g j <;> simp_all
theorem linkParents_nonLink (k : String) (req : Req) :
    ∀ (pids : List String) (g : reqGraph) (j : String),
      (getReq (linkParents k req g pids).1 j).map nonLinkOf =
        (getReq g j).map nonLinkOf := by
  intro pids
  induction pids with
  | nil => intro g j; rfl
  | cons pid rest ih =>
      intro g j
      show (getReq (linkParents k req (linkParent g k req pid).1 rest).1 j).map nonLinkOf = _
      rw [ih (linkParent g k req pid).1 j, linkParent_nonLink]

theorem linkParents_isSome (k : String) (req : Req) :
    ∀ (pids : List String) (g : reqGraph) (j : String),
      (getReq (linkParents k req g pids).1 j).isSome = (getReq g j).isSome := by
  intro pids
  induction pids with
  | nil => intro g j; rfl
  | cons pid rest ih =>
      intro g j
      show (getReq (linkParents k req (linkParent g k req pid).1 rest).1 j).isSome = _
      rw [ih (linkParent g k req pid).1 j, linkParent_isSome]

theorem linkParents_parents_other (k : String) (req : Req) :
    ∀ (pids : List String) (g : reqGraph) (j : String), j ≠ k →
      parentsOf (linkParents k req g pids).1 j = parentsOf g j := by
  intro pids
  induction pids with
  | nil => intro g j _; rfl
  | cons pid rest ih =>
      intro g j hj
      show parentsOf (linkParents k req (linkParent g k req pid).1 rest).1 j = _
      rw [ih _ j hj, linkParent_parents, if_neg (by simp [hj])]

theorem linkParents_parents_self (k : String) (req : Req) :
    ∀ (pids : List String) (g : reqGraph), (getReq g k).isSome →
      parentsOf (linkParents k req g pids).1 k =
        parentsOf g k ++ pids.filter (fun pid => (getReq g pid).isSome) := by
  intro pids
  induction pids with
  | nil => intro g _; simp [linkParents]
  | cons pid rest ih =>
      intro g hk
      show parentsOf (linkParents k req (linkParent g k req pid).1 rest).1 k = _
      rw [ih _ (by rw [linkParent_isSome]; exact hk)]
      rw [linkParent_parents]
      have hfil : rest.filter (fun pid2 => (getReq (linkParent g k req pid).1 pid2).isSome) =
          rest.filter (fun pid2 => (getReq g pid2).isSome) := by
        apply List.filter_congr
        intro x _
        rw [linkParent_isSome]
      rw [hfil]
      by_cases hp : (getReq g pid).isSome
      · rw [if_pos ⟨rfl, hp, hk⟩, List.filter_cons_of_pos (by simpa using hp)]
        simp
      · rw [if_neg (by simp [hp]), List.filter_cons_of_neg (by simpa using hp)]

theorem linkParents_children_suffix (k : String) (req : Req) :
    ∀ (pids : List String) (g : reqGraph) (j : String),
      ∃ cs, childrenOf (linkParents k req g pids).1 j = childrenOf g j ++ cs := by
  intro pids
  induction pids with
  | nil => intro g j; exact ⟨[], by simp [linkParents]⟩
  | cons pid rest ih =>
      intro g j
      obtain ⟨cs, hcs⟩ := ih (linkParent g k req pid).1 j
      show ∃ cs', childrenOf (linkParents k req (linkParent g k req pid).1 rest).1 j = _
      rw [hcs, linkParent_children]
      by_cases hc : j = pid ∧ (getReq g pid).isSome
      · rw [if_pos hc]; exact ⟨[k] ++ cs, by simp⟩
      · rw [if_neg hc]; exact ⟨cs, rfl⟩

theorem linkParents_children_mem (k : String) (req : Req) :
    ∀ (pids : List String) (g : reqGraph) (pid : String), pid ∈ pids →
      (getReq g pid).isSome →
      k ∈ childrenOf (linkParents k req g pids).1 pid := by
  intro pids
  induction pids with
  | nil => intro g pid h; simp at h
  | cons pid0 rest ih =>
      intro g pid hmem hsome
      rcases List.mem_cons.mp hmem with hhd | hrest
      · subst hhd
        obtain ⟨cs, hcs⟩ := linkParents_children_suffix k req rest (linkParent g k req pid).1 pid
        show k ∈ childrenOf (linkParents k req (linkParent g k req pid).1 rest).1 pid
        rw [hcs, linkParent_children, if_pos ⟨rfl, hsome⟩]
        simp
      · show k ∈ childrenOf (linkParents k req (linkParent g k req pid0).1 rest).1 pid
        exact ih _ pid hrest (by rw [linkParent_isSome]; exact hsome)

theorem nonLinkPt_cases {o o' : Option Req}
    (h : o'.map nonLinkOf = o.map nonLinkOf) :
    (o' = none ∧ o = none) ∨
      ∃ r' r, o' = some r' ∧ o = some r ∧ nonLinkOf r' = nonLinkOf r := by
  cases o' with
  | none =>
      cases o with
      | none => exact Or.inl ⟨rfl, rfl⟩
      | some r => simp at h
  | some r' =>
      cases o with
      | none => simp at h
      | some r =>
          rw [Option.map_some', Option.map_some'] at h
          exact Or.inr ⟨r', r, rfl, rfl, Option.some.inj h⟩

theorem linkParents_errs (k : String) (req : Req) :
    ∀ (pids : List String) (g : reqGraph),
      (linkParents k req g pids).2 =
        pids.filterMap (fun pid =>
          match getReq g pid with
          | none => some (parentMissingMsg req pid)
          | some p =>
              if p.IsDeleted ∧ ¬ req.IsDeleted then some (parentDeletedMsg req pid)
              else none) := by
  intro pids
  induction pids with
  | nil => intro g; rfl
  | cons pid rest ih =>
      intro g
      show (linkParent g k req pid).2 ++ (linkParents k req (linkParent g k req pid).1 rest).2 = _
      rw [ih (linkParent g k req pid).1]
      have hfil : rest.filterMap (fun pid2 =>
          match getReq (linkParent g k req pid).1 pid2 with
          | none => some (parentMissingMsg req pid2)
          | some p =>
              if p.IsDeleted ∧ ¬ req.IsDeleted then some (parentDeletedMsg req pid2)
              else none) =
          rest.filterMap (fun pid2 =>
          match getReq g pid2 with
          | none => some (parentMissingMsg req pid2)
          | some p =>
              if p.IsDeleted ∧ ¬ req.IsDeleted then some (parentDeletedMsg req pid2)
              else none) := by
        apply List.filterMap_congr
        intro x _
        rcases nonLinkPt_cases (linkParent_nonLink g k req pid x) with
          ⟨h1, h2⟩ | ⟨p1, p2, h1, h2, hnl⟩
        · simp only [h1, h2]
        · have hb := (nonLink_fields hnl).2.2.2.2.1
          rw [h1, h2]
          simp only [isDeleted_congr hb]
      rw [hfil, List.filterMap_cons]
      cases h2 : getReq g pid with
      | none =>
          rw [linkParent_eq_none h2]
          simp
      | some p =>
          rw [linkParent_eq_some h2]
          dsimp only
          by_cases hdel : p.IsDeleted ∧ ¬ req.IsDeleted
          · simp [hdel]
          · have hdel2 : ¬ (p.IsDeleted = true ∧ req.IsDeleted = false) := by
              simpa [Bool.not_eq_true] using hdel
            simp [hdel2]
theorem linkNode_eq_none {g : reqGraph} {k : String} (h : getReq g k = none) :
    linkNode g k = (g, []) := by
  unfold linkNode
  rw [h]

theorem linkNode_eq_some {g : reqGraph} {k : String} {req : Req}
    (h : getReq g k = some req) :
    linkNode g k = ((linkParents k req g req.ParentIds).1,
      (if req.ParentIds = [] ∧ req.Level ≠ .SYSTEM then [noParentsMsg req] else []) ++
        (linkParents k req g req.ParentIds).2) := by
  unfold linkNode
  rw [h]

theorem linkNode_nonLink (g : reqGraph) (k j : String) :
    (getReq (linkNode g k).1 j).map nonLinkOf = (getReq g j).map nonLinkOf := by
  cases h : getReq g k with
  | none => rw [linkNode_eq_none h]
  | some req => rw [linkNode_eq_some h]; exact linkParents_nonLink k req _ g j

theorem linkNode_isSome (g : reqGraph) (k j : String) :
    (getReq (linkNode g k).1 j).isSome = (getReq g j).isSome := by
  cases h : getReq g k with
  | none => rw [linkNode_eq_none h]
  | some req => rw [linkNode_eq_some h]; exact linkParents_isSome k req _ g j

theorem linkNode_errs (g : reqGraph) (k : String) :
    (linkNode g k).2 = nodeErrsSpec g k := by
  cases h : getReq g k with
  | none => rw [linkNode_eq_none h]; unfold nodeErrsSpec; rw [h]
  | some req =>
      rw [linkNode_eq_some h]
      unfold nodeErrsSpec
      rw [h]
      dsimp only
      rw [linkParents_errs]

theorem linkNode_parents_suffix (g : reqGraph) (k j : String) :
    ∃ ps, parentsOf (linkNode g k).1 j = parentsOf g j ++ ps := by
  cases h : getReq g k with
  | none => rw [linkNode_eq_none h]; exact ⟨[], by simp⟩
  | some req =>
      rw [linkNode_eq_some h]
      by_cases hj : j = k
      · subst hj
        by_cases hs : (getReq g j).isSome
        · rw [linkParents_parents_self _ req _ g hs]
          exact ⟨_, rfl⟩
        · simp [h] at hs
      · rw [linkParents_parents_other _ req _ g j hj]
        exact ⟨[], by simp⟩

theorem linkNode_children_suffix (g : reqGraph) (k j : String) :
    ∃ cs, childrenOf (linkNode g k).1 j = childrenOf g j ++ cs := by
  cases h : getReq g k with
  | none => rw [linkNode_eq_none h]; exact ⟨[], by simp⟩
  | some req =>
      rw [linkNode_eq_some h]
      exact linkParents_children_suffix k req _ g j

theorem linkAll_nonLink : ∀ (ks : List String) (g : reqGraph) (j : String),
    (getReq (linkAll g ks).1 j).map nonLinkOf = (getReq g j).map nonLinkOf := by
  intro ks
  induction ks with
  | nil => intro g j; rfl
  | cons k rest ih =>
      intro g j
      show (getReq (linkAll (linkNode g k).1 rest).1 j).map nonLinkOf = _
      rw [ih (linkNode g k).1 j, linkNode_nonLink]

theorem linkAll_isSome : ∀ (ks : List String) (g : reqGraph) (j : String),
    (getReq (linkAll g ks).1 j).isSome = (getReq g j).isSome := by
  intro ks
  induction ks with
  | nil => intro g j; rfl
  | cons k rest ih =>
      intro g j
      show (getReq (linkAll (linkNode g k).1 rest).1 j).isSome = _
      rw [ih (linkNode g k).1 j, linkNode_isSome]

theorem linkAll_parents_suffix : ∀ (ks : List String) (g : reqGraph) (j : String),
    ∃ ps, parentsOf (linkAll g ks).1 j = parentsOf g j ++ ps := by
  intro ks
  induction ks with
  | nil => intro g j; exact ⟨[], by simp [linkAll]⟩
  | cons k rest ih =>
      intro g j
      obtain ⟨ps1, h1⟩ := linkNode_parents_suffix g k j
      obtain ⟨ps2, h2⟩ := ih (linkNode g k).1 j
      show ∃ ps, parentsOf (linkAll (linkNode g k).1 rest).1 j = _
      rw [h2, h1]
      exact ⟨ps1 ++ ps2, by simp⟩

theorem linkAll_children_suffix : ∀ (ks : List String) (g : reqGraph) (j : String),
    ∃ cs, childrenOf (linkAll g ks).1 j = childrenOf g j ++ cs := by
  intro ks
  induction ks with
  | nil => intro g j; exact ⟨[], by simp [linkAll]⟩
  | cons k rest ih =>
      intro g j
      obtain ⟨cs1, h1⟩ := linkNode_children_suffix g k j
      obtain ⟨cs2, h2⟩ := ih (linkNode g k).1 j
      show ∃ cs, childrenOf (linkAll (linkNode g k).1 rest).1 j = _
      rw [h2, h1]
      exact ⟨cs1 ++ cs2, by simp⟩
theorem nodeErrsSpec_congr {g g' : reqGraph}
    (hs : ∀ j, (getReq g' j).map nonLinkOf = (getReq g j).map nonLinkOf)
    (k : String) : nodeErrsSpec g' k = nodeErrsSpec g k := by
  rcases nonLinkPt_cases (hs k) with ⟨h1, h2⟩ | ⟨r', r, h1, h2, hnl⟩
  · unfold nodeErrsSpec
    rw [h1, h2]
  · unfold nodeErrsSpec
    rw [h1, h2]
    dsimp only
    obtain ⟨_, hLv, _, hPid, hBody, _⟩ := nonLink_fields hnl
    rw [hPid, noParentsMsg_congr hnl, hLv]
    congr 1
    apply List.filterMap_congr
    intro pid _
    rcases nonLinkPt_cases (hs pid) with ⟨hp1, hp2⟩ | ⟨p', p, hp1, hp2, hpnl⟩
    · rw [hp1, hp2]
      simp only [parentMissingMsg_congr hnl]
    · rw [hp1, hp2]
      have hpb := (nonLink_fields hpnl).2.2.2.2.1
      simp only [isDeleted_congr hpb, isDeleted_congr hBody,
        parentDeletedMsg_congr hnl]

theorem linkAll_errs : ∀ (ks : List String) (g : reqGraph),
    (linkAll g ks).2 = (ks.map (nodeErrsSpec g)).flatten := by
  intro ks
  induction ks with
  | nil => intro g; rfl
  | cons k rest ih =>
      intro g
      show (linkNode g k).2 ++ (linkAll (linkNode g k).1 rest).2 = _
      rw [ih (linkNode g k).1, linkNode_errs, List.map_cons, List.flatten_cons]
      congr 1
      congr 1
      apply List.map_congr_left
      intro j _
      exact nodeErrsSpec_congr (fun j2 => linkNode_nonLink g k j2) j

theorem linkAll_parents_mem : ∀ (ks : List String) (g : reqGraph) (k : String)
    (r : Req), k ∈ ks → getReq g k = some r → ∀ pid ∈ r.ParentIds,
      (getReq g pid).isSome → pid ∈ parentsOf (linkAll g ks).1 k := by
  intro ks
  induction ks with
  | nil => intro g k r h; simp at h
  | cons k0 rest ih =>
      intro g k r hmem hk pid hpid hsome
      show pid ∈ parentsOf (linkAll (linkNode g k0).1 rest).1 k
      by_cases hk0 : k0 = k
      · subst hk0
        have hself : parentsOf (linkNode g k0).1 k0 =
            parentsOf g k0 ++ r.ParentIds.filter (fun pid2 => (getReq g pid2).isSome) := by
          rw [linkNode_eq_some hk]
          exact linkParents_parents_self k0 r r.ParentIds g (by simp [hk])
        obtain ⟨ps, hps⟩ := linkAll_parents_suffix rest (linkNode g k0).1 k0
        rw [hps, hself]
        have : pid ∈ r.ParentIds.filter (fun pid2 => (getReq g pid2).isSome) :=
          List.mem_filter.mpr ⟨hpid, by simpa using hsome⟩
        simp [this]
      · rcases List.mem_cons.mp hmem with hhd | hrest
        · exact absurd hhd.symm hk0
        · rcases nonLinkPt_cases (linkNode_nonLink g k0 k) with ⟨h1, h2⟩ | ⟨r', r2, h1, h2, hnl⟩
          · rw [hk] at h2
            simp at h2
          · rw [hk] at h2
            have hr2 := Option.some.inj h2
            subst hr2
            obtain ⟨_, _, _, hPid, _⟩ := nonLink_fields hnl
            apply ih (linkNode g k0).1 k r' hrest h1 pid (by rw [hPid]; exact hpid)
            rw [linkNode_isSome]
            exact hsome
theorem linkAll_children_mem : ∀ (ks : List String) (g : reqGraph) (k : String)
    (r : Req), k ∈ ks → getReq g k = some r → ∀ pid ∈ r.ParentIds,
      (getReq g pid).isSome → k ∈ childrenOf (linkAll g ks).1 pid := by
  intro ks
  induction ks with
  | nil => intro g k r h; simp at h
  | cons k0 rest ih =>
      intro g k r hmem hk pid hpid hsome
      show k ∈ childrenOf (linkAll (linkNode g k0).1 rest).1 pid
      by_cases hk0 : k0 = k
      · subst hk0
        have hmem1 : k0 ∈ childrenOf (linkNode g k0).1 pid := by
          rw [linkNode_eq_some hk]
          exact linkParents_children_mem k0 r r.ParentIds g pid hpid hsome
        obtain ⟨cs, hcs⟩ := linkAll_children_suffix rest (linkNode g k0).1 pid
        rw [hcs]
        exact List.mem_append_left _ hmem1
      · rcases List.mem_cons.mp hmem with hhd | hrest
        · exact absurd hhd.symm hk0
        · rcases nonLinkPt_cases (linkNode_nonLink g k0 k) with ⟨h1, h2⟩ | ⟨r', r2, h1, h2, hnl⟩
          · rw [hk] at h2
            simp at h2
          · rw [hk] at h2
            have hr2 := Option.some.inj h2
            subst hr2
            obtain ⟨_, _, _, hPid, _⟩ := nonLink_fields hnl
            apply ih (linkNode g k0).1 k r' hrest h1 pid (by rw [hPid]; exact hpid)
            rw [linkNode_isSome]
            exact hsome

theorem noParentsMsg_ne (r : Req) : noParentsMsg r ≠ "" := by
  unfold noParentsMsg
  intro h
  have h2 := congrArg String.data h
  simp [String.data_append] at h2

theorem parentMissingMsg_ne (r : Req) (pid : String) : parentMissingMsg r pid ≠ "" := by
  unfold parentMissingMsg
  split <;>
    (intro h; have h2 := congrArg String.data h; simp [String.data_append] at h2)

theorem parentDeletedMsg_ne (r : Req) (pid : String) : parentDeletedMsg r pid ≠ "" := by
  unfold parentDeletedMsg
  split <;>
    (intro h; have h2 := congrArg String.data h; simp [String.data_append] at h2)

theorem nodeErrsSpec_ne (g : reqGraph) (k : String) :
    ∀ e ∈ nodeErrsSpec g k, e ≠ "" := by
  intro e he
  unfold nodeErrsSpec at he
  cases h : getReq g k with
  | none => rw [h] at he; simp at he
  | some req =>
      rw [h] at he
      dsimp only at he
      rcases List.mem_append.mp he with h1 | h1
      · split at h1
        · rcases List.mem_singleton.mp h1 with rfl
          exact noParentsMsg_ne req
        · simp at h1
      · obtain ⟨pid, hpmem, hpe⟩ := List.mem_filterMap.mp h1
        cases hg : getReq g pid with
        | none =>
            rw [hg] at hpe
            simp at hpe
            rw [← hpe]
            exact parentMissingMsg_ne req pid
        | some p =>
            rw [hg] at hpe
            simp at hpe
            rw [← hpe.2]
            exact parentDeletedMsg_ne req pid

theorem foldl_append_length : ∀ (l : List String) (s : String),
    (l.foldl (fun r t => r ++ t) s).length = s.length + (l.map String.length).sum := by
  intro l
  induction l with
  | nil => intro s; simp
  | cons a rest ih =>
      intro s
      rw [List.foldl_cons, ih, List.map_cons, List.sum_cons, String.length_append]
      omega

theorem join_ne_empty {l : List String} (hne : l ≠ [])
    (h : ∀ e ∈ l, e ≠ "") : String.join l ≠ "" := by
  cases l with
  | nil => exact absurd rfl hne
  | cons a rest =>
      intro hj
      have hlen := congrArg String.length hj
      rw [String.join] at hlen
      rw [foldl_append_length] at hlen
      simp at hlen
      have ha : a ≠ "" := h a (List.mem_cons_self _ _)
      have hlena : a.length ≠ 0 := by
        intro h0
        apply ha
        cases a with
        | mk ldata =>
            have h1 : ldata.length = 0 := h0
            have hd : ldata = [] := List.length_eq_zero.mp h1
            subst hd
            rfl
      omega
theorem getReq_mem_keys {g : reqGraph} {k : String} {r : Req}
    (h : getReq g k = some r) : k ∈ keys g := by
  have := getReq_mem h
  exact List.mem_map.mpr ⟨(k, r), this, rfl⟩

theorem linkAll_err_mem {g0 : reqGraph} {k e : String}
    (hkeys : k ∈ keys g0) (he : e ∈ nodeErrsSpec g0 k) :
    e ∈ (linkAll g0 (keys g0)).2 := by
  rw [linkAll_errs]
  exact List.mem_flatten.mpr ⟨_, List.mem_map.mpr ⟨k, hkeys, rfl⟩, he⟩

theorem nonLink_ss {o o' : Option Req} (h : o'.map nonLinkOf = o.map nonLinkOf) :
    o'.map ssOf = o.map ssOf := by
  rcases nonLinkPt_cases h with ⟨h1, h2⟩ | ⟨r', r, h1, h2, hnl⟩
  · rw [h1, h2]
  · obtain ⟨_, _, _, _, _, _, hSeen, hStatus⟩ := nonLink_fields hnl
    rw [h1, h2]
    simp [ssOf, hSeen, hStatus]

/-- C4 (amended).  A declared parent that resolves to a superseded (deleted)
node while the referencing node is not itself superseded produces the
deletion error in the correct CODE-vs-specification variant — and the
bidirectional parent/child edge is nevertheless appended (req.go:402-403
append it whenever the parent id resolves, superseded or not; the claim's
"no edge is created for a superseded-parent reference" is what fails). -/
theorem c4_superseded_parent {g0 : reqGraph} {k pid : String} {r p : Req}
    (hk : getReq g0 k = some r) (hpid : pid ∈ r.ParentIds)
    (hp : getReq g0 pid = some p) (hdel : p.IsDeleted = true)
    (hndel : r.IsDeleted = false) :
    parentDeletedMsg r pid ∈ (linkAll g0 (keys g0)).2 ∧
    pid ∈ parentsOf (linkAll g0 (keys g0)).1 k ∧
    k ∈ childrenOf (linkAll g0 (keys g0)).1 pid := by
  have hkeys : k ∈ keys g0 := getReq_mem_keys hk
  refine ⟨?_, ?_, ?_⟩
  · apply linkAll_err_mem hkeys
    unfold nodeErrsSpec
    rw [hk]
    dsimp only
    apply List.mem_append_right
    apply List.mem_filterMap.mpr
    refine ⟨pid, hpid, ?_⟩
    rw [hp]
    simp [hdel, hndel]
  · exact linkAll_parents_mem _ _ _ _ hkeys hk pid hpid (by simp [hp])
  · exact linkAll_children_mem _ _ _ _ hkeys hk pid hpid (by simp [hp])

/-- Counterexample to C4 as stated: with SYSTEM node `P` superseded
(`DELETED` title) and HIGH node `R` declaring `P` as parent, linking records
exactly the superseded-parent error — and still creates the edge, so the
edge is not created "only in the remaining otherwise case". -/
theorem c4_counterexample :
    (linkAll exG4 (keys exG4)).2 = [parentDeletedMsg exR4 "P"] ∧
    exP4.IsDeleted = true ∧ exR4.IsDeleted = false ∧
    parentsOf (linkAll exG4 (keys exG4)).1 "R" = ["P"] ∧
    childrenOf (linkAll exG4 (keys exG4)).1 "P" = ["R"] := by
  refine ⟨?_, ?_, ?_, ?_, ?_⟩ <;> decide

/-- Witness for C4 at the same concrete input. -/
theorem c4_superseded_parent_w :
    parentDeletedMsg exR4 "P" ∈ (linkAll exG4 (keys exG4)).2 :=
  (@c4_superseded_parent exG4 "R" "P" exR4 exP4
    (by decide) (by decide) (by decide) (by decide) (by decide)).1
/-- C5.  The linking phase of `Resolve` accumulates every detected error — a
has-no-parents error for each parentless non-SYSTEM node, an unresolved
error for each declared parent absent from the graph, a superseded error for
each declared parent that resolves to a deleted node from a live node — and
returns them together; when at least one error exists, `Resolve` returns the
linked graph with the joined error text before status propagation runs, so
no node's `Status` or `Seen` field is touched in an erroneous run. -/
theorem c5_resolve_error_accumulation (fuel : Nat) (g0 : reqGraph) :
    (∀ k r, getReq g0 k = some r → r.ParentIds = [] → r.Level ≠ .SYSTEM →
      noParentsMsg r ∈ (linkAll g0 (keys g0)).2) ∧
    (∀ k r pid, getReq g0 k = some r → pid ∈ r.ParentIds → getReq g0 pid = none →
      parentMissingMsg r pid ∈ (linkAll g0 (keys g0)).2) ∧
    (∀ k r pid p, getReq g0 k = some r → pid ∈ r.ParentIds → getReq g0 pid = some p →
      p.IsDeleted = true → r.IsDeleted = false →
      parentDeletedMsg r pid ∈ (linkAll g0 (keys g0)).2) ∧
    ((linkAll g0 (keys g0)).2 ≠ [] →
      reqGraph.Resolve fuel g0 =
        some ((linkAll g0 (keys g0)).1,
          some (String.join (linkAll g0 (keys g0)).2 ++ "\n")) ∧
      ∀ j, (getReq (linkAll g0 (keys g0)).1 j).map ssOf = (getReq g0 j).map ssOf) := by
  refine ⟨?_, ?_, ?_, ?_⟩
  · intro k r hk hpids hlv
    apply linkAll_err_mem (getReq_mem_keys hk)
    unfold nodeErrsSpec
    rw [hk]
    dsimp only
    apply List.mem_append_left
    rw [if_pos ⟨hpids, hlv⟩]
    exact List.mem_singleton.mpr rfl
  · intro k r pid hk hpid hnone
    apply linkAll_err_mem (getReq_mem_keys hk)
    unfold nodeErrsSpec
    rw [hk]
    dsimp only
    apply List.mem_append_right
    apply List.mem_filterMap.mpr
    refine ⟨pid, hpid, ?_⟩
    rw [hnone]
  · intro k r pid p hk hpid hp hdel hndel
    apply linkAll_err_mem (getReq_mem_keys hk)
    unfold nodeErrsSpec
    rw [hk]
    dsimp only
    apply List.mem_append_right
    apply List.mem_filterMap.mpr
    refine ⟨pid, hpid, ?_⟩
    rw [hp]
    simp [hdel, hndel]
  · intro hne
    have hjoin : String.join (linkAll g0 (keys g0)).2 ≠ "" := by
      apply join_ne_empty hne
      intro e he
      rw [linkAll_errs] at he
      obtain ⟨l, hl, hel⟩ := List.mem_flatten.mp he
      obtain ⟨k, _, hk⟩ := List.mem_map.mp hl
      subst hk
      exact nodeErrsSpec_ne g0 k e hel
    constructor
    · unfold reqGraph.Resolve
      rw [if_pos hjoin]
    · intro j
      exact nonLink_ss (linkAll_nonLink (keys g0) g0 j)

/-- Witness for C5: a graph with a parentless HIGH node, a HIGH node with a
nonexistent parent, and a HIGH node with a superseded parent accumulates all
three errors and makes `Resolve` return them without propagating status. -/
theorem c5_resolve_error_accumulation_w :
    noParentsMsg exA5 ∈ (linkAll exG5 (keys exG5)).2 ∧
    parentMissingMsg exB5 "X" ∈ (linkAll exG5 (keys exG5)).2 ∧
    parentDeletedMsg exC5 "P" ∈ (linkAll exG5 (keys exG5)).2 ∧
    reqGraph.Resolve 5 exG5 =
      some ((linkAll exG5 (keys exG5)).1,
        some (String.join (linkAll exG5 (keys exG5)).2 ++ "\n")) := by
  have h := c5_resolve_error_accumulation 5 exG5
  refine ⟨?_, ?_, ?_, ?_⟩
  · exact h.1 "A" exA5 (by decide) (by decide) (by decide)
  · exact h.2.1 "B" exB5 "X" (by decide) (by decide) (by decide)
  · exact h.2.2.1 "C" exC5 "P" exP4 (by decide) (by decide) (by decide) (by decide) (by decide)
  · exact (h.2.2.2 (by decide)).1
/-! ## Lemmas about the status-propagation traversals -/

theorem structOf_set_ss (r : Req) (b : Bool) (s : RequirementStatus) :
    structOf { r with Seen := b, Status := s } = structOf r := rfl

theorem struct_fields {r r' : Req} (h : structOf r = structOf r') :
    r.Level = r'.Level ∧ r.Children = r'.Children ∧ r.Parents = r'.Parents := by
  simp only [structOf, Prod.mk.injEq] at h
  tauto

theorem sameStruct_get {g h : reqGraph} (hs : sameStruct g h) {k : String} {rk : Req}
    (hk : getReq g k = some rk) :
    ∃ rh, getReq h k = some rh ∧ structOf rh = structOf rk := by
  have := hs k
  rw [hk] at this
  cases hh : getReq h k with
  | none => rw [hh] at this; simp at this
  | some rh =>
      rw [hh] at this
      rw [Option.map_some', Option.map_some'] at this
      have h2 := Option.some.inj this
      exact ⟨rh, rfl, h2.symm⟩

theorem sameStruct_get_rev {g h : reqGraph} (hs : sameStruct g h) {k : String} {rh : Req}
    (hk : getReq h k = some rh) :
    ∃ rk, getReq g k = some rk ∧ structOf rh = structOf rk := by
  have := hs k
  rw [hk] at this
  cases hg : getReq g k with
  | none => rw [hg] at this; simp at this
  | some rk =>
      rw [hg] at this
      rw [Option.map_some', Option.map_some'] at this
      have h2 := Option.some.inj this
      exact ⟨rk, rfl, h2.symm⟩

theorem sameStruct_none {g h : reqGraph} (hs : sameStruct g h) {k : String}
    (hk : getReq h k = none) : getReq g k = none := by
  have := hs k
  rw [hk] at this
  cases hg : getReq g k with
  | none => rfl
  | some rk => rw [hg] at this; simp at this

/-- Booleans: `List.any` respects pointwise equal predicates. -/
theorem any_congr {l : List String} {f f' : String → Bool}
    (h : ∀ x ∈ l, f x = f' x) : l.any f = l.any f' := by
  induction l with
  | nil => rfl
  | cons a rest ih =>
      simp only [List.any_cons]
      rw [h a (List.mem_cons_self _ _), ih (fun x hx => h x (List.mem_cons_of_mem _ hx))]

theorem statusAllGo_mono {f f' : String → Option RequirementStatus}
    (hf : ∀ c s, f c = some s → f' c = some s) :
    ∀ {cs : List String} {b : Bool}, statusAllGo f cs = some b → statusAllGo f' cs = some b := by
  intro cs
  induction cs with
  | nil => intro b h; exact h
  | cons c rest ih =>
      intro b h
      rw [statusAllGo] at h ⊢
      cases hc : f c with
      | none => rw [hc] at h; simp at h
      | some st =>
          rw [hc] at h
          rw [hf c st hc]
          cases hr : statusAllGo f rest with
          | none => rw [hr] at h; simp at h
          | some b2 =>
              rw [hr] at h
              rw [ih hr]
              exact h

theorem statusSpec_mono : ∀ (fuel : Nat) (g : reqGraph) (k : String)
    (s : RequirementStatus), statusSpec fuel g k = some s →
    statusSpec (fuel + 1) g k = some s := by
  intro fuel
  induction fuel with
  | zero => intro g k s h; simp [statusSpec] at h
  | succ n ih =>
      intro g k s h
      rw [statusSpec] at h ⊢
      cases hk : getReq g k with
      | none => rw [hk] at h; simp at h
      | some r =>
          rw [hk] at h
          dsimp only at h ⊢
          split at h
          · rw [if_pos (by assumption)]
            exact h
          · rw [if_neg (by assumption)]
            cases hall : statusAllGo (statusSpec n g) r.Children with
            | none => rw [hall] at h; simp at h
            | some b =>
                rw [hall] at h
                rw [statusAllGo_mono (fun c s2 hc => ih g c s2 hc) hall]
                exact h

theorem downReach_mono : ∀ (fuel : Nat) (g : reqGraph) (k j : String),
    downReach fuel g k j = true → downReach (fuel + 1) g k j = true := by
  intro fuel
  induction fuel with
  | zero => intro g k j h; simp [downReach] at h
  | succ n ih =>
      intro g k j h
      rw [downReach] at h ⊢
      rw [Bool.or_eq_true] at h
      rcases h with h1 | h1
      · rw [h1]; simp
      · rw [Bool.or_eq_true]
        right
        cases hk : getReq g k with
        | none => rw [hk] at h1; simp at h1
        | some r =>
            rw [hk] at h1
            dsimp only at h1 ⊢
            obtain ⟨c, hc, hreach⟩ := List.any_eq_true.mp h1
            exact List.any_eq_true.mpr ⟨c, hc, ih g c j hreach⟩

theorem upReach_mono : ∀ (fuel : Nat) (g : reqGraph) (k j : String),
    upReach fuel g k j = true → upReach (fuel + 1) g k j = true := by
  intro fuel
  induction fuel with
  | zero => intro g k j h; simp [upReach] at h
  | succ n ih =>
      intro g k j h
      rw [upReach] at h ⊢
      rw [Bool.or_eq_true] at h
      rcases h with h1 | h1
      · rw [h1]; simp
      · rw [Bool.or_eq_true]
        right
        cases hk : getReq g k with
        | none => rw [hk] at h1; simp at h1
        | some r =>
            rw [hk] at h1
            dsimp only at h1 ⊢
            obtain ⟨c, hc, hreach⟩ := List.any_eq_true.mp h1
            exact List.any_eq_true.mpr ⟨c, hc, ih g c j hreach⟩

theorem childrenOkP_of_B {g : reqGraph} (h : ChildrenOkB g = true) : ChildrenOkP g := by
  intro k r hk c hc
  have hmem := getReq_mem hk
  have h1 := (List.all_eq_true.mp h) (k, r) hmem
  have h2 := (List.all_eq_true.mp h1) c hc
  unfold childOkB at h2
  cases hgc : getReq g c with
  | none => rw [hgc] at h2; simp at h2
  | some rc =>
      rw [hgc] at h2
      exact ⟨rc, rfl, of_decide_eq_true h2⟩

theorem parentsOkP_of_B {g : reqGraph} (h : ParentsOkB g = true) : ParentsOkP g := by
  intro k r hk p hp
  have hmem := getReq_mem hk
  have h1 := (List.all_eq_true.mp h) (k, r) hmem
  have h2 := (List.all_eq_true.mp h1) p hp
  unfold parentOkB at h2
  cases hgp : getReq g p with
  | none => rw [hgp] at h2; simp at h2
  | some rp =>
      rw [hgp] at h2
      exact ⟨rp, rfl, of_decide_eq_true h2⟩

theorem downReach_le_level {g : reqGraph} (hC : ChildrenOkP g) :
    ∀ (fuel : Nat) (c j : String) (rc rj : Req), downReach fuel g c j = true →
      getReq g c = some rc → getReq g j = some rj →
      levelNat rc.Level ≤ levelNat rj.Level := by
  intro fuel
  induction fuel with
  | zero => intro c j rc rj h; simp [downReach] at h
  | succ n ih =>
      intro c j rc rj h hc hj
      rw [downReach] at h
      rw [Bool.or_eq_true] at h
      rcases h with h1 | h1
      · have hcj : c = j := of_decide_eq_true h1
        subst hcj
        rw [hc] at hj
        rw [Option.some.inj hj]
      · rw [hc] at h1
        obtain ⟨d, hd, hreach⟩ := List.any_eq_true.mp h1
        obtain ⟨rd, hrd, hlv⟩ := hC c rc hc d hd
        exact le_of_lt (lt_of_lt_of_le hlv (ih d j rd rj hreach hrd hj))

theorem downReach_not_below {g : reqGraph} (hC : ChildrenOkP g)
    {c k : String} {rc rk : Req} (hc : getReq g c = some rc)
    (hk : getReq g k = some rk) (hlv : levelNat rk.Level < levelNat rc.Level)
    (fuel : Nat) : downReach fuel g c k = false := by
  cases hr : downReach fuel g c k with
  | false => rfl
  | true =>
      have := downReach_le_level hC fuel c k rc rk hr hc hk
      omega
theorem sameStruct_setReq {gS h : reqGraph} (hs : sameStruct gS h) (k : String)
    (f : Req → Req) (hf : ∀ r, structOf (f r) = structOf r) :
    sameStruct gS (setReq h k f) := by
  intro j
  rw [getReq_setReq]
  split
  · rw [Option.map_map]
    have : structOf ∘ f = structOf := funext hf
    rw [this]
    exact hs j
  · exact hs j

/-- The characterisation of the child loop of `resolveDown`, given the
characterisation of the recursive call (`HP`): the loop preserves structure,
computes the all-children-complete flag, demotes the current node to
`STARTED` exactly when that flag is false, and rewrites every node reachable
from one of the children to reached-with-its-own-status. -/
theorem resolveDownGo_char {gS : reqGraph} (fuel : Nat)
    (HP : ∀ (h : reqGraph) (k : String) (h' : reqGraph) (st : RequirementStatus),
      sameStruct gS h → Req.resolveDown fuel h k = some (h', st) →
      sameStruct gS h' ∧ statusSpec fuel gS k = some st ∧
      ∀ j, if downReach fuel gS k j = true then
          ∃ s, statusSpec fuel gS j = some s ∧
            getReq h' j = (getReq h j).map (fun r => { r with Seen := true, Status := s })
        else getReq h' j = getReq h j) :
    ∀ (cs : List String) (h : reqGraph) (k : String) (h' : reqGraph),
      sameStruct gS h →
      (∀ c ∈ cs, downReach fuel gS c k = false) →
      resolveDownGo (Req.resolveDown fuel) k h cs = some h' →
      sameStruct gS h' ∧
      ∃ b, statusAllGo (statusSpec fuel gS) cs = some b ∧
        (getReq h' k = if b then getReq h k
          else (getReq h k).map (fun r => { r with Status := .STARTED })) ∧
        ∀ j, j ≠ k →
          (if cs.any (fun c => downReach fuel gS c j) = true then
            ∃ s, statusSpec fuel gS j = some s ∧
              getReq h' j = (getReq h j).map (fun r => { r with Seen := true, Status := s })
          else getReq h' j = getReq h j) := by
  intro cs
  induction cs with
  | nil =>
      intro h k h' hs _ hrun
      have hh : h' = h := by
        rw [resolveDownGo] at hrun
        exact (Option.some.inj hrun).symm
      subst hh
      refine ⟨hs, true, rfl, by simp, ?_⟩
      intro j _
      rw [if_neg (by simp)]
  | cons c cs' ih =>
      intro h k h' hs hnr hrun
      rw [resolveDownGo] at hrun
      cases hc : Req.resolveDown fuel h c with
      | none => rw [hc] at hrun; simp at hrun
      | some p =>
          obtain ⟨h2, stc⟩ := p
          rw [hc] at hrun
          dsimp only at hrun
          obtain ⟨hs2, hstc, char2⟩ := HP h c h2 stc hs hc
          have hreachck : downReach fuel gS c k = false := hnr c (List.mem_cons_self _ _)
          have hk2 : getReq h2 k = getReq h k := by
            have := char2 k
            rw [if_neg (by rw [hreachck]; simp)] at this
            exact this
          set h3 := if stc ≠ RequirementStatus.COMPLETED then
              setReq h2 k (fun q => { q with Status := .STARTED }) else h2 with hh3
          have hs3 : sameStruct gS h3 := by
            rw [hh3]
            split
            · exact sameStruct_setReq hs2 k _ (fun r => rfl)
            · exact hs2
          have hk3 : getReq h3 k = if stc = RequirementStatus.COMPLETED then getReq h k
              else (getReq h k).map (fun r => { r with Status := .STARTED }) := by
            rw [hh3]
            by_cases hst : stc = RequirementStatus.COMPLETED
            · rw [if_neg (by simp [hst]), if_pos hst]
              exact hk2
            · rw [if_pos hst, if_neg hst, getReq_setReq, if_pos rfl, hk2]
          have hj3 : ∀ j, j ≠ k → getReq h3 j = getReq h2 j := by
            intro j hj
            rw [hh3]
            split
            · rw [getReq_setReq, if_neg hj]
            · rfl
          obtain ⟨hs', b', hall', hkc', hjc'⟩ :=
            ih h3 k h' hs3 (fun c2 hc2 => hnr c2 (List.mem_cons_of_mem _ hc2)) hrun
          refine ⟨hs', if stc = RequirementStatus.COMPLETED then b' else false, ?_, ?_, ?_⟩
          · rw [statusAllGo, hstc, hall']
          · rw [hkc']
            by_cases hst : stc = RequirementStatus.COMPLETED
            · have h3k : getReq h3 k = getReq h k := by rw [hk3, if_pos hst]
              rw [h3k]
              subst hst
              cases b' <;> simp
            · have h3k : getReq h3 k =
                  (getReq h k).map (fun r => { r with Status := RequirementStatus.STARTED }) := by
                rw [hk3, if_neg hst]
              have hifc : (if stc = RequirementStatus.COMPLETED then b' else false) = false :=
                if_neg hst
              rw [h3k, hifc]
              cases b' with
              | true =>
                  rw [if_pos rfl, if_neg Bool.false_ne_true]
              | false =>
                  rw [if_neg Bool.false_ne_true, if_neg Bool.false_ne_true, Option.map_map]
                  have hcomp : (fun r : Req => { r with Status := RequirementStatus.STARTED }) ∘
                      (fun r : Req => { r with Status := RequirementStatus.STARTED }) =
                      (fun r : Req => { r with Status := RequirementStatus.STARTED }) := by
                    funext r; rfl
                  rw [hcomp]
          · intro j hj
            have hcharj := char2 j
            have hjc'j := hjc' j hj
            rw [List.any_cons]
            by_cases hrc : downReach fuel gS c j = true
            · rw [if_pos (by rw [hrc]; simp)]
              rw [if_pos hrc] at hcharj
              obtain ⟨s, hsj, hwrote⟩ := hcharj
              by_cases hrest : cs'.any (fun c2 => downReach fuel gS c2 j) = true
              · rw [if_pos hrest] at hjc'j
                obtain ⟨s2, hsj2, hwrote2⟩ := hjc'j
                rw [hsj] at hsj2
                have hss := Option.some.inj hsj2
                subst hss
                refine ⟨s, hsj, ?_⟩
                rw [hwrote2, hj3 j hj, hwrote, Option.map_map]
                have hcomp : (fun r : Req => { r with Seen := true, Status := s }) ∘
                    (fun r : Req => { r with Seen := true, Status := s }) =
                    (fun r : Req => { r with Seen := true, Status := s }) := by
                  funext r; rfl
                rw [hcomp]
              · rw [if_neg hrest] at hjc'j
                refine ⟨s, hsj, ?_⟩
                rw [hjc'j, hj3 j hj, hwrote]
            · rw [if_neg hrc] at hcharj
              have hbase : getReq h3 j = getReq h j := by
                rw [hj3 j hj, hcharj]
              by_cases hrest : cs'.any (fun c2 => downReach fuel gS c2 j) = true
              · rw [if_pos (by simp [hrest])]
                rw [if_pos hrest] at hjc'j
                obtain ⟨s2, hsj2, hwrote2⟩ := hjc'j
                refine ⟨s2, hsj2, ?_⟩
                rw [hwrote2, hbase]
              · rw [if_neg (by simp [hrc, hrest])]
                rw [if_neg hrest] at hjc'j
                rw [hjc'j, hbase]
/-- The central characterisation of `Req.resolveDown` on a graph whose child
links all point to present nodes of strictly higher level: structure is
preserved, the returned status is the pure `statusSpec` status, and a node's
fields change exactly when it is reachable from the entry node — to
`Seen := true` and its own `statusSpec` status. -/
theorem resolveDown_char {gS : reqGraph} (hC : ChildrenOkP gS) :
    ∀ (fuel : Nat) (h : reqGraph) (k : String) (h' : reqGraph)
      (st : RequirementStatus),
      sameStruct gS h → Req.resolveDown fuel h k = some (h', st) →
      sameStruct gS h' ∧ statusSpec fuel gS k = some st ∧
      ∀ j, if downReach fuel gS k j = true then
          ∃ s, statusSpec fuel gS j = some s ∧
            getReq h' j = (getReq h j).map (fun r => { r with Seen := true, Status := s })
        else getReq h' j = getReq h j := by
  intro fuel
  induction fuel with
  | zero => intro h k h' st _ hrun; simp [Req.resolveDown] at hrun
  | succ n ih =>
      intro h k h' st hs hrun
      rw [Req.resolveDown] at hrun
      cases hgk : getReq h k with
      | none => rw [hgk] at hrun; simp at hrun
      | some rh =>
          rw [hgk] at hrun
          dsimp only at hrun
          obtain ⟨rk, hgkS, hstruct⟩ := sameStruct_get_rev hs hgk
          obtain ⟨hLv, hCh, _⟩ := struct_fields hstruct
          have hs1 : sameStruct gS
              (setReq h k (fun q => { q with Seen := true, Status := .COMPLETED })) :=
            sameStruct_setReq hs k _ (fun r => rfl)
          by_cases hcond : rh.Level ≠ RequirementLevel.CODE ∧ rh.Children = []
          · rw [if_pos hcond] at hrun
            have hh' : h' = setReq
                (setReq h k (fun q => { q with Seen := true, Status := .COMPLETED })) k
                (fun q => { q with Status := .NOT_STARTED }) := by
              have := Option.some.inj hrun
              exact (congrArg Prod.fst this).symm
            have hst : st = RequirementStatus.NOT_STARTED := by
              have := Option.some.inj hrun
              exact (congrArg Prod.snd this).symm
            subst hh'; subst hst
            have hspec : statusSpec (n + 1) gS k = some RequirementStatus.NOT_STARTED := by
              rw [statusSpec, hgkS]
              dsimp only
              rw [if_pos ⟨by rw [← hLv]; exact hcond.1, by rw [← hCh]; exact hcond.2⟩]
            refine ⟨sameStruct_setReq hs1 k _ (fun r => rfl), hspec, ?_⟩
            intro j
            have hreach : downReach (n + 1) gS k j = decide (k = j) := by
              rw [downReach, hgkS]
              dsimp only
              rw [← hCh, hcond.2]
              simp
            rw [hreach]
            by_cases hkj : k = j
            · subst hkj
              rw [if_pos (by simp)]
              refine ⟨RequirementStatus.NOT_STARTED, hspec, ?_⟩
              rw [getReq_setReq, if_pos rfl, getReq_setReq, if_pos rfl, Option.map_map]
              rfl
            · rw [if_neg (by simp [hkj])]
              rw [getReq_setReq, if_neg (fun hh => hkj hh.symm), getReq_setReq,
                if_neg (fun hh => hkj hh.symm)]
          · rw [if_neg hcond] at hrun
            cases hgo : resolveDownGo (Req.resolveDown n) k
                (setReq h k (fun q => { q with Seen := true, Status := .COMPLETED }))
                rh.Children with
            | none => rw [hgo] at hrun; simp at hrun
            | some h2 =>
                rw [hgo] at hrun
                dsimp only at hrun
                have hh' : h' = h2 := by
                  have := Option.some.inj hrun
                  exact (congrArg Prod.fst this).symm
                have hst2 : st = statusOf h2 k := by
                  have := Option.some.inj hrun
                  exact (congrArg Prod.snd this).symm
                subst hh'
                have hnot : ∀ c ∈ rh.Children, downReach n gS c k = false := by
                  intro c hcm
                  rw [hCh] at hcm
                  obtain ⟨rc, hrc, hlv⟩ := hC k rk hgkS c hcm
                  exact downReach_not_below hC hrc hgkS hlv n
                obtain ⟨hs', b, hall, hkchar, hjchar⟩ :=
                  resolveDownGo_char n ih rh.Children _ k h' hs1 hnot hgo
                have hg1k : getReq
                    (setReq h k (fun q => { q with Seen := true, Status := .COMPLETED })) k =
                    some { rh with Seen := true, Status := .COMPLETED } := by
                  rw [getReq_setReq, if_pos rfl, hgk, Option.map_some']
                have hspec : statusSpec (n + 1) gS k =
                    some (if b = true then RequirementStatus.COMPLETED
                      else RequirementStatus.STARTED) := by
                  rw [statusSpec, hgkS]
                  dsimp only
                  rw [if_neg (by rw [← hLv, ← hCh]; exact hcond), ← hCh, hall]
                have hk' : getReq h' k =
                    some { rh with Seen := true, Status :=
                      (if b = true then RequirementStatus.COMPLETED
                        else RequirementStatus.STARTED) } := by
                  rw [hkchar]
                  cases b with
                  | true => rw [if_pos rfl, if_pos rfl, hg1k]
                  | false =>
                      rw [if_neg Bool.false_ne_true, if_neg Bool.false_ne_true, hg1k,
                        Option.map_some']
                have hstval : st = (if b = true then RequirementStatus.COMPLETED
                    else RequirementStatus.STARTED) := by
                  rw [hst2]
                  unfold statusOf
                  rw [hk']
                subst hstval
                refine ⟨hs', hspec, ?_⟩
                intro j
                have hreach : downReach (n + 1) gS k j =
                    (decide (k = j) || rk.Children.any (fun c => downReach n gS c j)) := by
                  rw [downReach, hgkS]
                rw [hreach]
                by_cases hkj : k = j
                · subst hkj
                  rw [if_pos (by simp)]
                  refine ⟨_, hspec, ?_⟩
                  rw [hk', hgk, Option.map_some']
                · have hdec : (decide (k = j) || rk.Children.any (fun c => downReach n gS c j)) =
                      rk.Children.any (fun c => downReach n gS c j) := by
                    simp [hkj]
                  rw [hdec]
                  have hjc := hjchar j (fun hh => hkj hh.symm)
                  rw [← hCh]
                  by_cases hany : rh.Children.any (fun c => downReach n gS c j) = true
                  · rw [if_pos hany]
                    rw [if_pos hany] at hjc
                    obtain ⟨s, hsj, hwrote⟩ := hjc
                    refine ⟨s, statusSpec_mono n gS j s hsj, ?_⟩
                    rw [hwrote, getReq_setReq, if_neg (fun hh => hkj hh.symm)]
                  · rw [if_neg hany]
                    rw [if_neg hany] at hjc
                    rw [hjc, getReq_setReq, if_neg (fun hh => hkj hh.symm)]
theorem levelNat_le3 (l : RequirementLevel) : levelNat l ≤ 3 := by
  cases l <;> simp [levelNat]

theorem sameStruct_refl (g : reqGraph) : sameStruct g g := fun _ => rfl

theorem code_childless {g : reqGraph} (hC : ChildrenOkP g) {k : String} {r : Req}
    (hk : getReq g k = some r) (hlv : r.Level = RequirementLevel.CODE) :
    r.Children = [] := by
  cases hc : r.Children with
  | nil => rfl
  | cons c cs =>
      obtain ⟨rc, _, hlt⟩ := hC k r hk c (by rw [hc]; exact List.mem_cons_self _ _)
      rw [hlv] at hlt
      have h3 := levelNat_le3 rc.Level
      rw [show levelNat RequirementLevel.CODE = 3 from rfl] at hlt
      omega

theorem statusAllGo_true_iff {f : String → Option RequirementStatus} :
    ∀ {cs : List String} {b : Bool}, statusAllGo f cs = some b →
      (b = true ↔ ∀ c ∈ cs, f c = some RequirementStatus.COMPLETED) := by
  intro cs
  induction cs with
  | nil =>
      intro b h
      rw [statusAllGo] at h
      rw [← Option.some.inj h]
      simp
  | cons c rest ih =>
      intro b h
      rw [statusAllGo] at h
      cases hc : f c with
      | none => rw [hc] at h; simp at h
      | some st =>
          rw [hc] at h
          cases hr : statusAllGo f rest with
          | none => rw [hr] at h; simp at h
          | some b2 =>
              rw [hr] at h
              have hb := Option.some.inj h
              rw [← hb]
              constructor
              · intro htrue
                by_cases hst : st = RequirementStatus.COMPLETED
                · intro x hx
                  rcases List.mem_cons.mp hx with h1 | h1
                  · subst h1; rw [hc, hst]
                  · rw [if_pos hst] at htrue
                    exact ((ih hr).mp htrue) x h1
                · rw [if_neg hst] at htrue
                  simp at htrue
              · intro hall
                have hst : st = RequirementStatus.COMPLETED := by
                  have := hall c (List.mem_cons_self _ _)
                  rw [hc] at this
                  exact Option.some.inj this
                rw [if_pos hst]
                exact (ih hr).mpr (fun x hx => hall x (List.mem_cons_of_mem _ hx))

/-- The characterisation of the parent loop of `resolveUp`. -/
theorem resolveUpGo_char {gS : reqGraph} (fuel : Nat)
    (HP : ∀ (h : reqGraph) (k : String) (h' : reqGraph),
      sameStruct gS h → Req.resolveUp fuel h k = some h' →
      sameStruct gS h' ∧
      ∀ j, getReq h' j = if upReach fuel gS k j = true then
          (getReq h j).map (fun r => { r with Seen := true }) else getReq h j) :
    ∀ (ps : List String) (h : reqGraph) (h' : reqGraph),
      sameStruct gS h →
      resolveUpGo (Req.resolveUp fuel) h ps = some h' →
      sameStruct gS h' ∧
      ∀ j, getReq h' j = if ps.any (fun p => upReach fuel gS p j) = true then
          (getReq h j).map (fun r => { r with Seen := true }) else getReq h j := by
  intro ps
  induction ps with
  | nil =>
      intro h h' hs hrun
      have hh : h' = h := (Option.some.inj hrun).symm
      subst hh
      refine ⟨hs, ?_⟩
      intro j
      rw [if_neg (by simp)]
  | cons p rest ih =>
      intro h h' hs hrun
      rw [resolveUpGo] at hrun
      cases hp : Req.resolveUp fuel h p with
      | none => rw [hp] at hrun; simp at hrun
      | some h2 =>
          rw [hp] at hrun
          dsimp only at hrun
          obtain ⟨hs2, char2⟩ := HP h p h2 hs hp
          obtain ⟨hs', char'⟩ := ih h2 h' hs2 hrun
          refine ⟨hs', ?_⟩
          intro j
          rw [char' j, char2 j]
          by_cases hpj : upReach fuel gS p j = true
          · have hcond : ((p :: rest).any fun q => upReach fuel gS q j) = true :=
              List.any_eq_true.mpr ⟨p, List.mem_cons_self _ _, hpj⟩
            rw [if_pos hcond, if_pos hpj]
            by_cases hrj : (rest.any fun q => upReach fuel gS q j) = true
            · rw [if_pos hrj, Option.map_map]
              have hcomp : (fun r : Req => { r with Seen := true }) ∘
                  (fun r : Req => { r with Seen := true }) =
                  (fun r : Req => { r with Seen := true }) := by
                funext r; rfl
              rw [hcomp]
            · rw [if_neg hrj]
          · rw [if_neg hpj]
            by_cases hrj : (rest.any fun q => upReach fuel gS q j) = true
            · have hcond : ((p :: rest).any fun q => upReach fuel gS q j) = true := by
                obtain ⟨x, hx, hux⟩ := List.any_eq_true.mp hrj
                exact List.any_eq_true.mpr ⟨x, List.mem_cons_of_mem _ hx, hux⟩
              rw [if_pos hrj, if_pos hcond]
            · have hcond : ¬ ((p :: rest).any fun q => upReach fuel gS q j) = true := by
                intro hcc
                obtain ⟨x, hx, hux⟩ := List.any_eq_true.mp hcc
                rcases List.mem_cons.mp hx with h1 | h1
                · subst h1; exact hpj hux
                · exact hrj (List.any_eq_true.mpr ⟨x, h1, hux⟩)
              rw [if_neg hrj, if_neg hcond]

/-- The characterisation of `Req.resolveUp`: it sets `Seen := true` on
exactly the nodes reachable along parent links from the entry node, and
changes nothing else. -/
theorem resolveUp_char {gS : reqGraph} :
    ∀ (fuel : Nat) (h : reqGraph) (k : String) (h' : reqGraph),
      sameStruct gS h → Req.resolveUp fuel h k = some h' →
      sameStruct gS h' ∧
      ∀ j, getReq h' j = if upReach fuel gS k j = true then
          (getReq h j).map (fun r => { r with Seen := true }) else getReq h j := by
  intro fuel
  induction fuel with
  | zero => intro h k h' _ hrun; simp [Req.resolveUp] at hrun
  | succ n ih =>
      intro h k h' hs hrun
      rw [Req.resolveUp] at hrun
      cases hgk : getReq h k with
      | none => rw [hgk] at hrun; simp at hrun
      | some rh =>
          rw [hgk] at hrun
          dsimp only at hrun
          obtain ⟨rk, hgkS, hstruct⟩ := sameStruct_get_rev hs hgk
          obtain ⟨_, _, hPar⟩ := struct_fields hstruct
          have hs1 : sameStruct gS (setReq h k (fun q => { q with Seen := true })) :=
            sameStruct_setReq hs k _ (fun r => rfl)
          obtain ⟨hs', char'⟩ := resolveUpGo_char n ih rh.Parents _ h' hs1 hrun
          refine ⟨hs', ?_⟩
          intro j
          have hreach : upReach (n + 1) gS k j =
              (decide (k = j) || rk.Parents.any (fun p => upReach n gS p j)) := by
            rw [upReach, hgkS]
          rw [char' j, hreach, ← hPar]
          by_cases hkj : k = j
          · subst hkj
            have hcond : (decide (k = k) || (rh.Parents.any fun p => upReach n gS p k)) = true := by
              simp
            rw [getReq_setReq, if_pos rfl, if_pos hcond]
            by_cases hany : (rh.Parents.any fun p => upReach n gS p k) = true
            · rw [if_pos hany, Option.map_map]
              have hcomp : (fun r : Req => { r with Seen := true }) ∘
                  (fun r : Req => { r with Seen := true }) =
                  (fun r : Req => { r with Seen := true }) := by
                funext r; rfl
              rw [hcomp]
            · rw [if_neg hany]
          · have hjk : ¬ (j = k) := fun hh => hkj hh.symm
            rw [getReq_setReq, if_neg hjk]
            by_cases hany : (rh.Parents.any fun p => upReach n gS p j) = true
            · have hcond : (decide (k = j) || (rh.Parents.any fun p => upReach n gS p j)) = true := by
                rw [hany]
                simp
              rw [if_pos hany, if_pos hcond]
            · have hcond : ¬ (decide (k = j) || (rh.Parents.any fun p => upReach n gS p j)) = true := by
                simp only [Bool.or_eq_true]
                rintro (h1 | h1)
                · exact hkj (of_decide_eq_true h1)
                · exact hany h1
              rw [if_neg hany, if_neg hcond]
/-! ## Termination of the traversals under the level precondition -/

theorem resolveDownGo_total {gS : reqGraph} (fuel : Nat)
    (HT : ∀ (h : reqGraph) (c : String) (rc : Req), sameStruct gS h →
      getReq gS c = some rc → 4 - levelNat rc.Level ≤ fuel →
      (Req.resolveDown fuel h c).isSome = true)
    (HP : ∀ (h : reqGraph) (c : String) (h' : reqGraph) (st : RequirementStatus),
      sameStruct gS h → Req.resolveDown fuel h c = some (h', st) → sameStruct gS h')
    (k : String) :
    ∀ (cs : List String) (h : reqGraph), sameStruct gS h →
      (∀ c ∈ cs, ∃ rc, getReq gS c = some rc ∧ 4 - levelNat rc.Level ≤ fuel) →
      (resolveDownGo (Req.resolveDown fuel) k h cs).isSome = true := by
  intro cs
  induction cs with
  | nil => intro h _ _; rw [resolveDownGo]; rfl
  | cons c cs ih =>
      intro h hs hcs
      obtain ⟨rc, hrc, hfc⟩ := hcs c (List.mem_cons_self _ _)
      have h1 := HT h c rc hs hrc hfc
      rw [Option.isSome_iff_exists] at h1
      obtain ⟨⟨h2, st⟩, hrun⟩ := h1
      rw [resolveDownGo, hrun]
      dsimp only
      have hs2 : sameStruct gS h2 := HP h c h2 st hs hrun
      have hs3 : sameStruct gS (if st ≠ RequirementStatus.COMPLETED then
          setReq h2 k (fun q => { q with Status := .STARTED }) else h2) := by
        split
        · exact sameStruct_setReq hs2 k _ (fun r => rfl)
        · exact hs2
      exact ih _ hs3 (fun c' hc' => hcs c' (List.mem_cons_of_mem _ hc'))

/-- `Req.resolveDown` terminates (the fuel model returns `some`) on any graph
whose child links point to present nodes of strictly higher level, once the
fuel covers the remaining level range (4 levels in total). -/
theorem resolveDown_total {gS : reqGraph} (hC : ChildrenOkP gS) :
    ∀ (fuel : Nat) (h : reqGraph) (k : String) (rk : Req),
      sameStruct gS h → getReq gS k = some rk → 4 - levelNat rk.Level ≤ fuel →
      (Req.resolveDown fuel h k).isSome = true := by
  intro fuel
  induction fuel with
  | zero =>
      intro h k rk _ _ hf
      have := levelNat_le3 rk.Level
      omega
  | succ n ih =>
      intro h k rk hs hgkS hf
      obtain ⟨rh, hgk, hstruct⟩ := sameStruct_get hs hgkS
      obtain ⟨hLv, hCh, _⟩ := struct_fields hstruct
      rw [Req.resolveDown, hgk]
      dsimp only
      by_cases hcond : rh.Level ≠ RequirementLevel.CODE ∧ rh.Children = []
      · rw [if_pos hcond]; rfl
      · rw [if_neg hcond]
        have hgo : (resolveDownGo (Req.resolveDown n) k
            (setReq h k (fun q => { q with Seen := true, Status := .COMPLETED }))
            rh.Children).isSome = true := by
          apply resolveDownGo_total n ih
            (fun h c h' st hs hrun => (resolveDown_char hC n h c h' st hs hrun).1)
            k rh.Children _
            (sameStruct_setReq hs k
              (fun q => { q with Seen := true, Status := .COMPLETED }) (fun r => rfl))
          intro c hcm
          rw [hCh] at hcm
          obtain ⟨rc, hrcS, hlv⟩ := hC k rk hgkS c hcm
          refine ⟨rc, hrcS, ?_⟩
          have h3 := levelNat_le3 rk.Level
          omega
        rw [Option.isSome_iff_exists] at hgo
        obtain ⟨h2, hrun2⟩ := hgo
        rw [hrun2]
        rfl

theorem resolveUpGo_total {gS : reqGraph} (fuel : Nat)
    (HT : ∀ (h : reqGraph) (p : String) (rp : Req), sameStruct gS h →
      getReq gS p = some rp → levelNat rp.Level + 1 ≤ fuel →
      (Req.resolveUp fuel h p).isSome = true)
    (HP : ∀ (h : reqGraph) (p : String) (h' : reqGraph),
      sameStruct gS h → Req.resolveUp fuel h p = some h' → sameStruct gS h') :
    ∀ (ps : List String) (h : reqGraph), sameStruct gS h →
      (∀ p ∈ ps, ∃ rp, getReq gS p = some rp ∧ levelNat rp.Level + 1 ≤ fuel) →
      (resolveUpGo (Req.resolveUp fuel) h ps).isSome = true := by
  intro ps
  induction ps with
  | nil => intro h _ _; rw [resolveUpGo]; rfl
  | cons p ps ih =>
      intro h hs hps
      obtain ⟨rp, hrp, hfp⟩ := hps p (List.mem_cons_self _ _)
      have h1 := HT h p rp hs hrp hfp
      rw [Option.isSome_iff_exists] at h1
      obtain ⟨h2, hrun⟩ := h1
      rw [resolveUpGo, hrun]
      dsimp only
      exact ih _ (HP h p h2 hs hrun) (fun p' hp' => hps p' (List.mem_cons_of_mem _ hp'))

/-- `Req.resolveUp` terminates on any graph whose parent links point to
present nodes of strictly lower level, once the fuel exceeds the entry
node's level index. -/
theorem resolveUp_total {gS : reqGraph} (hP : ParentsOkP gS) :
    ∀ (fuel : Nat) (h : reqGraph) (k : String) (rk : Req),
      sameStruct gS h → getReq gS k = some rk → levelNat rk.Level + 1 ≤ fuel →
      (Req.resolveUp fuel h k).isSome = true := by
  intro fuel
  induction fuel with
  | zero =>
      intro h k rk _ _ hf
      omega
  | succ n ih =>
      intro h k rk hs hgkS hf
      obtain ⟨rh, hgk, hstruct⟩ := sameStruct_get hs hgkS
      obtain ⟨_, _, hPar⟩ := struct_fields hstruct
      rw [Req.resolveUp, hgk]
      dsimp only
      apply resolveUpGo_total n ih
        (fun h p h' hs hrun => (resolveUp_char n h p h' hs hrun).1)
        rh.Parents _
        (sameStruct_setReq hs k (fun q => { q with Seen := true }) (fun r => rfl))
      intro p hpm
      rw [hPar] at hpm
      obtain ⟨rp, hrpS, hlv⟩ := hP k rk hgkS p hpm
      refine ⟨rp, hrpS, ?_⟩
      omega
/-! ## C3: the linker does not establish the level precondition -/

/-- C3 counterexample: two LOW nodes that declare each other as parents link
without a single error and `Resolve` reports a clean run — the linker never
compares levels — yet the linked graph's parent links are not
level-decreasing and the upward traversal started at either node never
finishes (fuel 20 shown). -/
theorem c3_counterexample :
    (linkAll exG3 (keys exG3)).2 = [] ∧
    Option.map Prod.snd (reqGraph.Resolve 9 exG3) = some none ∧
    ParentsOkB (linkAll exG3 (keys exG3)).1 = false ∧
    Req.resolveUp 20 (linkAll exG3 (keys exG3)).1 "SWL-A" = none := by
  refine ⟨by decide, by decide, by decide, by decide⟩

/-- C3 (amended): on a graph whose resolved child links all point to present
nodes of strictly higher level and whose resolved parent links all point to
present nodes of strictly lower level — the level precondition the claim
ascribes to the linker — both recursive traversals terminate from every
present node once the fuel covers the four levels. -/
theorem c3_level_termination (g : reqGraph) (k : String) (rk : Req) (fuel : Nat)
    (hC : ChildrenOkB g = true) (hP : ParentsOkB g = true)
    (hk : getReq g k = some rk) (hf : 4 ≤ fuel) :
    (Req.resolveDown fuel g k).isSome = true ∧
      (Req.resolveUp fuel g k).isSome = true := by
  have h3 := levelNat_le3 rk.Level
  constructor
  · exact resolveDown_total (childrenOkP_of_B hC) fuel g k rk (sameStruct_refl g) hk
      (by omega)
  · exact resolveUp_total (parentsOkP_of_B hP) fuel g k rk (sameStruct_refl g) hk
      (by omega)

theorem c3_level_termination_w :
    ChildrenOkB exG3w = true ∧ ParentsOkB exG3w = true ∧
      getReq exG3w "S3" = some exS3 ∧ 4 ≤ 4 ∧
      ((Req.resolveDown 4 exG3w "S3").isSome = true ∧
        (Req.resolveUp 4 exG3w "S3").isSome = true) :=
  ⟨by decide, by decide, by decide, by decide,
    c3_level_termination exG3w "S3" exS3 4 (by decide) (by decide) (by decide)
      (by decide)⟩
/-! ## C1: the per-node status computed by the downward traversal -/

theorem statusAllGo_isSome {f : String → Option RequirementStatus} :
    ∀ {cs : List String} {b : Bool}, statusAllGo f cs = some b →
      ∀ c ∈ cs, ∃ sc, f c = some sc := by
  intro cs
  induction cs with
  | nil => intro b _ c hc; exact absurd hc (List.not_mem_nil c)
  | cons d rest ih =>
      intro b h c hc
      rw [statusAllGo] at h
      cases hd : f d with
      | none => rw [hd] at h; simp at h
      | some sd =>
          rw [hd] at h
          dsimp only at h
          cases hrest : statusAllGo f rest with
          | none => rw [hrest] at h; simp at h
          | some b2 =>
              rcases List.mem_cons.mp hc with h1 | h1
              · subst h1; exact ⟨sd, hd⟩
              · exact ih hrest c h1

theorem statusSpec_cases {g : reqGraph} (hC : ChildrenOkP g) {fuel : Nat} {j : String}
    {rj : Req} {s : RequirementStatus} (hj : getReq g j = some rj)
    (hs : statusSpec fuel g j = some s) :
    (rj.Level = RequirementLevel.CODE → s = RequirementStatus.COMPLETED) ∧
    (rj.Level ≠ RequirementLevel.CODE → rj.Children = [] →
      s = RequirementStatus.NOT_STARTED) ∧
    (rj.Children ≠ [] → (s = RequirementStatus.COMPLETED ↔
      ∀ c ∈ rj.Children, statusSpec fuel g c = some RequirementStatus.COMPLETED)) := by
  cases fuel with
  | zero => simp [statusSpec] at hs
  | succ n =>
      rw [statusSpec, hj] at hs
      dsimp only at hs
      by_cases hcond : rj.Level ≠ RequirementLevel.CODE ∧ rj.Children = []
      · rw [if_pos hcond] at hs
        have hsv : s = RequirementStatus.NOT_STARTED := (Option.some.inj hs).symm
        subst hsv
        exact ⟨fun hlv => absurd hlv hcond.1, fun _ _ => rfl,
          fun hne => absurd hcond.2 hne⟩
      · rw [if_neg hcond] at hs
        cases hgo : statusAllGo (statusSpec n g) rj.Children with
        | none => rw [hgo] at hs; simp at hs
        | some b =>
            rw [hgo] at hs
            dsimp only at hs
            have hsv : s = (if b = true then RequirementStatus.COMPLETED
                else RequirementStatus.STARTED) := (Option.some.inj hs).symm
            have hiff := statusAllGo_true_iff hgo
            cases hb : b with
            | true =>
                rw [hb] at hsv
                simp only [if_pos rfl] at hsv
                subst hsv
                rw [hb] at hiff hgo
                have hall := hiff.mp rfl
                refine ⟨fun _ => rfl, fun h1 h2 => absurd ⟨h1, h2⟩ hcond, fun _ => ?_⟩
                constructor
                · intro _ c hc
                  exact statusSpec_mono n g c _ (hall c hc)
                · intro _; rfl
            | false =>
                rw [hb] at hsv hiff hgo
                simp at hsv
                subst hsv
                refine ⟨?_, fun h1 h2 => absurd ⟨h1, h2⟩ hcond, fun hne => ?_⟩
                · intro hlv
                  have hch := code_childless hC hj hlv
                  rw [hch, statusAllGo] at hgo
                  simp at hgo
                · constructor
                  · intro hsc
                    exact absurd hsc (by decide)
                  · intro hall
                    have hall2 : ∀ c ∈ rj.Children,
                        statusSpec n g c = some RequirementStatus.COMPLETED := by
                      intro c hc
                      obtain ⟨sc, hsc⟩ := statusAllGo_isSome hgo c hc
                      have h2 := statusSpec_mono n g c sc hsc
                      rw [hall c hc] at h2
                      rw [← Option.some.inj h2] at hsc
                      exact hsc
                    have hbt := hiff.mpr hall2
                    exact absurd hbt (by decide)

/-- C1: on a graph whose child links point to present nodes of strictly
higher level, a successful `resolveDown` run marks every reached node and
stores in it exactly the pure `statusSpec` status, which satisfies the
claimed case split: a CODE node is `COMPLETED`; a non-CODE node with no
children is `NOT_STARTED`; a node with children is `COMPLETED` if and only
if every one of its children resolves to `COMPLETED` (and `STARTED`
otherwise, the only remaining status value the conditional can produce). -/
theorem c1_resolveDown_status {g : reqGraph} (hC : ChildrenOkP g)
    (fuel : Nat) (k : String) (g' : reqGraph) (st : RequirementStatus)
    (hrun : Req.resolveDown fuel g k = some (g', st)) :
    ∀ j rj, getReq g j = some rj → downReach fuel g k j = true →
      statusSpec fuel g j = some (statusOf g' j) ∧
      getReq g' j = some { rj with Seen := true, Status := statusOf g' j } ∧
      (rj.Level = RequirementLevel.CODE → statusOf g' j = RequirementStatus.COMPLETED) ∧
      (rj.Level ≠ RequirementLevel.CODE → rj.Children = [] →
        statusOf g' j = RequirementStatus.NOT_STARTED) ∧
      (rj.Children ≠ [] → (statusOf g' j = RequirementStatus.COMPLETED ↔
        ∀ c ∈ rj.Children, statusSpec fuel g c = some RequirementStatus.COMPLETED)) := by
  intro j rj hj hreach
  obtain ⟨hs', hspec, hchar⟩ := resolveDown_char hC fuel g k g' st (sameStruct_refl g) hrun
  have hcj := hchar j
  rw [if_pos hreach] at hcj
  obtain ⟨s, hsj, hg'⟩ := hcj
  rw [hj, Option.map_some'] at hg'
  have hstat : statusOf g' j = s := by rw [statusOf, hg']
  rw [hstat]
  obtain ⟨b1, b2, b3⟩ := statusSpec_cases hC hj hsj
  exact ⟨hsj, hg', b1, b2, b3⟩

theorem c1_resolveDown_status_w :
    statusSpec 4 exG1 "H1" = some (statusOf exG1r "H1") ∧
    getReq exG1r "H1" = some { exH1 with Seen := true, Status := statusOf exG1r "H1" } ∧
    (exH1.Level = RequirementLevel.CODE →
      statusOf exG1r "H1" = RequirementStatus.COMPLETED) ∧
    (exH1.Level ≠ RequirementLevel.CODE → exH1.Children = [] →
      statusOf exG1r "H1" = RequirementStatus.NOT_STARTED) ∧
    (exH1.Children ≠ [] → (statusOf exG1r "H1" = RequirementStatus.COMPLETED ↔
      ∀ c ∈ exH1.Children, statusSpec 4 exG1 c = some RequirementStatus.COMPLETED)) :=
  c1_resolveDown_status (childrenOkP_of_B (by decide)) 4 "S1" exG1r
    RequirementStatus.COMPLETED (by decide) "H1" exH1 (by decide) (by decide)
/-! ## Characterisation of the two propagation phases -/

theorem mem_keys_getReq {g : reqGraph} {k : String} (h : k ∈ keys g) :
    ∃ r, getReq g k = some r := by
  induction g with
  | nil => simp [keys] at h
  | cons p rest ih =>
      obtain ⟨k', r'⟩ := p
      by_cases hk : k' = k
      · subst hk
        exact ⟨r', by simp [getReq]⟩
      · have h2 : k ∈ keys rest := by
          simp only [keys, List.map_cons, List.mem_cons] at h
          rcases h with h | h
          · exact absurd h.symm hk
          · exact h
        obtain ⟨r, hr⟩ := ih h2
        exact ⟨r, by simp [getReq, hk]; exact hr⟩

theorem sameStruct_mem_keys {g h : reqGraph} (hs : sameStruct g h) (x : String) :
    x ∈ keys g ↔ x ∈ keys h := by
  constructor
  · intro hx
    obtain ⟨r, hr⟩ := mem_keys_getReq hx
    obtain ⟨rh, hrh, _⟩ := sameStruct_get hs hr
    exact getReq_mem_keys hrh
  · intro hx
    obtain ⟨r, hr⟩ := mem_keys_getReq hx
    obtain ⟨rg, hrg, _⟩ := sameStruct_get_rev hs hr
    exact getReq_mem_keys hrg

theorem any_mem_congr {l1 l2 : List String} (h : ∀ x, x ∈ l1 ↔ x ∈ l2)
    (f : String → Bool) : l1.any f = l2.any f := by
  cases hb : l2.any f
  · cases ha : l1.any f
    · rfl
    · obtain ⟨x, hx, hfx⟩ := List.any_eq_true.mp ha
      have h2 := List.any_eq_true.mpr ⟨x, (h x).mp hx, hfx⟩
      rw [hb] at h2
      exact absurd h2 (by decide)
  · obtain ⟨x, hx, hfx⟩ := List.any_eq_true.mp hb
    exact List.any_eq_true.mpr ⟨x, (h x).mpr hx, hfx⟩

theorem sameStruct_map_eq {g h : reqGraph} (hs : sameStruct g h) (j : String)
    {α : Type} (f f' : Req → α) (hf : ∀ r r', structOf r = structOf r' → f r = f' r') :
    (getReq g j).map f = (getReq h j).map f' := by
  cases hg : getReq g j with
  | none =>
      cases hh : getReq h j with
      | none => rfl
      | some rh =>
          obtain ⟨rg, hrg, _⟩ := sameStruct_get_rev hs hh
          rw [hg] at hrg
          simp at hrg
  | some rg =>
      obtain ⟨rh, hrh, hst⟩ := sameStruct_get hs hg
      rw [hrh, Option.map_some', Option.map_some']
      exact congrArg some (hf rg rh hst.symm)

theorem downPhase_char {gS : reqGraph} (hC : ChildrenOkP gS) (fuel : Nat) :
    ∀ (ks : List String) (h h' : reqGraph), sameStruct gS h →
      downPhase fuel h ks = some h' →
      sameStruct gS h' ∧
      ∀ j, if (ks.any fun k => sysRootB gS k && downReach fuel gS k j) = true then
          ∃ s, statusSpec fuel gS j = some s ∧
            getReq h' j = (getReq h j).map (fun r => { r with Seen := true, Status := s })
        else getReq h' j = getReq h j := by
  intro ks
  induction ks with
  | nil =>
      intro h h' hs hrun
      have hh : h' = h := (Option.some.inj hrun).symm
      subst hh
      refine ⟨hs, fun j => ?_⟩
      rw [if_neg (by simp)]
  | cons k ks ih =>
      intro h h' hs hrun
      rw [downPhase] at hrun
      cases hgk : getReq h k with
      | none =>
          rw [hgk] at hrun
          dsimp only at hrun
          obtain ⟨hs', char⟩ := ih h h' hs hrun
          have hroot : sysRootB gS k = false := by
            rw [sysRootB, sameStruct_none hs hgk]
          refine ⟨hs', fun j => ?_⟩
          have hcons : ((k :: ks).any fun k => sysRootB gS k && downReach fuel gS k j) =
              (ks.any fun k => sysRootB gS k && downReach fuel gS k j) := by
            simp only [List.any_cons, hroot, Bool.false_and, Bool.false_or]
          rw [hcons]
          exact char j
      | some rh =>
          rw [hgk] at hrun
          dsimp only at hrun
          obtain ⟨rk, hgkS, hstruct⟩ := sameStruct_get_rev hs hgk
          obtain ⟨hLv, _, _⟩ := struct_fields hstruct
          by_cases hsys : rh.Level = RequirementLevel.SYSTEM
          · rw [if_pos hsys] at hrun
            have hroot : sysRootB gS k = true := by
              rw [sysRootB, hgkS]
              simp [← hLv, hsys]
            cases hdown : Req.resolveDown fuel h k with
            | none => rw [hdown] at hrun; simp at hrun
            | some p =>
                obtain ⟨h1, st⟩ := p
                rw [hdown] at hrun
                dsimp only at hrun
                obtain ⟨hs1, _, char1⟩ :=
                  resolveDown_char hC fuel h k h1 st hs hdown
                obtain ⟨hs', char2⟩ := ih h1 h' hs1 hrun
                refine ⟨hs', fun j => ?_⟩
                have hc1 := char1 j
                have hc2 := char2 j
                by_cases hdj : downReach fuel gS k j = true
                · rw [if_pos hdj] at hc1
                  obtain ⟨s, hspec, hmap1⟩ := hc1
                  have hcons : ((k :: ks).any fun k =>
                      sysRootB gS k && downReach fuel gS k j) = true :=
                    List.any_eq_true.mpr ⟨k, List.mem_cons_self _ _,
                      by show (sysRootB gS k && downReach fuel gS k j) = true
                         rw [hroot, hdj]
                         rfl⟩
                  rw [if_pos hcons]
                  by_cases hrj : (ks.any fun k => sysRootB gS k && downReach fuel gS k j) = true
                  · rw [if_pos hrj] at hc2
                    obtain ⟨s', hspec', hmap2⟩ := hc2
                    refine ⟨s', hspec', ?_⟩
                    rw [hmap2, hmap1, Option.map_map]
                    have hcomp : (fun r : Req => { r with Seen := true, Status := s' }) ∘
                        (fun r : Req => { r with Seen := true, Status := s }) =
                        (fun r : Req => { r with Seen := true, Status := s' }) := by
                      funext r; rfl
                    rw [hcomp]
                  · rw [if_neg hrj] at hc2
                    exact ⟨s, hspec, by rw [hc2, hmap1]⟩
                · rw [if_neg hdj] at hc1
                  by_cases hrj : (ks.any fun k => sysRootB gS k && downReach fuel gS k j) = true
                  · have hcons : ((k :: ks).any fun k =>
                        sysRootB gS k && downReach fuel gS k j) = true := by
                      obtain ⟨x, hx, hfx⟩ := List.any_eq_true.mp hrj
                      exact List.any_eq_true.mpr ⟨x, List.mem_cons_of_mem _ hx, hfx⟩
                    rw [if_pos hcons]
                    rw [if_pos hrj] at hc2
                    obtain ⟨s', hspec', hmap2⟩ := hc2
                    exact ⟨s', hspec', by rw [hmap2, hc1]⟩
                  · have hcons : ¬ ((k :: ks).any fun k =>
                        sysRootB gS k && downReach fuel gS k j) = true := by
                      intro hcc
                      obtain ⟨x, hx, hfx⟩ := List.any_eq_true.mp hcc
                      rcases List.mem_cons.mp hx with h1 | h1
                      · have hfx2 : (sysRootB gS x && downReach fuel gS x j) = true := hfx
                        rw [h1] at hfx2
                        have hdj2 : downReach fuel gS k j = false := by
                          cases hc : downReach fuel gS k j
                          · rfl
                          · exact absurd hc hdj
                        rw [hdj2, Bool.and_false] at hfx2
                        exact absurd hfx2 (by decide)
                      · exact hrj (List.any_eq_true.mpr ⟨x, h1, hfx⟩)
                    rw [if_neg hcons]
                    rw [if_neg hrj] at hc2
                    rw [hc2, hc1]
          · rw [if_neg hsys] at hrun
            obtain ⟨hs', char⟩ := ih h h' hs hrun
            have hroot : sysRootB gS k = false := by
              rw [sysRootB, hgkS]
              simp [← hLv, hsys]
            refine ⟨hs', fun j => ?_⟩
            have hcons : ((k :: ks).any fun k => sysRootB gS k && downReach fuel gS k j) =
                (ks.any fun k => sysRootB gS k && downReach fuel gS k j) := by
              simp only [List.any_cons, hroot, Bool.false_and, Bool.false_or]
            rw [hcons]
            exact char j

theorem upPhase_char {gS : reqGraph} (fuel : Nat) :
    ∀ (ks : List String) (h h' : reqGraph), sameStruct gS h →
      upPhase fuel h ks = some h' →
      sameStruct gS h' ∧
      ∀ j, (getReq h' j).map ssOf =
        if (ks.any fun k => codeRootB gS k && upReach fuel gS k j) = true then
          (getReq h j).map (fun r => (true, r.Status))
        else (getReq h j).map ssOf := by
  intro ks
  induction ks with
  | nil =>
      intro h h' hs hrun
      have hh : h' = h := (Option.some.inj hrun).symm
      subst hh
      refine ⟨hs, fun j => ?_⟩
      rw [if_neg (by simp)]
  | cons k ks ih =>
      intro h h' hs hrun
      rw [upPhase] at hrun
      cases hgk : getReq h k with
      | none =>
          rw [hgk] at hrun
          dsimp only at hrun
          obtain ⟨hs', char⟩ := ih h h' hs hrun
          have hroot : codeRootB gS k = false := by
            rw [codeRootB, sameStruct_none hs hgk]
          refine ⟨hs', fun j => ?_⟩
          have hcons : ((k :: ks).any fun k => codeRootB gS k && upReach fuel gS k j) =
              (ks.any fun k => codeRootB gS k && upReach fuel gS k j) := by
            simp only [List.any_cons, hroot, Bool.false_and, Bool.false_or]
          rw [hcons]
          exact char j
      | some rh =>
          rw [hgk] at hrun
          dsimp only at hrun
          obtain ⟨rk, hgkS, hstruct⟩ := sameStruct_get_rev hs hgk
          obtain ⟨hLv, _, _⟩ := struct_fields hstruct
          by_cases hcode : rh.Level = RequirementLevel.CODE
          · rw [if_pos hcode] at hrun
            have hroot : codeRootB gS k = true := by
              rw [codeRootB, hgkS]
              simp [← hLv, hcode]
            cases hup : Req.resolveUp fuel h k with
            | none => rw [hup] at hrun; simp at hrun
            | some g1 =>
                rw [hup] at hrun
                dsimp only at hrun
                obtain ⟨hs1, char1⟩ := resolveUp_char fuel h k g1 hs hup
                cases hg1k : getReq g1 k with
                | none => rw [hg1k] at hrun; simp at hrun
                | some r1 =>
                    rw [hg1k] at hrun
                    dsimp only at hrun
                    cases hpar : r1.Parents with
                    | nil => rw [hpar] at hrun; simp at hrun
                    | cons p ps =>
                        rw [hpar] at hrun
                        dsimp only at hrun
                        have hs2 : sameStruct gS
                            (setReq g1 k (fun q => { q with Position := posOf g1 p })) :=
                          sameStruct_setReq hs1 k
                            (fun q => { q with Position := posOf g1 p }) (fun r => rfl)
                        obtain ⟨hs', char2⟩ := ih _ h' hs2 hrun
                        refine ⟨hs', fun j => ?_⟩
                        have hss2 : ∀ (j : String) (f : Req → Bool × RequirementStatus),
                            (∀ r, f { r with Position := posOf g1 p } = f r) →
                            ((getReq (setReq g1 k
                                (fun q => { q with Position := posOf g1 p })) j).map f) =
                              (getReq g1 j).map f := by
                          intro j f hf
                          rw [getReq_setReq]
                          split
                          · rw [Option.map_map]
                            have : f ∘ (fun q : Req => { q with Position := posOf g1 p }) = f := by
                              funext r; exact hf r
                            rw [this]
                          · rfl
                        have hc2 := char2 j
                        rw [hss2 j ssOf (fun r => rfl),
                          hss2 j (fun r => (true, r.Status)) (fun r => rfl)] at hc2
                        have hc1 := char1 j
                        by_cases huj : upReach fuel gS k j = true
                        · rw [if_pos huj] at hc1
                          have hcons : ((k :: ks).any fun k =>
                              codeRootB gS k && upReach fuel gS k j) = true :=
                            List.any_eq_true.mpr ⟨k, List.mem_cons_self _ _,
                              by show (codeRootB gS k && upReach fuel gS k j) = true
                                 rw [hroot, huj]
                                 rfl⟩
                          rw [if_pos hcons]
                          by_cases hrj : (ks.any fun k =>
                              codeRootB gS k && upReach fuel gS k j) = true
                          · rw [if_pos hrj] at hc2
                            rw [hc2, hc1, Option.map_map]
                            have hcomp : (fun r : Req => (true, r.Status)) ∘
                                (fun r : Req => { r with Seen := true }) =
                                (fun r : Req => (true, r.Status)) := by
                              funext r; rfl
                            rw [hcomp]
                          · rw [if_neg hrj] at hc2
                            rw [hc2, hc1, Option.map_map]
                            have hcomp : ssOf ∘ (fun r : Req => { r with Seen := true }) =
                                (fun r : Req => (true, r.Status)) := by
                              funext r; rfl
                            rw [hcomp]
                        · rw [if_neg huj] at hc1
                          by_cases hrj : (ks.any fun k =>
                              codeRootB gS k && upReach fuel gS k j) = true
                          · have hcons : ((k :: ks).any fun k =>
                                codeRootB gS k && upReach fuel gS k j) = true := by
                              obtain ⟨x, hx, hfx⟩ := List.any_eq_true.mp hrj
                              exact List.any_eq_true.mpr ⟨x, List.mem_cons_of_mem _ hx, hfx⟩
                            rw [if_pos hcons]
                            rw [if_pos hrj] at hc2
                            rw [hc2, hc1]
                          · have hcons : ¬ ((k :: ks).any fun k =>
                                codeRootB gS k && upReach fuel gS k j) = true := by
                              intro hcc
                              obtain ⟨x, hx, hfx⟩ := List.any_eq_true.mp hcc
                              rcases List.mem_cons.mp hx with h1 | h1
                              · have hfx2 : (codeRootB gS x && upReach fuel gS x j) = true := hfx
                                rw [h1] at hfx2
                                have huj2 : upReach fuel gS k j = false := by
                                  cases hc : upReach fuel gS k j
                                  · rfl
                                  · exact absurd hc huj
                                rw [huj2, Bool.and_false] at hfx2
                                exact absurd hfx2 (by decide)
                              · exact hrj (List.any_eq_true.mpr ⟨x, h1, hfx⟩)
                            rw [if_neg hcons]
                            rw [if_neg hrj] at hc2
                            rw [hc2, hc1]
          · rw [if_neg hcode] at hrun
            obtain ⟨hs', char⟩ := ih h h' hs hrun
            have hroot : codeRootB gS k = false := by
              rw [codeRootB, hgkS]
              simp [← hLv, hcode]
            refine ⟨hs', fun j => ?_⟩
            have hcons : ((k :: ks).any fun k => codeRootB gS k && upReach fuel gS k j) =
                (ks.any fun k => codeRootB gS k && upReach fuel gS k j) := by
              simp only [List.any_cons, hroot, Bool.false_and, Bool.false_or]
            rw [hcons]
            exact char j
/-! ## C8: idempotence of the propagation pass -/

/-- C8: on a linked graph whose child links point to present nodes of
strictly higher level, running the propagation pass (the `resolveDown` pass
over SYSTEM nodes followed by the `resolveUp` pass over CODE nodes) a second
time leaves every node's `Seen` flag and `Status` exactly as the first run
left them. -/
theorem c8_propagation_idempotent {g : reqGraph} (hC : ChildrenOkP g)
    (fuel : Nat) (g1 g2 : reqGraph)
    (h1 : propagate fuel g = some g1) (h2 : propagate fuel g1 = some g2) :
    ∀ j, (getReq g2 j).map ssOf = (getReq g1 j).map ssOf := by
  rw [propagate] at h1 h2
  cases hd1 : downPhase fuel g (keys g) with
  | none => rw [hd1] at h1; simp at h1
  | some d1 =>
      rw [hd1] at h1
      dsimp only at h1
      cases hd2 : downPhase fuel g1 (keys g1) with
      | none => rw [hd2] at h2; simp at h2
      | some d2 =>
          rw [hd2] at h2
          dsimp only at h2
          obtain ⟨hsd1, charD1⟩ :=
            downPhase_char hC fuel (keys g) g d1 (sameStruct_refl g) hd1
          obtain ⟨hsg1, charU1⟩ := upPhase_char fuel (keys d1) d1 g1 hsd1 h1
          obtain ⟨hsd2, charD2⟩ := downPhase_char hC fuel (keys g1) g1 d2 hsg1 hd2
          obtain ⟨hsg2, charU2⟩ := upPhase_char fuel (keys d2) d2 g2 hsd2 h2
          intro j
          have hkm1 : ∀ x, x ∈ keys g1 ↔ x ∈ keys g :=
            fun x => (sameStruct_mem_keys hsg1 x).symm
          have hkmD1 : ∀ x, x ∈ keys d1 ↔ x ∈ keys g :=
            fun x => (sameStruct_mem_keys hsd1 x).symm
          have hkmD2 : ∀ x, x ∈ keys d2 ↔ x ∈ keys g :=
            fun x => (sameStruct_mem_keys hsd2 x).symm
          have hAeq : ((keys g1).any fun k => sysRootB g k && downReach fuel g k j) =
              ((keys g).any fun k => sysRootB g k && downReach fuel g k j) :=
            any_mem_congr hkm1 _
          have hB1 : ((keys d1).any fun k => codeRootB g k && upReach fuel g k j) =
              ((keys g).any fun k => codeRootB g k && upReach fuel g k j) :=
            any_mem_congr hkmD1 _
          have hB2 : ((keys d2).any fun k => codeRootB g k && upReach fuel g k j) =
              ((keys g).any fun k => codeRootB g k && upReach fuel g k j) :=
            any_mem_congr hkmD2 _
          have hc2 := charU2 j
          rw [hB2] at hc2
          have hc1u := charU1 j
          rw [hB1] at hc1u
          have hc2d := charD2 j
          rw [hAeq] at hc2d
          have hc1d := charD1 j
          have hsg1r : sameStruct g1 g := fun x => (hsg1 x).symm
          by_cases hA : ((keys g).any fun k => sysRootB g k && downReach fuel g k j) = true
          · rw [if_pos hA] at hc2d hc1d
            obtain ⟨s, hspec, hm2⟩ := hc2d
            obtain ⟨s', hspec', hm1⟩ := hc1d
            have hss : s' = s := Option.some.inj (hspec'.symm.trans hspec)
            subst hss
            by_cases hB : ((keys g).any fun k => codeRootB g k && upReach fuel g k j) = true
            · rw [if_pos hB] at hc2 hc1u
              rw [hc2, hc1u, hm2, hm1, Option.map_map, Option.map_map]
              have hcomp : ((fun r : Req => (true, r.Status)) ∘
                  (fun r : Req => { r with Seen := true, Status := s' })) =
                  (fun _ : Req => (true, s')) := by
                funext r; rfl
              rw [hcomp]
              exact sameStruct_map_eq hsg1r j _ _ (fun _ _ _ => rfl)
            · rw [if_neg hB] at hc2 hc1u
              rw [hc2, hc1u, hm2, hm1, Option.map_map, Option.map_map]
              have hcomp : (ssOf ∘
                  (fun r : Req => { r with Seen := true, Status := s' })) =
                  (fun _ : Req => (true, s')) := by
                funext r; rfl
              rw [hcomp]
              exact sameStruct_map_eq hsg1r j _ _ (fun _ _ _ => rfl)
          · rw [if_neg hA] at hc2d hc1d
            by_cases hB : ((keys g).any fun k => codeRootB g k && upReach fuel g k j) = true
            · rw [if_pos hB] at hc2 hc1u
              rw [hc1d] at hc1u
              rw [hc2, hc2d]
              cases hg1j : getReq g1 j with
              | none => rfl
              | some r1 =>
                  obtain ⟨r0, hg0j, _⟩ := sameStruct_get_rev hsg1 hg1j
                  rw [hg1j, hg0j] at hc1u
                  simp only [Option.map_some'] at hc1u
                  have hss := Option.some.inj hc1u
                  have hseen : r1.Seen = true := congrArg Prod.fst hss
                  simp only [Option.map_some']
                  rw [ssOf, hseen]
            · rw [if_neg hB] at hc2
              rw [hc2, hc2d]

theorem c8_propagation_idempotent_w :
    propagate 4 exG1 = some exG1r ∧ propagate 4 exG1r = some exG1r ∧
      (getReq exG1r "H1").map ssOf = (getReq exG1r "H1").map ssOf :=
  ⟨by decide, by decide,
    @c8_propagation_idempotent exG1 (childrenOkP_of_B (by decide)) 4 exG1r exG1r
      (by decide) (by decide) "H1"⟩
/-! ## The sorting pass: permutation congruence -/

theorem permStruct_refl (g : reqGraph) : permStruct g g := by
  intro j
  cases hj : getReq g j with
  | none => exact Or.inl ⟨rfl, rfl⟩
  | some r => exact Or.inr ⟨r, r, rfl, rfl, rfl, List.Perm.refl _, List.Perm.refl _⟩

theorem permStruct_symm {g h : reqGraph} (hp : permStruct g h) : permStruct h g := by
  intro j
  rcases hp j with ⟨h1, h2⟩ | ⟨rg, rh, h1, h2, hLv, hCh, hPar⟩
  · exact Or.inl ⟨h2, h1⟩
  · exact Or.inr ⟨rh, rg, h2, h1, hLv.symm, hCh.symm, hPar.symm⟩

theorem sameStruct_permStruct {g h : reqGraph} (hs : sameStruct g h) : permStruct g h := by
  intro j
  cases hj : getReq g j with
  | none => exact Or.inl ⟨rfl, sameStruct_none (fun x => (hs x).symm) hj⟩
  | some rg =>
      obtain ⟨rh, hrh, hst⟩ := sameStruct_get hs hj
      obtain ⟨hLv, hCh, hPar⟩ := struct_fields hst
      exact Or.inr ⟨rg, rh, rfl, hrh, hLv.symm, hCh.symm ▸ List.Perm.refl _,
        hPar.symm ▸ List.Perm.refl _⟩

theorem permStruct_trans {g h k : reqGraph} (h1 : permStruct g h)
    (h2 : permStruct h k) : permStruct g k := by
  intro j
  rcases h1 j with ⟨ha, hb⟩ | ⟨rg, rh, ha, hb, hLv, hCh, hPar⟩
  · rcases h2 j with ⟨hc, hd⟩ | ⟨rh, rk, hc, hd, _, _, _⟩
    · exact Or.inl ⟨ha, hd⟩
    · rw [hb] at hc; simp at hc
  · rcases h2 j with ⟨hc, hd⟩ | ⟨rh', rk, hc, hd, hLv', hCh', hPar'⟩
    · rw [hb] at hc; simp at hc
    · rw [hb] at hc
      have he : rh = rh' := Option.some.inj hc
      subst he
      exact Or.inr ⟨rg, rk, ha, hd, hLv.trans hLv', hCh.trans hCh', hPar.trans hPar'⟩

theorem permStruct_mem_keys {g h : reqGraph} (hp : permStruct g h) (x : String) :
    x ∈ keys g ↔ x ∈ keys h := by
  constructor
  · intro hx
    obtain ⟨r, hr⟩ := mem_keys_getReq hx
    rcases hp x with ⟨h1, _⟩ | ⟨rg, rh, _, h2, _, _, _⟩
    · rw [hr] at h1; simp at h1
    · exact getReq_mem_keys h2
  · intro hx
    obtain ⟨r, hr⟩ := mem_keys_getReq hx
    rcases hp x with ⟨_, h2⟩ | ⟨rg, rh, h1, _, _, _, _⟩
    · rw [hr] at h2; simp at h2
    · exact getReq_mem_keys h1

theorem upReach_permStruct {gA gB : reqGraph} (hp : permStruct gA gB) :
    ∀ (fuel : Nat) (k j : String), upReach fuel gA k j = upReach fuel gB k j := by
  intro fuel
  induction fuel with
  | zero => intro k j; rfl
  | succ n ih =>
      intro k j
      rw [upReach, upReach]
      rcases hp k with ⟨h1, h2⟩ | ⟨rA, rB, h1, h2, _, _, hPar⟩
      · rw [h1, h2]
      · rw [h1, h2]
        dsimp only
        have hfn : rA.Parents.any (fun p => upReach n gA p j) =
            rA.Parents.any (fun p => upReach n gB p j) :=
          any_congr (fun x _ => ih x j)
        rw [hfn, any_mem_congr (fun x => hPar.mem_iff) (fun p => upReach n gB p j)]

theorem codeRootB_permStruct {gA gB : reqGraph} (hp : permStruct gA gB)
    (k : String) : codeRootB gA k = codeRootB gB k := by
  rw [codeRootB, codeRootB]
  rcases hp k with ⟨h1, h2⟩ | ⟨rA, rB, h1, h2, hLv, _, _⟩
  · rw [h1, h2]
  · rw [h1, h2]
    dsimp only
    rw [hLv]

theorem sortReqs_perm (g : reqGraph) (l : List String) :
    (sortReqs g l).Perm l := List.perm_insertionSort _ _

theorem sortPhase_ss : ∀ (ks : List String) (g : reqGraph) (j : String),
    (getReq (sortPhase g ks) j).map ssOf = (getReq g j).map ssOf := by
  intro ks
  induction ks with
  | nil => intro g j; rfl
  | cons k ks ih =>
      intro g j
      rw [sortPhase]
      rw [ih _ j, getReq_setReq]
      split
      · rw [Option.map_map]
        have hcomp : (ssOf ∘ (fun r : Req => { r with Parents := sortReqs g r.Parents, Children := sortReqs g r.Children })) = ssOf := by
          funext r; rfl
        rw [hcomp]
      · rfl

theorem sortPhase_perm : ∀ (ks : List String) (g : reqGraph),
    permStruct g (sortPhase g ks) := by
  intro ks
  induction ks with
  | nil => intro g; exact permStruct_refl g
  | cons k ks ih =>
      intro g
      rw [sortPhase]
      refine permStruct_trans ?_ (ih _)
      intro j
      rw [getReq_setReq]
      by_cases hjk : j = k
      · rw [if_pos hjk]
        cases hj : getReq g j with
        | none => exact Or.inl ⟨rfl, rfl⟩
        | some r =>
            exact Or.inr ⟨r, _, rfl, rfl, rfl,
              (sortReqs_perm g r.Children).symm, (sortReqs_perm g r.Parents).symm⟩
      · rw [if_neg hjk]
        cases hj : getReq g j with
        | none => exact Or.inl ⟨rfl, rfl⟩
        | some r => exact Or.inr ⟨r, r, rfl, rfl, rfl, List.Perm.refl _, List.Perm.refl _⟩

theorem dangling_mem (g : reqGraph) (j : String) :
    j ∈ DanglingReqsByPosition g ↔ ∃ r, (j, r) ∈ g ∧ r.Seen = false := by
  rw [DanglingReqsByPosition]
  constructor
  · intro h
    obtain ⟨p, hpmem, hpj⟩ := List.mem_map.mp ((sortReqs_perm _ _).mem_iff.mp h)
    obtain ⟨hmem, hfilt⟩ := List.mem_filter.mp hpmem
    refine ⟨p.2, ?_, ?_⟩
    · have hpe : (p.1, p.2) = p := rfl
      rw [← hpj, hpe]
      exact hmem
    · simp at hfilt
      exact hfilt
  · rintro ⟨r, hmem, hseen⟩
    apply (sortReqs_perm _ _).mem_iff.mpr
    apply List.mem_map.mpr
    exact ⟨(j, r), List.mem_filter.mpr ⟨hmem, by simp [hseen]⟩, rfl⟩
/-! ## C2: the reached marker after a clean Resolve -/

/-- C2 counterexample: a SYSTEM node with one childless HIGH child and no
CODE node anywhere.  `Resolve` finishes with no error and leaves the HIGH
node's `Seen` flag `true` — although it is a specification node with no
path to any CODE node (it is not upward-reachable from any CODE node) —
so the dangling accessor does not return it. -/
theorem c2_counterexample :
    Option.map Prod.snd (reqGraph.Resolve 9 exG2) = some none ∧
    (reqGraph.Resolve 9 exG2).map
      (fun p => (getReq p.1 "H2").map (fun r => r.Seen)) = some (some true) ∧
    (reqGraph.Resolve 9 exG2).map
      (fun p => (getReq p.1 "H2").map
        (fun r => decide (r.Level = RequirementLevel.CODE))) = some (some false) ∧
    (reqGraph.Resolve 9 exG2).map (fun p => upVisitedB 9 p.1 "H2") = some false ∧
    (reqGraph.Resolve 9 exG2).map
      (fun p => decide ("H2" ∈ DanglingReqsByPosition p.1)) = some false := by
  refine ⟨by decide, by decide, by decide, by decide, by decide⟩

/-- C2 (amended): after a clean `Resolve` run on a graph whose nodes all
start unreached and whose resolved child links respect the level order, a
node's `Seen` flag is `true` exactly when the downward pass reaches it from
a SYSTEM node or the upward pass reaches it from a CODE node — not when it
has a path to a CODE node; and the dangling accessor returns exactly the
keys whose stored node still has `Seen = false`. -/
theorem c2_seen_iff_visited (g : reqGraph) (fuel : Nat) (gf : reqGraph)
    (hC : ChildrenOkB (linkAll g (keys g)).1 = true)
    (hseen0 : g.all (fun p => !p.2.Seen) = true)
    (hrun : reqGraph.Resolve fuel g = some (gf, none)) :
    (∀ j rj, getReq gf j = some rj →
      (rj.Seen = true ↔ (downVisitedB fuel (linkAll g (keys g)).1 j = true ∨
        upVisitedB fuel (linkAll g (keys g)).1 j = true))) ∧
    (∀ j, j ∈ DanglingReqsByPosition gf ↔ ∃ r, (j, r) ∈ gf ∧ r.Seen = false) := by
  refine ⟨?_, fun j => dangling_mem gf j⟩
  rw [reqGraph.Resolve] at hrun
  dsimp only at hrun
  by_cases hjoin : String.join (linkAll g (keys g)).2 ≠ ""
  · rw [if_pos hjoin] at hrun
    have h2 := congrArg Prod.snd (Option.some.inj hrun)
    simp at h2
  · rw [if_neg hjoin] at hrun
    cases hdown : downPhase fuel (linkAll g (keys g)).1 (keys (linkAll g (keys g)).1) with
    | none => rw [hdown] at hrun; simp at hrun
    | some g2 =>
        rw [hdown] at hrun
        dsimp only at hrun
        cases hup : upPhase fuel (sortPhase g2 (keys g2)) (keys (sortPhase g2 (keys g2))) with
        | none => rw [hup] at hrun; simp at hrun
        | some g4 =>
            rw [hup] at hrun
            dsimp only at hrun
            have hgf : g4 = gf := congrArg Prod.fst (Option.some.inj hrun)
            subst hgf
            have hCp : ChildrenOkP (linkAll g (keys g)).1 := childrenOkP_of_B hC
            obtain ⟨hs2, charD⟩ := downPhase_char hCp fuel
              (keys (linkAll g (keys g)).1) (linkAll g (keys g)).1 g2
              (sameStruct_refl (linkAll g (keys g)).1) hdown
            obtain ⟨_, charU⟩ := upPhase_char fuel (keys (sortPhase g2 (keys g2)))
              (sortPhase g2 (keys g2)) g4
              (sameStruct_refl (sortPhase g2 (keys g2))) hup
            have hperm : permStruct (linkAll g (keys g)).1 (sortPhase g2 (keys g2)) :=
              permStruct_trans (sameStruct_permStruct hs2) (sortPhase_perm (keys g2) g2)
            have hpermR : permStruct (sortPhase g2 (keys g2)) (linkAll g (keys g)).1 :=
              permStruct_symm hperm
            have hss3 : ∀ j, (getReq (sortPhase g2 (keys g2)) j).map ssOf =
                (getReq g2 j).map ssOf := sortPhase_ss (keys g2) g2
            have hBeq : ∀ j, ((keys (sortPhase g2 (keys g2))).any fun k =>
                codeRootB (sortPhase g2 (keys g2)) k &&
                  upReach fuel (sortPhase g2 (keys g2)) k j) =
                upVisitedB fuel (linkAll g (keys g)).1 j := by
              intro j
              rw [upVisitedB]
              have hmem : ∀ x, x ∈ keys (sortPhase g2 (keys g2)) ↔
                  x ∈ keys (linkAll g (keys g)).1 :=
                fun x => permStruct_mem_keys hpermR x
              rw [any_mem_congr hmem (fun k => codeRootB (sortPhase g2 (keys g2)) k &&
                upReach fuel (sortPhase g2 (keys g2)) k j)]
              exact any_congr (fun x _ => by
                rw [codeRootB_permStruct hpermR x, upReach_permStruct hpermR fuel x j])
            intro j rj hj
            have hcU := charU j
            rw [hBeq j] at hcU
            have hcD := charD j
            have hDeq : ((keys (linkAll g (keys g)).1).any fun k =>
                sysRootB (linkAll g (keys g)).1 k &&
                  downReach fuel (linkAll g (keys g)).1 k j) =
                downVisitedB fuel (linkAll g (keys g)).1 j := rfl
            rw [hDeq] at hcD
            by_cases hB : upVisitedB fuel (linkAll g (keys g)).1 j = true
            · rw [if_pos hB, hj, Option.map_some'] at hcU
              cases hg3j : getReq (sortPhase g2 (keys g2)) j with
              | none => rw [hg3j] at hcU; simp at hcU
              | some r3 =>
                  rw [hg3j, Option.map_some'] at hcU
                  have hseen : rj.Seen = true := congrArg Prod.fst (Option.some.inj hcU)
                  exact ⟨fun _ => Or.inr hB, fun _ => hseen⟩
            · rw [if_neg hB, hj, Option.map_some', hss3 j] at hcU
              by_cases hA : downVisitedB fuel (linkAll g (keys g)).1 j = true
              · rw [if_pos hA] at hcD
                obtain ⟨s, _, hm⟩ := hcD
                rw [hm] at hcU
                cases hgLj : getReq (linkAll g (keys g)).1 j with
                | none => rw [hgLj] at hcU; simp at hcU
                | some rL =>
                    rw [hgLj] at hcU
                    simp only [Option.map_some'] at hcU
                    have hseen : rj.Seen = true := congrArg Prod.fst (Option.some.inj hcU)
                    exact ⟨fun _ => Or.inl hA, fun _ => hseen⟩
              · rw [if_neg hA] at hcD
                rw [hcD] at hcU
                cases hgLj : getReq (linkAll g (keys g)).1 j with
                | none => rw [hgLj] at hcU; simp at hcU
                | some rL =>
                    rw [hgLj, Option.map_some'] at hcU
                    have h1 := linkAll_isSome (keys g) g j
                    rw [hgLj] at h1
                    simp only [Option.isSome_some] at h1
                    obtain ⟨r0, hr0⟩ := Option.isSome_iff_exists.mp h1.symm
                    have h2 := linkAll_nonLink (keys g) g j
                    rw [hgLj, hr0, Option.map_some', Option.map_some'] at h2
                    have hfields := nonLink_fields (Option.some.inj h2)
                    have hseen0j : r0.Seen = false := by
                      have hmem := getReq_mem hr0
                      have h3 := List.all_eq_true.mp hseen0 _ hmem
                      simp at h3
                      exact h3
                    have hrLseen : rL.Seen = false := by
                      rw [hfields.2.2.2.2.2.2.1, hseen0j]
                    have hf : rj.Seen = rL.Seen := congrArg Prod.fst (Option.some.inj hcU)
                    rw [hrLseen] at hf
                    constructor
                    · intro hcontra
                      rw [hf] at hcontra
                      exact absurd hcontra (by decide)
                    · intro hor
                      rcases hor with h | h
                      · exact absurd h hA
                      · exact absurd h hB

theorem c2_seen_iff_visited_w :
    exH2f.Seen = true ↔ (downVisitedB 9 (linkAll exG2 (keys exG2)).1 "H2" = true ∨
      upVisitedB 9 (linkAll exG2 (keys exG2)).1 "H2" = true) :=
  (c2_seen_iff_visited exG2 9 exG2f (by decide) (by decide) (by decide)).1
    "H2" exH2f (by decide)
/-! ## Key-set and core-field preservation through the pipeline -/

theorem keys_linkParent (g : reqGraph) (k : String) (req : Req) (pid : String) :
    keys (linkParent g k req pid).1 = keys g := by
  rw [linkParent]
  cases hp : getReq g pid with
  | none => rfl
  | some parent =>
      dsimp only
      rw [keys_setReq, keys_setReq]

theorem keys_linkParents (k : String) (req : Req) :
    ∀ (pids : List String) (g : reqGraph),
      keys (linkParents k req g pids).1 = keys g := by
  intro pids
  induction pids with
  | nil => intro g; rfl
  | cons pid pids ih =>
      intro g
      rw [linkParents]
      dsimp only
      rw [ih, keys_linkParent]

theorem keys_linkNode (g : reqGraph) (k : String) :
    keys (linkNode g k).1 = keys g := by
  rw [linkNode]
  cases hk : getReq g k with
  | none => rfl
  | some req =>
      dsimp only
      rw [keys_linkParents]

theorem keys_linkAll : ∀ (ks : List String) (g : reqGraph),
    keys (linkAll g ks).1 = keys g := by
  intro ks
  induction ks with
  | nil => intro g; rfl
  | cons k ks ih =>
      intro g
      rw [linkAll]
      dsimp only
      rw [ih, keys_linkNode]

theorem keys_resolveDownGo (fuel : Nat)
    (HK : ∀ (h : reqGraph) (c : String) (h' : reqGraph) (st : RequirementStatus),
      Req.resolveDown fuel h c = some (h', st) → keys h' = keys h) (k : String) :
    ∀ (cs : List String) (h h' : reqGraph),
      resolveDownGo (Req.resolveDown fuel) k h cs = some h' → keys h' = keys h := by
  intro cs
  induction cs with
  | nil => intro h h' hrun; rw [(Option.some.inj hrun).symm]
  | cons c cs ih =>
      intro h h' hrun
      rw [resolveDownGo] at hrun
      cases hc : Req.resolveDown fuel h c with
      | none => rw [hc] at hrun; simp at hrun
      | some p =>
          obtain ⟨h2, st⟩ := p
          rw [hc] at hrun
          dsimp only at hrun
          have h1 := ih _ _ hrun
          rw [h1]
          split
          · rw [keys_setReq]
            exact HK h c h2 st hc
          · exact HK h c h2 st hc

theorem keys_resolveDown : ∀ (fuel : Nat) (h : reqGraph) (k : String)
    (h' : reqGraph) (st : RequirementStatus),
    Req.resolveDown fuel h k = some (h', st) → keys h' = keys h := by
  intro fuel
  induction fuel with
  | zero => intro h k h' st hrun; simp [Req.resolveDown] at hrun
  | succ n ih =>
      intro h k h' st hrun
      rw [Req.resolveDown] at hrun
      cases hgk : getReq h k with
      | none => rw [hgk] at hrun; simp at hrun
      | some rh =>
          rw [hgk] at hrun
          dsimp only at hrun
          by_cases hcond : rh.Level ≠ RequirementLevel.CODE ∧ rh.Children = []
          · rw [if_pos hcond] at hrun
            have hh : h' = _ := (congrArg Prod.fst (Option.some.inj hrun)).symm
            rw [hh, keys_setReq, keys_setReq]
          · rw [if_neg hcond] at hrun
            cases hgo : resolveDownGo (Req.resolveDown n) k
                (setReq h k (fun q => { q with Seen := true, Status := .COMPLETED }))
                rh.Children with
            | none => rw [hgo] at hrun; simp at hrun
            | some g2 =>
                rw [hgo] at hrun
                dsimp only at hrun
                have hh : h' = g2 := (congrArg Prod.fst (Option.some.inj hrun)).symm
                rw [hh, keys_resolveDownGo n ih k rh.Children _ g2 hgo, keys_setReq]

theorem keys_downPhase (fuel : Nat) : ∀ (ks : List String) (h h' : reqGraph),
    downPhase fuel h ks = some h' → keys h' = keys h := by
  intro ks
  induction ks with
  | nil => intro h h' hrun; rw [(Option.some.inj hrun).symm]
  | cons k ks ih =>
      intro h h' hrun
      rw [downPhase] at hrun
      cases hgk : getReq h k with
      | none => rw [hgk] at hrun; exact ih _ _ hrun
      | some r =>
          rw [hgk] at hrun
          dsimp only at hrun
          by_cases hsys : r.Level = RequirementLevel.SYSTEM
          · rw [if_pos hsys] at hrun
            cases hdown : Req.resolveDown fuel h k with
            | none => rw [hdown] at hrun; simp at hrun
            | some p =>
                obtain ⟨h1, st⟩ := p
                rw [hdown] at hrun
                dsimp only at hrun
                rw [ih _ _ hrun, keys_resolveDown fuel h k h1 st hdown]
          · rw [if_neg hsys] at hrun
            exact ih _ _ hrun

theorem keys_sortPhase : ∀ (ks : List String) (g : reqGraph),
    keys (sortPhase g ks) = keys g := by
  intro ks
  induction ks with
  | nil => intro g; rfl
  | cons k ks ih =>
      intro g
      rw [sortPhase, ih, keys_setReq]

theorem keys_resolveUpGo (fuel : Nat)
    (HK : ∀ (h : reqGraph) (p : String) (h' : reqGraph),
      Req.resolveUp fuel h p = some h' → keys h' = keys h) :
    ∀ (ps : List String) (h h' : reqGraph),
      resolveUpGo (Req.resolveUp fuel) h ps = some h' → keys h' = keys h := by
  intro ps
  induction ps with
  | nil => intro h h' hrun; rw [(Option.some.inj hrun).symm]
  | cons p ps ih =>
      intro h h' hrun
      rw [resolveUpGo] at hrun
      cases hp : Req.resolveUp fuel h p with
      | none => rw [hp] at hrun; simp at hrun
      | some h2 =>
          rw [hp] at hrun
          dsimp only at hrun
          rw [ih _ _ hrun, HK h p h2 hp]

theorem keys_resolveUp : ∀ (fuel : Nat) (h : reqGraph) (k : String)
    (h' : reqGraph), Req.resolveUp fuel h k = some h' → keys h' = keys h := by
  intro fuel
  induction fuel with
  | zero => intro h k h' hrun; simp [Req.resolveUp] at hrun
  | succ n ih =>
      intro h k h' hrun
      rw [Req.resolveUp] at hrun
      cases hgk : getReq h k with
      | none => rw [hgk] at hrun; simp at hrun
      | some rh =>
          rw [hgk] at hrun
          dsimp only at hrun
          rw [keys_resolveUpGo n ih rh.Parents _ h' hrun, keys_setReq]

theorem keys_upPhase (fuel : Nat) : ∀ (ks : List String) (h h' : reqGraph),
    upPhase fuel h ks = some h' → keys h' = keys h := by
  intro ks
  induction ks with
  | nil => intro h h' hrun; rw [(Option.some.inj hrun).symm]
  | cons k ks ih =>
      intro h h' hrun
      rw [upPhase] at hrun
      cases hgk : getReq h k with
      | none => rw [hgk] at hrun; exact ih _ _ hrun
      | some r =>
          rw [hgk] at hrun
          dsimp only at hrun
          by_cases hcode : r.Level = RequirementLevel.CODE
          · rw [if_pos hcode] at hrun
            cases hup : Req.resolveUp fuel h k with
            | none => rw [hup] at hrun; simp at hrun
            | some g1 =>
                rw [hup] at hrun
                dsimp only at hrun
                cases hg1k : getReq g1 k with
                | none => rw [hg1k] at hrun; simp at hrun
                | some r1 =>
                    rw [hg1k] at hrun
                    dsimp only at hrun
                    cases hpar : r1.Parents with
                    | nil => rw [hpar] at hrun; simp at hrun
                    | cons p ps =>
                        rw [hpar] at hrun
                        dsimp only at hrun
                        rw [ih _ _ hrun, keys_setReq, keys_resolveUp fuel h k g1 hup]
          · rw [if_neg hcode] at hrun
            exact ih _ _ hrun

theorem core_fields {r r' : Req} (h : coreOf r = coreOf r') :
    r.Level = r'.Level ∧ r.Parents = r'.Parents ∧ r.Children = r'.Children ∧
      r.Position = r'.Position := by
  simp only [coreOf, Prod.mk.injEq] at h
  tauto

theorem ssOnly_refl (g : reqGraph) : ssOnly g g := fun _ => rfl

theorem ssOnly_trans {g h k : reqGraph} (h1 : ssOnly g h) (h2 : ssOnly h k) :
    ssOnly g k := fun j => (h2 j).trans (h1 j)

theorem ssOnly_setReq (g : reqGraph) (k : String) (f : Req → Req)
    (hf : ∀ r, coreOf (f r) = coreOf r) : ssOnly g (setReq g k f) := by
  intro j
  rw [getReq_setReq]
  split
  · rw [Option.map_map]
    have hcomp : coreOf ∘ f = coreOf := by funext r; exact hf r
    rw [hcomp]
  · rfl

theorem ssOnly_sameStruct {g h : reqGraph} (hss : ssOnly g h) : sameStruct g h := by
  intro j
  have h1 := hss j
  cases hg : getReq g j with
  | none =>
      rw [hg] at h1
      cases hh : getReq h j with
      | none => rfl
      | some rh => rw [hh] at h1; simp at h1
  | some rg =>
      rw [hg] at h1
      cases hh : getReq h j with
      | none => rw [hh] at h1; simp at h1
      | some rh =>
          rw [hh] at h1
          simp only [Option.map_some'] at h1
          obtain ⟨hLv, hPar, hCh, _⟩ := core_fields (Option.some.inj h1)
          simp only [Option.map_some']
          rw [structOf, structOf, hLv, hPar, hCh]

theorem posOf_ssOnly {g h : reqGraph} (hss : ssOnly g h) (x : String) :
    posOf h x = posOf g x := by
  have h1 := hss x
  rw [posOf, posOf]
  cases hg : getReq g x with
  | none =>
      rw [hg] at h1
      cases hh : getReq h x with
      | none => rfl
      | some rh => rw [hh] at h1; simp at h1
  | some rg =>
      rw [hg] at h1
      cases hh : getReq h x with
      | none => rw [hh] at h1; simp at h1
      | some rh =>
          rw [hh] at h1
          simp only [Option.map_some'] at h1
          obtain ⟨_, _, _, hPos⟩ := core_fields (Option.some.inj h1)
          dsimp only
          exact hPos

theorem resolveDownGo_core (fuel : Nat)
    (HC : ∀ (h : reqGraph) (c : String) (h' : reqGraph) (st : RequirementStatus),
      Req.resolveDown fuel h c = some (h', st) → ssOnly h h') (k : String) :
    ∀ (cs : List String) (h h' : reqGraph),
      resolveDownGo (Req.resolveDown fuel) k h cs = some h' → ssOnly h h' := by
  intro cs
  induction cs with
  | nil => intro h h' hrun; rw [(Option.some.inj hrun).symm]; exact ssOnly_refl h
  | cons c cs ih =>
      intro h h' hrun
      rw [resolveDownGo] at hrun
      cases hc : Req.resolveDown fuel h c with
      | none => rw [hc] at hrun; simp at hrun
      | some p =>
          obtain ⟨h2, st⟩ := p
          rw [hc] at hrun
          dsimp only at hrun
          refine ssOnly_trans (ssOnly_trans (HC h c h2 st hc) ?_) (ih _ _ hrun)
          split
          · exact ssOnly_setReq h2 k _ (fun r => rfl)
          · exact ssOnly_refl h2

theorem resolveDown_core : ∀ (fuel : Nat) (h : reqGraph) (k : String)
    (h' : reqGraph) (st : RequirementStatus),
    Req.resolveDown fuel h k = some (h', st) → ssOnly h h' := by
  intro fuel
  induction fuel with
  | zero => intro h k h' st hrun; simp [Req.resolveDown] at hrun
  | succ n ih =>
      intro h k h' st hrun
      rw [Req.resolveDown] at hrun
      cases hgk : getReq h k with
      | none => rw [hgk] at hrun; simp at hrun
      | some rh =>
          rw [hgk] at hrun
          dsimp only at hrun
          by_cases hcond : rh.Level ≠ RequirementLevel.CODE ∧ rh.Children = []
          · rw [if_pos hcond] at hrun
            have hh : h' = _ := (congrArg Prod.fst (Option.some.inj hrun)).symm
            rw [hh]
            exact ssOnly_trans
              (ssOnly_setReq h k
                (fun q => { q with Seen := true, Status := .COMPLETED }) (fun r => rfl))
              (ssOnly_setReq _ k
                (fun q => { q with Status := .NOT_STARTED }) (fun r => rfl))
          · rw [if_neg hcond] at hrun
            cases hgo : resolveDownGo (Req.resolveDown n) k
                (setReq h k (fun q => { q with Seen := true, Status := .COMPLETED }))
                rh.Children with
            | none => rw [hgo] at hrun; simp at hrun
            | some g2 =>
                rw [hgo] at hrun
                dsimp only at hrun
                have hh : h' = g2 := (congrArg Prod.fst (Option.some.inj hrun)).symm
                rw [hh]
                exact ssOnly_trans
                  (ssOnly_setReq h k
                    (fun q => { q with Seen := true, Status := .COMPLETED }) (fun r => rfl))
                  (resolveDownGo_core n ih k rh.Children _ g2 hgo)

theorem downPhase_core (fuel : Nat) : ∀ (ks : List String) (h h' : reqGraph),
    downPhase fuel h ks = some h' → ssOnly h h' := by
  intro ks
  induction ks with
  | nil => intro h h' hrun; rw [(Option.some.inj hrun).symm]; exact ssOnly_refl h
  | cons k ks ih =>
      intro h h' hrun
      rw [downPhase] at hrun
      cases hgk : getReq h k with
      | none => rw [hgk] at hrun; exact ih _ _ hrun
      | some r =>
          rw [hgk] at hrun
          dsimp only at hrun
          by_cases hsys : r.Level = RequirementLevel.SYSTEM
          · rw [if_pos hsys] at hrun
            cases hdown : Req.resolveDown fuel h k with
            | none => rw [hdown] at hrun; simp at hrun
            | some p =>
                obtain ⟨h1, st⟩ := p
                rw [hdown] at hrun
                dsimp only at hrun
                exact ssOnly_trans (resolveDown_core fuel h k h1 st hdown) (ih _ _ hrun)
          · rw [if_neg hsys] at hrun
            exact ih _ _ hrun
/-! ## Sortedness established by the sorting pass -/

theorem posOf_setReq (g : reqGraph) (k : String) (f : Req → Req) (x : String)
    (hf : ∀ r, (f r).Position = r.Position) :
    posOf (setReq g k f) x = posOf g x := by
  rw [posOf, posOf, getReq_setReq]
  by_cases hxk : x = k
  · rw [if_pos hxk]
    cases hg : getReq g x with
    | none => rfl
    | some r => exact hf r
  · rw [if_neg hxk]

theorem posOf_sortPhase : ∀ (ks : List String) (g : reqGraph) (x : String),
    posOf (sortPhase g ks) x = posOf g x := by
  intro ks
  induction ks with
  | nil => intro g x; rfl
  | cons k ks ih =>
      intro g x
      rw [sortPhase, ih]
      exact posOf_setReq g k _ x (fun r => rfl)

theorem getReq_sortPhase_notmem : ∀ (ks : List String) (g : reqGraph)
    (j : String), j ∉ ks → getReq (sortPhase g ks) j = getReq g j := by
  intro ks
  induction ks with
  | nil => intro g j _; rfl
  | cons k ks ih =>
      intro g j hj
      rw [sortPhase, ih _ _ (fun hh => hj (List.mem_cons_of_mem _ hh)),
        getReq_setReq, if_neg (fun hh => hj (by rw [hh]; exact List.mem_cons_self _ _))]

theorem sortedByPos_congr {gA gB : reqGraph} :
    ∀ {l : List String}, (∀ x ∈ l, posOf gA x = posOf gB x) →
      sortedByPos gA l → sortedByPos gB l := by
  intro l
  induction l with
  | nil => intro _ _; exact List.Pairwise.nil
  | cons a l ih =>
      intro h hs
      obtain ⟨h1, h2⟩ := List.pairwise_cons.mp hs
      refine List.pairwise_cons.mpr ⟨?_, ih (fun x hx => h x (List.mem_cons_of_mem _ hx)) h2⟩
      intro b hb
      rw [← h a (List.mem_cons_self _ _), ← h b (List.mem_cons_of_mem _ hb)]
      exact h1 b hb

theorem sortReqs_sorted (g : reqGraph) (l : List String) :
    sortedByPos g (sortReqs g l) := by
  haveI : IsTotal String (fun a b => posOf g a ≤ posOf g b) := ⟨fun a b => le_total _ _⟩
  haveI : IsTrans String (fun a b => posOf g a ≤ posOf g b) :=
    ⟨fun a b c h1 h2 => le_trans h1 h2⟩
  exact List.sorted_insertionSort _ _

theorem sortPhase_sorted : ∀ (ks : List String) (g : reqGraph) (j : String)
    (r : Req), getReq (sortPhase g ks) j = some r → j ∈ ks →
      sortedByPos (sortPhase g ks) r.Parents ∧
        sortedByPos (sortPhase g ks) r.Children := by
  intro ks
  induction ks with
  | nil => intro g j r _ hj; exact absurd hj (List.not_mem_nil j)
  | cons k ks ih =>
      intro g j r hr hj
      by_cases hjks : j ∈ ks
      · rw [sortPhase] at hr ⊢
        exact ih _ j r hr hjks
      · have hjk : j = k := by
          rcases List.mem_cons.mp hj with h1 | h1
          · exact h1
          · exact absurd h1 hjks
        subst hjk
        rw [sortPhase] at hr ⊢
        rw [getReq_sortPhase_notmem ks _ j hjks, getReq_setReq, if_pos rfl] at hr
        cases hg : getReq g j with
        | none => rw [hg] at hr; simp at hr
        | some r0 =>
            rw [hg, Option.map_some'] at hr
            have hrr : r = { r0 with Parents := sortReqs g r0.Parents, Children := sortReqs g r0.Children } :=
              (Option.some.inj hr).symm
            subst hrr
            have hpos : ∀ x, posOf (sortPhase (setReq g j (fun r => { r with Parents := sortReqs g r.Parents, Children := sortReqs g r.Children })) ks) x = posOf g x := by
              intro x
              rw [posOf_sortPhase]
              exact posOf_setReq g j (fun r => { r with Parents := sortReqs g r.Parents, Children := sortReqs g r.Children }) x (fun r => rfl)
            constructor
            · exact sortedByPos_congr (fun x _ => (hpos x).symm)
                (sortReqs_sorted g r0.Parents)
            · exact sortedByPos_congr (fun x _ => (hpos x).symm)
                (sortReqs_sorted g r0.Children)
/-! ## Field preservation through the upward pass -/

theorem resolveUp_entry {h g1 : reqGraph} {fuel : Nat} {k : String}
    (hup : Req.resolveUp fuel h k = some g1) :
    ∀ (j : String) (rj : Req), getReq h j = some rj →
      ∃ rj1, getReq g1 j = some rj1 ∧ rj1.Position = rj.Position ∧
        rj1.Parents = rj.Parents ∧ rj1.Level = rj.Level ∧
        rj1.Children = rj.Children := by
  obtain ⟨_, char⟩ := resolveUp_char fuel h k g1 (sameStruct_refl h) hup
  intro j rj hj
  have hcj := char j
  by_cases hre : upReach fuel h k j = true
  · rw [if_pos hre, hj, Option.map_some'] at hcj
    exact ⟨_, hcj, rfl, rfl, rfl, rfl⟩
  · rw [if_neg hre, hj] at hcj
    exact ⟨rj, hcj, rfl, rfl, rfl, rfl⟩

theorem upPhase_core (fuel : Nat) : ∀ (ks : List String) (h h' : reqGraph),
    upPhase fuel h ks = some h' →
    ∀ (j : String) (rj : Req), getReq h j = some rj →
      (rj.Level ≠ RequirementLevel.CODE ∨ j ∉ ks) →
      ∃ rj', getReq h' j = some rj' ∧ rj'.Position = rj.Position ∧
        rj'.Parents = rj.Parents ∧ rj'.Level = rj.Level ∧
        rj'.Children = rj.Children := by
  intro ks
  induction ks with
  | nil =>
      intro h h' hrun j rj hj _
      rw [(Option.some.inj hrun).symm]
      exact ⟨rj, hj, rfl, rfl, rfl, rfl⟩
  | cons k ks ih =>
      intro h h' hrun j rj hj hdis
      have hdis' : rj.Level ≠ RequirementLevel.CODE ∨ j ∉ ks := by
        rcases hdis with hL | hR
        · exact Or.inl hL
        · exact Or.inr (fun hh => hR (List.mem_cons_of_mem _ hh))
      rw [upPhase] at hrun
      cases hgk : getReq h k with
      | none =>
          rw [hgk] at hrun
          exact ih h h' hrun j rj hj hdis'
      | some rh =>
          rw [hgk] at hrun
          dsimp only at hrun
          by_cases hcode : rh.Level = RequirementLevel.CODE
          · rw [if_pos hcode] at hrun
            cases hup : Req.resolveUp fuel h k with
            | none => rw [hup] at hrun; simp at hrun
            | some g1 =>
                rw [hup] at hrun
                dsimp only at hrun
                obtain ⟨rk1, hg1k, _, hkPar, hkLv, _⟩ := resolveUp_entry hup k rh hgk
                obtain ⟨rj1, hg1j, hjPos, hjPar, hjLv, hjCh⟩ := resolveUp_entry hup j rj hj
                rw [hg1k] at hrun
                dsimp only at hrun
                cases hpar : rk1.Parents with
                | nil => rw [hpar] at hrun; simp at hrun
                | cons p ps =>
                    rw [hpar] at hrun
                    dsimp only at hrun
                    have hjk : j ≠ k := by
                      intro hh
                      subst hh
                      have : rj = rh := Option.some.inj (hj.symm.trans hgk)
                      rcases hdis with hL | hR
                      · rw [this] at hL; exact hL hcode
                      · exact hR (List.mem_cons_self _ _)
                    have hgsetj : getReq (setReq g1 k
                        (fun q => { q with Position := posOf g1 p })) j = some rj1 := by
                      rw [getReq_setReq, if_neg hjk, hg1j]
                    obtain ⟨rj', hgj', hPos', hPar', hLv', hCh'⟩ :=
                      ih _ h' hrun j rj1 hgsetj (by
                        rcases hdis' with hL | hR
                        · exact Or.inl (by rw [hjLv]; exact hL)
                        · exact Or.inr hR)
                    exact ⟨rj', hgj', hPos'.trans hjPos, hPar'.trans hjPar,
                      hLv'.trans hjLv, hCh'.trans hjCh⟩
          · rw [if_neg hcode] at hrun
            exact ih h h' hrun j rj hj hdis'

theorem upPhase_codepos (fuel : Nat) : ∀ (ks : List String), ks.Nodup →
    ∀ (h h' : reqGraph), upPhase fuel h ks = some h' →
    (∀ (x : String) (rx : Req), getReq h x = some rx → ∀ p ∈ rx.Parents,
      ∃ rp, getReq h p = some rp ∧ rp.Level ≠ RequirementLevel.CODE) →
    ∀ (k : String) (rk : Req), k ∈ ks → getReq h k = some rk →
      rk.Level = RequirementLevel.CODE →
      ∃ rk' p ps, getReq h' k = some rk' ∧ rk'.Parents = p :: ps ∧
        rk'.Position = posOf h' p := by
  intro ks
  induction ks with
  | nil => intro _ h h' _ _ k rk hk; exact absurd hk (List.not_mem_nil k)
  | cons x ks ih =>
      intro hN h h' hrun hP k rk hk hgk hkCode
      obtain ⟨hxks, hNks⟩ := List.nodup_cons.mp hN
      rw [upPhase] at hrun
      cases hgx : getReq h x with
      | none =>
          rw [hgx] at hrun
          rcases List.mem_cons.mp hk with h1 | h1
          · subst h1; rw [hgx] at hgk; simp at hgk
          · exact ih hNks h h' hrun hP k rk h1 hgk hkCode
      | some rx =>
          rw [hgx] at hrun
          dsimp only at hrun
          by_cases hxcode : rx.Level = RequirementLevel.CODE
          · rw [if_pos hxcode] at hrun
            cases hup : Req.resolveUp fuel h x with
            | none => rw [hup] at hrun; simp at hrun
            | some g1 =>
                rw [hup] at hrun
                dsimp only at hrun
                obtain ⟨rx1, hg1x, hxPos, hxPar, hxLv, _⟩ := resolveUp_entry hup x rx hgx
                rw [hg1x] at hrun
                dsimp only at hrun
                cases hpar : rx1.Parents with
                | nil => rw [hpar] at hrun; simp at hrun
                | cons p ps =>
                    rw [hpar] at hrun
                    dsimp only at hrun
                    have hpmem : p ∈ rx.Parents := by
                      rw [← hxPar, hpar]
                      exact List.mem_cons_self _ _
                    obtain ⟨rp, hgp, hpnc⟩ := hP x rx hgx p hpmem
                    obtain ⟨rp1, hg1p, hpPos, _, hpLv, _⟩ := resolveUp_entry hup p rp hgp
                    have hpx : p ≠ x := by
                      intro hh
                      subst hh
                      exact hpnc (by rw [Option.some.inj (hgp.symm.trans hgx)]; exact hxcode)
                    have hgsetp : getReq (setReq g1 x
                        (fun q => { q with Position := posOf g1 p })) p = some rp1 := by
                      rw [getReq_setReq, if_neg hpx, hg1p]
                    obtain ⟨rp', hgp', hpPos', _, _, _⟩ :=
                      upPhase_core fuel ks _ h' hrun p rp1 hgsetp
                        (Or.inl (by rw [hpLv]; exact hpnc))
                    have hposh' : posOf h' p = rp'.Position := by rw [posOf, hgp']
                    have hposg1 : posOf g1 p = rp1.Position := by rw [posOf, hg1p]
                    rcases List.mem_cons.mp hk with h1 | h1
                    · subst h1
                      have hrkx : rk = rx := Option.some.inj (hgk.symm.trans hgx)
                      have hgsetk : getReq (setReq g1 k
                          (fun q => { q with Position := posOf g1 p })) k =
                          some { rx1 with Position := posOf g1 p } := by
                        rw [getReq_setReq, if_pos rfl, hg1x, Option.map_some']
                      obtain ⟨rk', hgk', hkPos', hkPar', _, _⟩ :=
                        upPhase_core fuel ks _ h' hrun k _ hgsetk (Or.inr hxks)
                      refine ⟨rk', p, ps, hgk', ?_, ?_⟩
                      · rw [hkPar']
                        exact hpar
                      · rw [hkPos', hposh', hpPos', hposg1]
                    · have hkx : k ≠ x := fun hh => hxks (hh ▸ h1)
                      obtain ⟨rk1, hg1k, _, _, hkLv, _⟩ := resolveUp_entry hup k rk hgk
                      have hgsetk : getReq (setReq g1 x
                          (fun q => { q with Position := posOf g1 p })) k = some rk1 := by
                        rw [getReq_setReq, if_neg hkx, hg1k]
                      have hs : sameStruct h (setReq g1 x
                          (fun q => { q with Position := posOf g1 p })) := by
                        have hs1 := (resolveUp_char fuel h x g1 (sameStruct_refl h) hup).1
                        exact sameStruct_setReq hs1 x
                          (fun q => { q with Position := posOf g1 p }) (fun r => rfl)
                      have hP' : ∀ (y : String) (ry : Req),
                          getReq (setReq g1 x (fun q => { q with Position := posOf g1 p })) y =
                            some ry → ∀ q ∈ ry.Parents,
                          ∃ rq, getReq (setReq g1 x
                            (fun q2 => { q2 with Position := posOf g1 p })) q = some rq ∧
                            rq.Level ≠ RequirementLevel.CODE := by
                        intro y ry hy q hq
                        obtain ⟨ry0, hy0, hst⟩ := sameStruct_get_rev hs hy
                        obtain ⟨_, _, hParEq⟩ := struct_fields hst
                        rw [hParEq] at hq
                        obtain ⟨rq0, hq0, hqnc⟩ := hP y ry0 hy0 q hq
                        obtain ⟨rq1, hq1, hstq⟩ := sameStruct_get hs hq0
                        obtain ⟨hLvq, _, _⟩ := struct_fields hstq
                        exact ⟨rq1, hq1, by rw [hLvq]; exact hqnc⟩
                      obtain ⟨rk', p', ps', hgk', hpar', hpos'⟩ :=
                        ih hNks _ h' hrun hP' k rk1 h1 hgsetk (by rw [hkLv]; exact hkCode)
                      exact ⟨rk', p', ps', hgk', hpar', hpos'⟩
          · rw [if_neg hxcode] at hrun
            rcases List.mem_cons.mp hk with h1 | h1
            · subst h1
              have : rk = rx := Option.some.inj (hgk.symm.trans hgx)
              rw [this] at hkCode
              exact absurd hkCode hxcode
            · exact ih hNks h h' hrun hP k rk h1 hgk hkCode
/-! ## C7: link-collection order after Resolve -/

/-- C7 counterexample: on a level-correct five-node graph, `Resolve` finishes
cleanly but the CODE node's position inheritance runs after the sorting pass,
so a parent's resolved-child list ends up out of position order (positions
read 2, 5, 1). -/
theorem c7_counterexample :
    reqGraph.Resolve 9 exG7 = some (exG7f, none) ∧
    (getReq exG7f "P7").map (fun r => r.Children) = some ["L7", "M7", "F7"] ∧
    (getReq exG7f "P7").map (fun r => r.Children.map (posOf exG7f)) =
      some [2, 5, 1] ∧
    ¬ sortedByPos exG7f ["L7", "M7", "F7"] := by
  refine ⟨by decide, by decide, by decide, ?_⟩
  intro h
  exact absurd ((List.pairwise_cons.mp ((List.pairwise_cons.mp h).2)).1 "F7"
    (by decide)) (by decide)

/-- C7 (amended): after a clean `Resolve` on a duplicate-free graph whose
resolved parent links point to present nodes of strictly lower level, every
node's resolved-parent list is sorted by the referenced nodes' final
positions, and every CODE node's position equals the position of its first
resolved parent.  (The resolved-child lists are not in general sorted —
see the counterexample.) -/
theorem c7_parents_sorted (g : reqGraph) (fuel : Nat) (gf : reqGraph)
    (hP : ParentsOkB (linkAll g (keys g)).1 = true)
    (hN : (keys g).Nodup)
    (hrun : reqGraph.Resolve fuel g = some (gf, none)) :
    ∀ j rj, getReq gf j = some rj →
      sortedByPos gf rj.Parents ∧
      (rj.Level = RequirementLevel.CODE →
        ∀ p ps, rj.Parents = p :: ps → rj.Position = posOf gf p) := by
  rw [reqGraph.Resolve] at hrun
  dsimp only at hrun
  by_cases hjoin : String.join (linkAll g (keys g)).2 ≠ ""
  · rw [if_pos hjoin] at hrun
    have h2 := congrArg Prod.snd (Option.some.inj hrun)
    simp at h2
  · rw [if_neg hjoin] at hrun
    cases hdown : downPhase fuel (linkAll g (keys g)).1 (keys (linkAll g (keys g)).1) with
    | none => rw [hdown] at hrun; simp at hrun
    | some g2 =>
        rw [hdown] at hrun
        dsimp only at hrun
        cases hup : upPhase fuel (sortPhase g2 (keys g2)) (keys (sortPhase g2 (keys g2))) with
        | none => rw [hup] at hrun; simp at hrun
        | some g4 =>
            rw [hup] at hrun
            dsimp only at hrun
            have hgf : g4 = gf := congrArg Prod.fst (Option.some.inj hrun)
            rw [hgf] at hup
            have hss2 : ssOnly (linkAll g (keys g)).1 g2 :=
              downPhase_core fuel (keys (linkAll g (keys g)).1) _ g2 hdown
            have hsL2 : sameStruct (linkAll g (keys g)).1 g2 := ssOnly_sameStruct hss2
            have hkeys2 : keys g2 = keys (linkAll g (keys g)).1 :=
              keys_downPhase fuel (keys (linkAll g (keys g)).1) _ g2 hdown
            have hkeys3 : keys (sortPhase g2 (keys g2)) = keys g2 :=
              keys_sortPhase (keys g2) g2
            have hkeysL : keys (linkAll g (keys g)).1 = keys g := keys_linkAll (keys g) g
            have hN3 : (keys (sortPhase g2 (keys g2))).Nodup := by
              rw [hkeys3, hkeys2, hkeysL]
              exact hN
            have hPpL : ParentsOkP (linkAll g (keys g)).1 := parentsOkP_of_B hP
            have permL3 : permStruct (linkAll g (keys g)).1 (sortPhase g2 (keys g2)) :=
              permStruct_trans (sameStruct_permStruct hsL2) (sortPhase_perm (keys g2) g2)
            have hP3 : ∀ (x : String) (rx : Req),
                getReq (sortPhase g2 (keys g2)) x = some rx → ∀ p ∈ rx.Parents,
                ∃ rp, getReq (sortPhase g2 (keys g2)) p = some rp ∧
                  rp.Level ≠ RequirementLevel.CODE := by
              intro x rx hx p hp
              rcases permL3 x with ⟨_, h2⟩ | ⟨rxL, rx3, h1, h2, hLv, _, hPar⟩
              · rw [hx] at h2; simp at h2
              · rw [hx] at h2
                have he : rx3 = rx := (Option.some.inj h2).symm
                subst he
                have hpL : p ∈ rxL.Parents := hPar.mem_iff.mpr hp
                obtain ⟨rpL, hgpL, hlt⟩ := hPpL x rxL h1 p hpL
                have hpnc : rpL.Level ≠ RequirementLevel.CODE := by
                  intro hh
                  rw [hh] at hlt
                  have h3 := levelNat_le3 rxL.Level
                  rw [show levelNat RequirementLevel.CODE = 3 from rfl] at hlt
                  omega
                rcases permL3 p with ⟨h3, _⟩ | ⟨rpL', rp3, h3, h4, hLvp, _, _⟩
                · rw [hgpL] at h3; simp at h3
                · rw [hgpL] at h3
                  have he2 : rpL' = rpL := (Option.some.inj h3).symm
                  subst he2
                  exact ⟨rp3, h4, by rw [← hLvp]; exact hpnc⟩
            have hs3f : sameStruct (sortPhase g2 (keys g2)) gf :=
              (upPhase_char fuel (keys (sortPhase g2 (keys g2)))
                (sortPhase g2 (keys g2)) gf
                (sameStruct_refl (sortPhase g2 (keys g2))) hup).1
            intro j rj hj
            obtain ⟨r3, hg3j, hst⟩ := sameStruct_get_rev hs3f hj
            obtain ⟨hLvEq, _, hParEq⟩ := struct_fields hst
            have hmem2 : j ∈ keys g2 := by
              rw [← hkeys3]
              exact getReq_mem_keys hg3j
            have hsort3 : sortedByPos (sortPhase g2 (keys g2)) r3.Parents :=
              (sortPhase_sorted (keys g2) g2 j r3 hg3j hmem2).1
            have hposstable : ∀ x ∈ r3.Parents,
                posOf (sortPhase g2 (keys g2)) x = posOf gf x := by
              intro x hx
              obtain ⟨rp3, hgp3, hpnc⟩ := hP3 j r3 hg3j x hx
              obtain ⟨rp', hgp', hpos', _, _, _⟩ :=
                upPhase_core fuel (keys (sortPhase g2 (keys g2))) _ gf hup x rp3
                  hgp3 (Or.inl hpnc)
              rw [posOf, posOf, hgp3, hgp']
              exact hpos'.symm
            constructor
            · rw [hParEq]
              exact sortedByPos_congr hposstable hsort3
            · intro hCode p ps hpps
              obtain ⟨rk', p', ps', hgk', hpar', hpos'⟩ :=
                upPhase_codepos fuel (keys (sortPhase g2 (keys g2))) hN3 _ gf hup hP3
                  j r3 (by rw [hkeys3]; exact hmem2) hg3j (by rw [← hLvEq]; exact hCode)
              have hrne : rk' = rj := Option.some.inj (hgk'.symm.trans hj)
              subst hrne
              rw [hpps] at hpar'
              have hpe : p = p' := ((List.cons.injEq p ps p' ps').mp hpar').1
              rw [hpos', ← hpe]

theorem c7_parents_sorted_w :
    sortedByPos exG7wf exC7wf.Parents ∧ exC7wf.Position = posOf exG7wf "Hw" := by
  have h := c7_parents_sorted exG7w 9 exG7wf (by decide) (by decide) (by decide)
    "Cw" exC7wf (by decide)
  exact ⟨h.1, h.2 (by decide) "Hw" [] (by decide)⟩
